import Mathlib

/-!
# The B+ tree of `aggnr/goframe` (`src/db/db.go`)

A shallow embedding of the tree engine of `src/db/db.go` and a verification of
its specification against it.

## How the Go code is rendered

* A node is a value; the `children` of a node are the nodes it owns (the code
  never stores one node under two parents).  A Go method that mutates a node
  through its pointer becomes a function returning the mutated node.
* A slice is the list of its elements `s[0] .. s[len(s)-1]`.  A reslice
  `s[lo:]` panics unless `lo <= len(s)`, as in Go.  Capacity is not modelled:
  every reslice `s[:hi]` of the source is reached only with `hi <= len(s)`
  (lines 58, 86, 87, 140, 166, 170, 203, 204), or stands on a line that panics
  whatever the capacity is (lines 89, 90), and no two nodes share a backing
  array.
* Keys are Go `int`s that are only compared and copied, never added, so `Int`
  renders them exactly.
* A run-time panic (index or slice bound out of range) is the result
  `Fault.panic l`, `l` being the line of `db.go` on which it is raised.
* The recursive methods take a fuel argument bounding the recursion depth; the
  public operations supply the number of nodes of the tree, which is never
  used up (`Search_fuel`, `Insert_fuel`, `Delete_fuel` below).
* Pointers matter in two places.  `next` is rendered as the address of the next
  leaf, every node carrying its own address `addr`; fresh addresses are taken
  from the counter `alloc` of the tree.  The test `parent == tree.root` of
  `mergeChildren` is rendered by the flag `isRoot` that says whether the node at
  hand is the one `tree.root` points to, and the assignment
  `tree.root = leftChild` by returning which node became the root.
* The mutexes are not modelled.
-/

namespace Db

/-- Line 9: `maxKeys = 4 // Maximum number of keys in a node`. -/
def maxKeys : Nat := 4

/-- Outcome of a call that does not return normally. -/
inductive Fault where
  /-- a Go run-time panic raised on the given line of `src/db/db.go` -/
  | panic (line : Nat)
  /-- the recursion bound of the model was used up (never the case for the
  public operations) -/
  | outOfFuel
  deriving DecidableEq, Repr

/-- Lines 12-18: `BPlusTreeNode`.  `next` holds the address of the next leaf and
`addr` is the address of the node itself. -/
inductive BPlusTreeNode where
  | mk (keys : List Int) (children : List BPlusTreeNode) (isLeaf : Bool)
      (next : Option Nat) (addr : Nat)

namespace BPlusTreeNode

/-- Field `keys`. -/
def keys : BPlusTreeNode → List Int
  | mk k _ _ _ _ => k

/-- Field `children`. -/
def children : BPlusTreeNode → List BPlusTreeNode
  | mk _ c _ _ _ => c

/-- Field `isLeaf`. -/
def isLeaf : BPlusTreeNode → Bool
  | mk _ _ l _ _ => l

/-- Field `next`. -/
def next : BPlusTreeNode → Option Nat
  | mk _ _ _ n _ => n

/-- Address of the node. -/
def addr : BPlusTreeNode → Nat
  | mk _ _ _ _ a => a

/-- Assignment `node.keys = ks`. -/
def setKeys (n : BPlusTreeNode) (ks : List Int) : BPlusTreeNode :=
  mk ks n.children n.isLeaf n.next n.addr

/-- Assignment `node.children = cs`. -/
def setChildren (n : BPlusTreeNode) (cs : List BPlusTreeNode) : BPlusTreeNode :=
  mk n.keys cs n.isLeaf n.next n.addr

/-- Assignment `node.next = p`. -/
def setNext (n : BPlusTreeNode) (p : Option Nat) : BPlusTreeNode :=
  mk n.keys n.children n.isLeaf p n.addr

end BPlusTreeNode

open BPlusTreeNode

/-- Lines 20-23: `BPlusTree`; `alloc` is the next unused node address. -/
structure BPlusTree where
  root : BPlusTreeNode
  alloc : Nat

/-- Go `s[i]`, panicking on `line` when `i` is out of range. -/
def elemAt {α : Type} (s : List α) (i : Nat) (line : Nat) : Except Fault α :=
  match s[i]? with
  | some x => .ok x
  | none => .error (.panic line)

/-- The loop `i := 0; for i < len(keys) && keys[i] < key { i++ }` of lines 54-57
and 60-63, which is also the loop `for i < len(keys) && key > keys[i]` of lines
108-111 and 132-135: the number of leading keys smaller than `key`. -/
def scan : List Int → Int → Nat
  | [], _ => 0
  | k :: ks, key => if k < key then scan ks key + 1 else 0

mutual
/-- Number of nodes reachable from a node through `children`: a bound on the
depth of any recursion that descends from it. -/
def size : BPlusTreeNode → Nat
  | mk _ children _ _ _ => sizeList children + 1
/-- Number of nodes reachable from the nodes of a list. -/
def sizeList : List BPlusTreeNode → Nat
  | [] => 0
  | c :: cs => size c + sizeList cs
end

/-- Lines 25-32: `NewBPlusTree`. -/
def NewBPlusTree : BPlusTree :=
  { root := mk [] [] true none 0, alloc := 1 }

/-- Lines 79-96: `splitChild(parent, index)`; `fresh` is the address of the
node allocated on line 81.  Returns the mutated parent. -/
def splitChild (parent : BPlusTreeNode) (index : Nat) (fresh : Nat) :
    Except Fault BPlusTreeNode :=
  -- line 80
  match elemAt parent.children index 80 with
  | .error e => .error e
  | .ok child =>
    -- line 82: child.keys[maxKeys/2+1:]
    if child.keys.length < maxKeys / 2 + 1 then .error (.panic 82)
    -- line 83: child.children[maxKeys/2+1:]
    else if child.children.length < maxKeys / 2 + 1 then .error (.panic 83)
    else
      let newKeys := child.keys.drop (maxKeys / 2 + 1)
      let newChildren := child.children.drop (maxKeys / 2 + 1)
      -- lines 86, 87
      let childKeys := child.keys.take (maxKeys / 2)
      let childChildren := child.children.take (maxKeys / 2 + 1)
      -- line 89: parent.keys[:index], child.keys[maxKeys/2], parent.keys[index:]
      if parent.keys.length < index then .error (.panic 89)
      else
        match elemAt childKeys (maxKeys / 2) 89 with
        | .error e => .error e
        | .ok sep =>
          -- lines 92-95
          let newChild := mk newKeys newChildren child.isLeaf
            (if child.isLeaf then child.next else none) fresh
          let child1 := mk childKeys childChildren child.isLeaf
            (if child.isLeaf then some fresh else child.next) child.addr
          -- lines 89, 90
          .ok (mk (parent.keys.take index ++ sep :: parent.keys.drop index)
            (parent.children.take index ++ child1 :: newChild :: parent.children.drop (index + 1))
            parent.isLeaf parent.next parent.addr)

/-- Lines 49-77: `insertNonFull(node, key)`.  Returns the mutated node and the
allocation counter. -/
def insertNonFull : Nat → BPlusTreeNode → Int → Nat → Except Fault (BPlusTreeNode × Nat)
  | 0, _, _, _ => .error .outOfFuel
  | fuel + 1, node, key, alloc =>
    if node.isLeaf then
      -- lines 54-58
      let i := scan node.keys key
      .ok (node.setKeys (node.keys.take i ++ key :: node.keys.drop i), alloc)
    else
      -- lines 60-64
      let i := scan node.keys key
      match elemAt node.children i 64 with
      | .error e => .error e
      | .ok child =>
        if child.keys.length = maxKeys then
          -- lines 68-71
          match splitChild node i alloc with
          | .error e => .error e
          | .ok node1 =>
            match elemAt node1.keys i 69 with
            | .error e => .error e
            | .ok sep =>
              let j := if key > sep then i + 1 else i
              -- line 75
              match elemAt node1.children j 75 with
              | .error e => .error e
              | .ok c =>
                match insertNonFull fuel c key (alloc + 1) with
                | .error e => .error e
                | .ok (c1, alloc1) => .ok (node1.setChildren (node1.children.set j c1), alloc1)
        else
          -- line 75
          match insertNonFull fuel child key alloc with
          | .error e => .error e
          | .ok (c1, alloc1) => .ok (node.setChildren (node.children.set i c1), alloc1)

/-- Lines 34-47: `Insert(key)`. -/
def Insert (tree : BPlusTree) (key : Int) : Except Fault BPlusTree :=
  if tree.root.keys.length = maxKeys then
    -- lines 40-44
    let newRoot := mk [] [tree.root] false none tree.alloc
    match splitChild newRoot 0 (tree.alloc + 1) with
    | .error e => .error e
    | .ok newRoot1 =>
      match insertNonFull (size newRoot1) newRoot1 key (tree.alloc + 2) with
      | .error e => .error e
      | .ok (r, a) => .ok { root := r, alloc := a }
  else
    match insertNonFull (size tree.root) tree.root key tree.alloc with
    | .error e => .error e
    | .ok (r, a) => .ok { root := r, alloc := a }

/-- Lines 104-119: `search(node, key)`. -/
def search : Nat → BPlusTreeNode → Int → Except Fault Bool
  | 0, _, _ => .error .outOfFuel
  | fuel + 1, node, key =>
    let i := scan node.keys key
    if node.keys[i]? = some key then .ok true
    else if node.isLeaf then .ok false
    else
      match elemAt node.children i 118 with
      | .error e => .error e
      | .ok child => search fuel child key

/-- Lines 98-102: `Search(key)`. -/
def Search (tree : BPlusTree) (key : Int) : Except Fault Bool :=
  search (size tree.root) tree.root key

/-- Lines 195-213: `mergeChildren(parent, index)`.  `isRoot` says whether
`parent == tree.root`.  Returns the mutated parent and whether line 211 has
made `tree.root` point to the merged child, which is then child `index` of the
returned parent. -/
def mergeChildren (parent : BPlusTreeNode) (index : Nat) (isRoot : Bool) :
    Except Fault (BPlusTreeNode × Bool) :=
  -- line 196
  match elemAt parent.children index 196 with
  | .error e => .error e
  | .ok leftChild =>
    -- line 197
    match elemAt parent.children (index + 1) 197 with
    | .error e => .error e
    | .ok rightChild =>
      -- line 199
      match elemAt parent.keys index 199 with
      | .error e => .error e
      | .ok sep =>
        -- lines 199-201, 206-208
        let left1 := mk (leftChild.keys ++ [sep] ++ rightChild.keys)
          (leftChild.children ++ rightChild.children) leftChild.isLeaf
          (if leftChild.isLeaf then rightChild.next else leftChild.next) leftChild.addr
        -- line 203
        let parentKeys := parent.keys.take index ++ parent.keys.drop (index + 1)
        -- line 204
        let parentChildren := parent.children.take index ++ left1 :: parent.children.drop (index + 2)
        -- lines 210-212
        .ok (mk parentKeys parentChildren parent.isLeaf parent.next parent.addr,
          isRoot && parentKeys.length == 0)

/-- Lines 159-171 of `fixChild`: borrow a key from the left sibling. -/
def borrowLeft (parent : BPlusTreeNode) (index : Nat) (child leftSibling : BPlusTreeNode) :
    Except Fault BPlusTreeNode :=
  -- line 164
  match elemAt parent.keys (index - 1) 164 with
  | .error e => .error e
  | .ok sep =>
    -- line 165
    match elemAt leftSibling.keys (leftSibling.keys.length - 1) 165 with
    | .error e => .error e
    | .ok last =>
      let parentKeys := parent.keys.set (index - 1) last
      -- line 166
      let leftKeys := leftSibling.keys.take (leftSibling.keys.length - 1)
      if child.isLeaf then
        let child1 := child.setKeys (sep :: child.keys)
        let left1 := leftSibling.setKeys leftKeys
        .ok (mk parentKeys ((parent.children.set (index - 1) left1).set index child1)
          parent.isLeaf parent.next parent.addr)
      else
        -- lines 169, 170
        match elemAt leftSibling.children (leftSibling.children.length - 1) 169 with
        | .error e => .error e
        | .ok lc =>
          let child1 := mk (sep :: child.keys) (lc :: child.children) child.isLeaf
            child.next child.addr
          let left1 := mk leftKeys
            (leftSibling.children.take (leftSibling.children.length - 1))
            leftSibling.isLeaf leftSibling.next leftSibling.addr
          .ok (mk parentKeys ((parent.children.set (index - 1) left1).set index child1)
            parent.isLeaf parent.next parent.addr)

/-- Lines 173-185 of `fixChild`: borrow a key from the right sibling. -/
def borrowRight (parent : BPlusTreeNode) (index : Nat) (child rightSibling : BPlusTreeNode) :
    Except Fault BPlusTreeNode :=
  -- line 178
  match elemAt parent.keys index 178 with
  | .error e => .error e
  | .ok sep =>
    -- line 179
    match elemAt rightSibling.keys 0 179 with
    | .error e => .error e
    | .ok first =>
      let parentKeys := parent.keys.set index first
      -- line 180
      let rightKeys := rightSibling.keys.drop 1
      if child.isLeaf then
        let child1 := child.setKeys (child.keys ++ [sep])
        let right1 := rightSibling.setKeys rightKeys
        .ok (mk parentKeys ((parent.children.set index child1).set (index + 1) right1)
          parent.isLeaf parent.next parent.addr)
      else
        -- lines 183, 184
        match elemAt rightSibling.children 0 183 with
        | .error e => .error e
        | .ok rc =>
          let child1 := mk (child.keys ++ [sep]) (child.children ++ [rc]) child.isLeaf
            child.next child.addr
          let right1 := mk rightKeys (rightSibling.children.drop 1)
            rightSibling.isLeaf rightSibling.next rightSibling.addr
          .ok (mk parentKeys ((parent.children.set index child1).set (index + 1) right1)
            parent.isLeaf parent.next parent.addr)

/-- The condition of line 158, `index > 0 &&
len(parent.children[index-1].keys) > maxKeys/2`: the left sibling when it holds. -/
def leftSpare (parent : BPlusTreeNode) (index : Nat) : Option BPlusTreeNode :=
  if index > 0 then
    match parent.children[index - 1]? with
    | some s => if s.keys.length > maxKeys / 2 then some s else none
    | none => none
  else none

/-- The condition of line 172, `index < len(parent.children)-1 &&
len(parent.children[index+1].keys) > maxKeys/2`: the right sibling when it
holds. -/
def rightSpare (parent : BPlusTreeNode) (index : Nat) : Option BPlusTreeNode :=
  if index < parent.children.length - 1 then
    match parent.children[index + 1]? with
    | some s => if s.keys.length > maxKeys / 2 then some s else none
    | none => none
  else none

/-- Lines 156-193: `fixChild(parent, index)`.  Returns the mutated parent and,
when the merge has made `tree.root` point to a child of it, the position of
that child. -/
def fixChild (parent : BPlusTreeNode) (index : Nat) (isRoot : Bool) :
    Except Fault (BPlusTreeNode × Option Nat) :=
  -- line 157
  match elemAt parent.children index 157 with
  | .error e => .error e
  | .ok child =>
    -- line 158
    match leftSpare parent index with
    | some leftSibling =>
      match borrowLeft parent index child leftSibling with
      | .error e => .error e
      | .ok p => .ok (p, none)
    | none =>
      -- line 172
      match rightSpare parent index with
      | some rightSibling =>
        match borrowRight parent index child rightSibling with
        | .error e => .error e
        | .ok p => .ok (p, none)
      | none =>
        -- lines 188-191
        let j := if index > 0 then index - 1 else index
        match mergeChildren parent j isRoot with
        | .error e => .error e
        | .ok (p, moved) => .ok (p, if moved then some j else none)

/-- Lines 127-154: `delete(node, key)`.  `isRoot` says whether
`node == tree.root`.  Returns the mutated node and, when `tree.root` has been
made to point to a node below it, that node as it is when the call returns. -/
def delete : Nat → BPlusTreeNode → Int → Bool →
    Except Fault (BPlusTreeNode × Option BPlusTreeNode)
  | 0, _, _, _ => .error .outOfFuel
  | fuel + 1, node, key, isRoot =>
    -- lines 132-135
    let i := scan node.keys key
    if node.isLeaf then
      -- lines 139-141
      if node.keys[i]? = some key then
        .ok (node.setKeys (node.keys.take i ++ node.keys.drop (i + 1)), none)
      else .ok (node, none)
    else
      -- line 144
      match elemAt node.children i 144 with
      | .error e => .error e
      | .ok child =>
        -- lines 146-151
        match (if child.keys.length = maxKeys / 2 then fixChild node i isRoot
               else .ok (node, none)) with
        | .error e => .error e
        | .ok (node1, moved) =>
          -- line 152
          match elemAt node1.children i 152 with
          | .error e => .error e
          | .ok c =>
            match delete fuel c key (moved == some i) with
            | .error e => .error e
            | .ok (c1, r) =>
              let node2 := node1.setChildren (node1.children.set i c1)
              .ok (node2,
                match r with
                | some x => some x
                | none =>
                  match moved with
                  | some j => node2.children[j]?
                  | none => none)

/-- Lines 121-125: `Delete(key)`. -/
def Delete (tree : BPlusTree) (key : Int) : Except Fault BPlusTree :=
  match delete (size tree.root) tree.root key true with
  | .error e => .error e
  | .ok (_, some r) => .ok { root := r, alloc := tree.alloc }
  | .ok (node, none) => .ok { root := node, alloc := tree.alloc }

/-! ## Sequences of operations -/

/-- A call of one of the two mutating public operations. -/
inductive Op where
  | insert (key : Int)
  | delete (key : Int)

/-- Run one call. -/
def Op.run : Op → BPlusTree → Except Fault BPlusTree
  | .insert key, tree => Insert tree key
  | .delete key, tree => Delete tree key

/-- Run calls one after the other, stopping at the first that panics. -/
def runOps : BPlusTree → List Op → Except Fault BPlusTree
  | tree, [] => .ok tree
  | tree, op :: ops =>
    match op.run tree with
    | .error e => .error e
    | .ok tree1 => runOps tree1 ops

/-! ## The vocabulary of the specification -/

mutual
/-- Keys of all nodes of the tree below (and including) a node: those of the
node followed, when it is not a leaf, by those of its children. -/
def allKeys : BPlusTreeNode → List Int
  | mk keys children isLeaf _ _ => if isLeaf then keys else keys ++ allKeysList children
/-- Keys of all nodes of a list of subtrees. -/
def allKeysList : List BPlusTreeNode → List Int
  | [] => []
  | c :: cs => allKeys c ++ allKeysList cs
end

mutual
/-- In-order key sequence of a subtree: the keys of a leaf; for an internal
node child 0's sequence, `keys[0]`, child 1's sequence, `keys[1]`, ... -/
def inorder : BPlusTreeNode → List Int
  | mk keys children isLeaf _ _ => if isLeaf then keys else inorderList children keys
/-- Interleaving of the in-order sequences of `children` with `keys`. -/
def inorderList : List BPlusTreeNode → List Int → List Int
  | [], ks => ks
  | c :: cs, [] => inorder c ++ inorderList cs []
  | c :: cs, k :: ks => inorder c ++ k :: inorderList cs ks
end

mutual
/-- The leaves of a subtree, left to right. -/
def leaves : BPlusTreeNode → List BPlusTreeNode
  | mk keys children isLeaf next addr =>
    if isLeaf then [mk keys children isLeaf next addr] else leavesList children
/-- The leaves of a list of subtrees, left to right. -/
def leavesList : List BPlusTreeNode → List BPlusTreeNode
  | [] => []
  | c :: cs => leaves c ++ leavesList cs
end

mutual
/-- The property `p` holds of every node of the subtree. -/
def AllNodes (p : BPlusTreeNode → Prop) : BPlusTreeNode → Prop
  | mk keys children isLeaf next addr =>
    p (mk keys children isLeaf next addr) ∧ (isLeaf = false → AllNodesList p children)
/-- The property `p` holds of every node of every subtree of the list. -/
def AllNodesList (p : BPlusTreeNode → Prop) : List BPlusTreeNode → Prop
  | [] => True
  | c :: cs => AllNodes p c ∧ AllNodesList p cs
end

mutual
/-- Decision procedure for `AllNodes`. -/
def decAllNodes (p : BPlusTreeNode → Prop) [DecidablePred p] :
    (n : BPlusTreeNode) → Decidable (AllNodes p n)
  | mk keys children isLeaf next addr =>
    have : Decidable (AllNodesList p children) := decAllNodesList p children
    inferInstanceAs (Decidable (p (mk keys children isLeaf next addr) ∧
      (isLeaf = false → AllNodesList p children)))
/-- Decision procedure for `AllNodesList`. -/
def decAllNodesList (p : BPlusTreeNode → Prop) [DecidablePred p] :
    (l : List BPlusTreeNode) → Decidable (AllNodesList p l)
  | [] => inferInstanceAs (Decidable True)
  | c :: cs =>
    have : Decidable (AllNodes p c) := decAllNodes p c
    have : Decidable (AllNodesList p cs) := decAllNodesList p cs
    inferInstanceAs (Decidable (AllNodes p c ∧ AllNodesList p cs))
end

instance (p : BPlusTreeNode → Prop) [DecidablePred p] (n : BPlusTreeNode) :
    Decidable (AllNodes p n) := decAllNodes p n

/-- Routing bounds with both ends closed: every key `k` of child `i`'s subtree
satisfies `keys[i-1] <= k <= keys[i]`, a bound that does not exist being no
constraint. -/
def Routing (keys : List Int) (children : List BPlusTreeNode) : Prop :=
  ∀ i < children.length, ∀ c ∈ children[i]?, ∀ k ∈ allKeys c,
    (0 < i → ∀ lo ∈ keys[i - 1]?, lo ≤ k) ∧ (∀ hi ∈ keys[i]?, k ≤ hi)

instance (keys : List Int) (children : List BPlusTreeNode) :
    Decidable (Routing keys children) := by
  unfold Routing; infer_instance

/-- What a well-formed tree asks of one node: its keys are non-decreasing and,
if it is internal, `len(children) == len(keys)+1` and the routing bounds hold. -/
def NodeOK (n : BPlusTreeNode) : Prop :=
  n.keys.Sorted (· ≤ ·) ∧
    (n.isLeaf = false → n.children.length = n.keys.length + 1 ∧ Routing n.keys n.children)

instance : DecidablePred NodeOK := fun n => by
  unfold NodeOK; infer_instance

/-- A well-formed tree: every node is `NodeOK`. -/
def WellFormed (n : BPlusTreeNode) : Prop := AllNodes NodeOK n

instance : DecidablePred WellFormed := fun n => by
  unfold WellFormed; infer_instance

/-- All leaves of the subtree are `h` levels below its top, and every internal
node has `len(children) == len(keys)+1`. -/
def Shaped : Nat → BPlusTreeNode → Prop
  | 0, n => n.isLeaf = true
  | h + 1, n =>
    n.isLeaf = false ∧ n.children.length = n.keys.length + 1 ∧ ∀ c ∈ n.children, Shaped h c

/-- Decision procedure for `Shaped`. -/
def decShaped : (h : Nat) → (n : BPlusTreeNode) → Decidable (Shaped h n)
  | 0, n => inferInstanceAs (Decidable (n.isLeaf = true))
  | h + 1, n =>
    have : ∀ c, Decidable (Shaped h c) := fun c => decShaped h c
    inferInstanceAs (Decidable (n.isLeaf = false ∧ n.children.length = n.keys.length + 1 ∧
      ∀ c ∈ n.children, Shaped h c))

instance (h : Nat) (n : BPlusTreeNode) : Decidable (Shaped h n) := decShaped h n

/-- Invariant 2 of section 3 as written there: every key `k` of child `i`'s
subtree satisfies `keys[i-1] <= k < keys[i]`. -/
def RoutingStrict (keys : List Int) (children : List BPlusTreeNode) : Prop :=
  ∀ i < children.length, ∀ c ∈ children[i]?, ∀ k ∈ allKeys c,
    (0 < i → ∀ lo ∈ keys[i - 1]?, lo ≤ k) ∧ (∀ hi ∈ keys[i]?, k < hi)

instance (keys : List Int) (children : List BPlusTreeNode) :
    Decidable (RoutingStrict keys children) := by
  unfold RoutingStrict; infer_instance

/-- Invariants 1 and 2 of section 3 at one node: keys ascending without
duplicates, and the strict routing bounds at an internal node. -/
def NodeStrict (n : BPlusTreeNode) : Prop :=
  n.keys.Sorted (· < ·) ∧
    (n.isLeaf = false → n.children.length = n.keys.length + 1 ∧
      RoutingStrict n.keys n.children)

instance : DecidablePred NodeStrict := fun n => by
  unfold NodeStrict; infer_instance

/-- Fan-out of a node that is not the root: between `maxKeys/2` and `maxKeys`
keys. -/
def Bounded (n : BPlusTreeNode) : Prop :=
  maxKeys / 2 ≤ n.keys.length ∧ n.keys.length ≤ maxKeys

instance : DecidablePred Bounded := fun n => by
  unfold Bounded; infer_instance

/-- Fan-out bound of the tree below `root`: the root holds at most `maxKeys`
keys, every other node between `maxKeys/2` and `maxKeys`. -/
def FanOut (root : BPlusTreeNode) : Prop :=
  root.keys.length ≤ maxKeys ∧
    (root.isLeaf = false → ∀ c ∈ root.children, AllNodes Bounded c)

instance : DecidablePred FanOut := fun n => by
  unfold FanOut; infer_instance

/-- Each leaf of the list points to the one after it, the last one to none. -/
def Chained : List BPlusTreeNode → Prop
  | [] => True
  | [l] => l.next = none
  | l :: m :: rest => l.next = some m.addr ∧ Chained (m :: rest)

/-- Decision procedure for `Chained`. -/
def decChained : (l : List BPlusTreeNode) → Decidable (Chained l)
  | [] => inferInstanceAs (Decidable True)
  | [l] => inferInstanceAs (Decidable (l.next = none))
  | l :: m :: rest =>
    have : Decidable (Chained (m :: rest)) := decChained (m :: rest)
    inferInstanceAs (Decidable (l.next = some m.addr ∧ Chained (m :: rest)))

instance (l : List BPlusTreeNode) : Decidable (Chained l) := decChained l

/-- Invariant 4 of section 3: the leaves have pairwise different addresses and
following `next` from the leftmost one visits them all, left to right. -/
def LeafChain (root : BPlusTreeNode) : Prop :=
  ((leaves root).map addr).Nodup ∧ Chained (leaves root)

instance : DecidablePred LeafChain := fun n => by
  unfold LeafChain; infer_instance

/-- The invariants of section 3 of the specification: keys sorted without
duplicates in every node and the routing bounds (1, 2), all leaves at one depth
`h` with `len(children) == len(keys)+1` at internal nodes (3), the leaf chain
(4) and the fan-out bound (5). -/
def Invariants (h : Nat) (tree : BPlusTree) : Prop :=
  AllNodes NodeStrict tree.root ∧ Shaped h tree.root ∧ LeafChain tree.root ∧ FanOut tree.root

instance (h : Nat) (tree : BPlusTree) : Decidable (Invariants h tree) := by
  unfold Invariants; infer_instance

/-! ## Concrete trees used below -/

/-- A leaf at address `a` with the given keys and next leaf. -/
def leafAt (a : Nat) (ks : List Int) (nx : Option Nat) : BPlusTreeNode :=
  mk ks [] true nx a

/-- An internal node at address 0. -/
def nodeAt0 (ks : List Int) (cs : List BPlusTreeNode) : BPlusTreeNode :=
  mk ks cs false none 0

/-- Root `[10]` over the leaves `[1,2]` and `[20,30]`. -/
def treeTwoMin : BPlusTree :=
  { root := nodeAt0 [10] [leafAt 1 [1, 2] (some 2), leafAt 2 [20, 30] none], alloc := 3 }

/-- Root `[10]` over the leaves `[1,2]` and `[20,30,40]`. -/
def treeBorrow : BPlusTree :=
  { root := nodeAt0 [10] [leafAt 1 [1, 2] (some 2), leafAt 2 [20, 30, 40] none], alloc := 3 }

/-- Root `[10]` over the leaves `[1,2,3]` and `[20,30,40]`. -/
def treeTwoFat : BPlusTree :=
  { root := nodeAt0 [10] [leafAt 1 [1, 2, 3] (some 2), leafAt 2 [20, 30, 40] none], alloc := 3 }

/-- Root `[10,50]` over the leaves `[1,2]`, `[20,30]` and `[60,70]`. -/
def treeThreeMin : BPlusTree :=
  { root := nodeAt0 [10, 50]
      [leafAt 1 [1, 2] (some 2), leafAt 2 [20, 30] (some 3), leafAt 3 [60, 70] none],
    alloc := 4 }

/-- Root `[10,50,80]` over the leaves `[1,2]`, `[20,30]`, `[60,70]` and
`[90,95]`. -/
def treeFourMin : BPlusTree :=
  { root := nodeAt0 [10, 50, 80]
      [leafAt 1 [1, 2] (some 2), leafAt 2 [20, 30] (some 3), leafAt 3 [60, 70] (some 4),
        leafAt 4 [90, 95] none],
    alloc := 5 }

/-- An unbalanced tree: root `[50]` over the internal node `[10,20,30]` (with
the leaves `[5]`, `[15]`, `[25]`, `[40]`) and the leaf `[60,70]`. -/
def treeLopsided : BPlusTree :=
  { root := nodeAt0 [50]
      [mk [10, 20, 30]
        [leafAt 1 [5] (some 2), leafAt 2 [15] (some 3), leafAt 3 [25] (some 4),
          leafAt 4 [40] (some 6)] false none 5,
        leafAt 6 [60, 70] none],
    alloc := 7 }

/-- The list `l'` is `l`, or `l` with one occurrence of `key` taken out. -/
def Removed (key : Int) (l l' : List Int) : Prop :=
  l' = l ∨ ∃ a b, l = a ++ key :: b ∧ l' = a ++ b

/-- The keys of the leaves, read left to right. -/
def leafKeys (n : BPlusTreeNode) : List Int :=
  (leaves n).flatMap keys

/-- The tree the four insertions `10, 20, 5, 6` build: one leaf. -/
def treeFull : BPlusTree :=
  { root := mk [5, 6, 10, 20] [] true none 0, alloc := 1 }

/-- A root without keys over the two leaves `[1]` and `[2]`: one child too
many. -/
def treeKeyless : BPlusTree :=
  { root := nodeAt0 [] [leafAt 1 [1] (some 2), leafAt 2 [2] none], alloc := 3 }

/-- Keys of the node are non-decreasing. -/
def KeysSorted (n : BPlusTreeNode) : Prop := n.keys.Sorted (· ≤ ·)

instance : DecidablePred KeysSorted := fun n => by
  unfold KeysSorted; infer_instance

/-- Keys of the node are strictly increasing: sorted, no duplicates. -/
def KeysStrict (n : BPlusTreeNode) : Prop := n.keys.Sorted (· < ·)

instance : DecidablePred KeysStrict := fun n => by
  unfold KeysStrict; infer_instance

/-- The closed routing bounds `keys[i-1] <= k <= keys[i]` at the node, if it is
internal. -/
def RoutedAt (n : BPlusTreeNode) : Prop := n.isLeaf = false → Routing n.keys n.children

instance : DecidablePred RoutedAt := fun n => by
  unfold RoutedAt; infer_instance

/-- The routing bounds of invariant 2, `keys[i-1] <= k < keys[i]`, at the node,
if it is internal. -/
def RoutedStrictAt (n : BPlusTreeNode) : Prop :=
  n.isLeaf = false → RoutingStrict n.keys n.children

instance : DecidablePred RoutedStrictAt := fun n => by
  unfold RoutedStrictAt; infer_instance

/-- A parent whose only child is a full internal node with five leaves. -/
def parentOfFullInternal : BPlusTreeNode :=
  nodeAt0 []
    [mk [10, 20, 30, 40]
      [leafAt 2 [1, 2] (some 3), leafAt 3 [11, 12] (some 4), leafAt 4 [21, 22] (some 5),
        leafAt 5 [31, 32] (some 6), leafAt 6 [41, 42] none] false none 1]

/-- What the leaf chain sees of a node: its address and its `next` pointer. -/
def link (n : BPlusTreeNode) : Nat × Option Nat := (n.addr, n.next)

/-- The leaf at address `a` among the leaves `pool`. -/
def findLeaf (pool : List BPlusTreeNode) (a : Nat) : Option BPlusTreeNode :=
  pool.find? (fun l => l.addr == a)

/-- Following `next` from the pointer `p`: the addresses met, in order.  The
walk ends at nil; it lists an address that is not the address of a leaf of
`pool` and ends there; it gives up after `fuel` addresses. -/
def followNext : Nat → List BPlusTreeNode → Option Nat → List Nat
  | 0, _, _ => []
  | _ + 1, _, none => []
  | fuel + 1, pool, some a =>
    a :: (match findLeaf pool a with
      | some l => followNext fuel pool l.next
      | none => [])

/-- Following `next` from the leftmost leaf of the tree, for at most one step
more than the tree has leaves. -/
def nextWalk (root : BPlusTreeNode) : List Nat :=
  followNext ((leaves root).length + 1) (leaves root) ((leaves root).head?.map addr)

/-- Following `next` from the leftmost leaf visits every leaf of the tree
exactly once, in left-to-right order, and nothing else; the leaves, being
different nodes, have different addresses. -/
def VisitsAll (root : BPlusTreeNode) : Prop :=
  ((leaves root).map addr).Nodup ∧ nextWalk root = (leaves root).map addr

instance : DecidablePred VisitsAll := fun n => by
  unfold VisitsAll; infer_instance

/-- The leaves `L'` stand for the leaves `L` in every chain: no new address,
and wherever `L` is part of a chained list of leaves, so is `L'`. -/
def ChainKept (L L' : List BPlusTreeNode) : Prop :=
  (L'.map addr).Sublist (L.map addr) ∧ ∀ X Y, Chained (X ++ L ++ Y) → Chained (X ++ L' ++ Y)

/-- An unbalanced tree with a proper leaf chain: root `[10,50]` over the leaf
`[1,2]`, the internal node `[20,30]` (with the leaves `[15]`, `[25]`, `[35]`) and
the leaf `[60,70]`. -/
def treeLopsidedChain : BPlusTree :=
  { root := nodeAt0 [10, 50]
      [leafAt 1 [1, 2] (some 3),
        mk [20, 30] [leafAt 3 [15] (some 4), leafAt 4 [25] (some 5), leafAt 5 [35] (some 6)]
          false none 2,
        leafAt 6 [60, 70] none],
    alloc := 7 }

/-! ## Basic facts -/

@[simp] theorem keys_mk (k : List Int) (c : List BPlusTreeNode) (l : Bool) (n : Option Nat)
    (a : Nat) : (mk k c l n a).keys = k := rfl

@[simp] theorem children_mk (k : List Int) (c : List BPlusTreeNode) (l : Bool) (n : Option Nat)
    (a : Nat) : (mk k c l n a).children = c := rfl

@[simp] theorem isLeaf_mk (k : List Int) (c : List BPlusTreeNode) (l : Bool) (n : Option Nat)
    (a : Nat) : (mk k c l n a).isLeaf = l := rfl

@[simp] theorem next_mk (k : List Int) (c : List BPlusTreeNode) (l : Bool) (n : Option Nat)
    (a : Nat) : (mk k c l n a).next = n := rfl

@[simp] theorem addr_mk (k : List Int) (c : List BPlusTreeNode) (l : Bool) (n : Option Nat)
    (a : Nat) : (mk k c l n a).addr = a := rfl

theorem elemAt_ok {α : Type} {s : List α} {i line : Nat} {x : α}
    (h : elemAt s i line = .ok x) : s[i]? = some x := by
  unfold elemAt at h
  cases hs : s[i]? with
  | none => rw [hs] at h; cases h
  | some y => rw [hs] at h; cases h; rfl

theorem elemAt_of_getElem? {α : Type} {s : List α} {i line : Nat} {x : α}
    (h : s[i]? = some x) : elemAt s i line = .ok x := by
  unfold elemAt; rw [h]

theorem elemAt_error {α : Type} {s : List α} {i line : Nat} {e : Fault}
    (h : elemAt s i line = .error e) : s[i]? = none ∧ e = .panic line := by
  unfold elemAt at h
  cases hs : s[i]? with
  | none => rw [hs] at h; cases h; exact ⟨rfl, rfl⟩
  | some y => rw [hs] at h; cases h

theorem scan_le (ks : List Int) (key : Int) : scan ks key ≤ ks.length := by
  induction ks with
  | nil => simp [scan]
  | cons k ks ih =>
    simp only [scan]
    split
    · simp only [List.length_cons]; omega
    · omega

theorem scan_lt (ks : List Int) (key : Int) :
    ∀ j, j < scan ks key → ∀ b, ks[j]? = some b → b < key := by
  induction ks with
  | nil => intro j hj; simp [scan] at hj
  | cons k ks ih =>
    intro j hj b hb
    simp only [scan] at hj
    split at hj
    · cases j with
      | zero => simp at hb; subst hb; assumption
      | succ j =>
        simp at hb
        exact ih j (by omega) b hb
    · omega

theorem scan_stop (ks : List Int) (key : Int) :
    ∀ b, ks[scan ks key]? = some b → key ≤ b := by
  induction ks with
  | nil => intro b hb; simp [scan] at hb
  | cons k ks ih =>
    intro b hb
    simp only [scan] at hb
    split at hb
    · simp at hb; exact ih b hb
    · simp at hb; subst hb; omega

theorem not_mem_of_scan (ks : List Int) (key : Int) (hs : ks.Sorted (· ≤ ·))
    (hne : ks[scan ks key]? ≠ some key) : key ∉ ks := by
  induction ks with
  | nil => simp
  | cons k ks ih =>
    simp only [scan] at hne
    rw [List.sorted_cons] at hs
    split at hne
    · rename_i hlt
      simp at hne
      have := ih hs.2 hne
      simp only [List.mem_cons, not_or]
      exact ⟨by omega, this⟩
    · rename_i hlt
      simp at hne
      simp only [List.mem_cons, not_or]
      refine ⟨fun h => hne h.symm, fun hmem => ?_⟩
      have := hs.1 key hmem
      omega

theorem mem_allKeysList {cs : List BPlusTreeNode} {k : Int} :
    k ∈ allKeysList cs ↔ ∃ c ∈ cs, k ∈ allKeys c := by
  induction cs with
  | nil => simp [allKeysList]
  | cons c cs ih => simp [allKeysList, ih]

theorem allNodesList_iff {p : BPlusTreeNode → Prop} {cs : List BPlusTreeNode} :
    AllNodesList p cs ↔ ∀ c ∈ cs, AllNodes p c := by
  induction cs with
  | nil => simp [AllNodesList]
  | cons c cs ih => simp [AllNodesList, ih]

theorem sizeList_append (xs ys : List BPlusTreeNode) :
    sizeList (xs ++ ys) = sizeList xs + sizeList ys := by
  induction xs with
  | nil => simp [sizeList]
  | cons x xs ih => simp [sizeList, ih]; omega

theorem size_pos (n : BPlusTreeNode) : 0 < size n := by
  cases n; simp [size]

theorem size_le_sizeList {cs : List BPlusTreeNode} {c : BPlusTreeNode} (h : c ∈ cs) :
    size c ≤ sizeList cs := by
  induction cs with
  | nil => cases h
  | cons d ds ih =>
    simp only [sizeList]
    rcases List.mem_cons.1 h with rfl | h
    · omega
    · have := ih h; omega

theorem size_eq (n : BPlusTreeNode) : size n = sizeList n.children + 1 := by
  cases n; simp [size]

theorem size_child_lt {n c : BPlusTreeNode} (h : c ∈ n.children) : size c < size n := by
  have := size_le_sizeList h
  rw [size_eq n]
  omega

/-- `splitChild` never returns: line 83 panics on a child with fewer than three
children, and line 89 reads `child.keys[maxKeys/2]` after line 86 has cut
`child.keys` down to `maxKeys/2` keys. -/
theorem splitChild_panics (parent : BPlusTreeNode) (index fresh : Nat) :
    ∃ l, splitChild parent index fresh = .error (.panic l) := by
  unfold splitChild
  cases hi : elemAt parent.children index 80 with
  | error e => exact ⟨80, by rw [(elemAt_error hi).2]⟩
  | ok child =>
    simp only
    split
    · exact ⟨82, rfl⟩
    · split
      · exact ⟨83, rfl⟩
      · split
        · exact ⟨89, rfl⟩
        · have : elemAt (List.take (maxKeys / 2) child.keys) (maxKeys / 2) 89
              = .error (.panic 89) := by
            unfold elemAt
            have : (List.take (maxKeys / 2) child.keys)[maxKeys / 2]? = none := by
              rw [List.getElem?_eq_none_iff]
              simp
            rw [this]
          rw [this]
          exact ⟨89, rfl⟩

/-! ## Search -/

theorem search_correct (fuel : Nat) : ∀ (n : BPlusTreeNode) (key : Int), WellFormed n →
    size n ≤ fuel → search fuel n key = .ok (decide (key ∈ allKeys n)) := by
  induction fuel with
  | zero => intro n key _ h; have := size_pos n; omega
  | succ fuel ih =>
    intro n key hwf hh
    cases n with
    | mk keys children isLeaf next addr =>
      unfold WellFormed at hwf
      simp only [AllNodes, NodeOK, keys_mk, isLeaf_mk, children_mk] at hwf
      obtain ⟨⟨hsorted, hnode⟩, hrec⟩ := hwf
      simp only [search, keys_mk, isLeaf_mk, children_mk]
      by_cases hfound : keys[scan keys key]? = some key
      · rw [if_pos hfound]
        have hmem : key ∈ keys := List.getElem?_mem hfound
        cases isLeaf <;> simp [allKeys, hmem]
      · rw [if_neg hfound]
        have hnot : key ∉ keys := not_mem_of_scan keys key hsorted hfound
        cases isLeaf with
        | true => simp [allKeys, hnot]
        | false =>
          simp only [Bool.false_eq_true, if_false]
          obtain ⟨hcount, hroute⟩ := hnode rfl
          have hrec := allNodesList_iff.1 (hrec rfl)
          have hi : scan keys key < children.length := by
            have := scan_le keys key
            omega
          have hget : children[scan keys key]? = some children[scan keys key] :=
            List.getElem?_eq_getElem hi
          rw [elemAt_of_getElem? hget]
          simp only
          have hcmem : children[scan keys key] ∈ children := List.getElem_mem hi
          have hlt : size children[scan keys key] ≤ fuel := by
            have := size_child_lt (n := mk keys children false next addr) hcmem
            omega
          rw [ih _ key (hrec _ hcmem) hlt]
          congr 1
          rw [decide_eq_decide]
          simp only [allKeys, Bool.false_eq_true, if_false, List.mem_append, hnot, false_or]
          rw [mem_allKeysList]
          constructor
          · intro h; exact ⟨_, hcmem, h⟩
          · rintro ⟨c, hc, hk⟩
            obtain ⟨j, hj, rfl⟩ := List.getElem_of_mem hc
            rcases Nat.lt_trichotomy j (scan keys key) with hlt | heq | hgt
            · -- a child to the left holds keys below `keys[j] < key`
              exfalso
              have hjk : j < keys.length := by have := scan_le keys key; omega
              have h1 := (hroute j hj children[j] (List.getElem?_eq_getElem hj) key hk).2
                keys[j] (List.getElem?_eq_getElem hjk)
              have h2 := scan_lt keys key j hlt keys[j] (List.getElem?_eq_getElem hjk)
              omega
            · subst heq; exact hk
            · -- a child to the right holds keys above `keys[j-1] >= keys[i] > key`
              exfalso
              have hjk : j - 1 < keys.length := by omega
              have hik : scan keys key < keys.length := by omega
              have h1 := (hroute j hj children[j] (List.getElem?_eq_getElem hj) key hk).1
                (by omega) keys[j - 1] (List.getElem?_eq_getElem hjk)
              have h2 := scan_stop keys key keys[scan keys key] (List.getElem?_eq_getElem hik)
              have h3 : keys[scan keys key] ≠ key := by
                intro h
                apply hfound
                rw [List.getElem?_eq_getElem hik, h]
              have h4 : keys[scan keys key] ≤ keys[j - 1] := by
                rcases Nat.eq_or_lt_of_le (show scan keys key ≤ j - 1 by omega) with h | h
                · simp only [h, le_refl]
                · exact List.Sorted.rel_get_of_lt hsorted (a := ⟨_, hik⟩) (b := ⟨_, hjk⟩) h
              omega

theorem Search_correct (tree : BPlusTree) (key : Int) (h : WellFormed tree.root) :
    Search tree key = .ok (decide (key ∈ allKeys tree.root)) :=
  search_correct _ _ _ h (le_refl _)


/-! ## In-order sequences -/

theorem inorder_leaf (k : List Int) (c : List BPlusTreeNode) (n : Option Nat) (a : Nat) :
    inorder (mk k c true n a) = k := by
  simp [inorder]

theorem inorder_internal (k : List Int) (c : List BPlusTreeNode) (n : Option Nat) (a : Nat) :
    inorder (mk k c false n a) = inorderList c k := by
  simp [inorder]

theorem inorder_of_leaf {n : BPlusTreeNode} (h : n.isLeaf = true) : inorder n = n.keys := by
  cases n with
  | mk k c l nx a =>
    simp only [isLeaf_mk] at h
    subst h
    simp [inorder]

theorem inorder_of_internal {n : BPlusTreeNode} (h : n.isLeaf = false) :
    inorder n = inorderList n.children n.keys := by
  cases n with
  | mk k c l nx a =>
    simp only [isLeaf_mk] at h
    subst h
    simp [inorder]

theorem inorderList_nil_nil : inorderList [] [] = [] := by
  simp [inorderList]

theorem inorderList_cons_exists (post : List BPlusTreeNode) (ks : List Int) :
    ∃ R, ∀ c, inorderList (c :: post) ks = inorder c ++ R := by
  cases ks with
  | nil => exact ⟨inorderList post [], fun c => by simp [inorderList]⟩
  | cons k ks => exact ⟨k :: inorderList post ks, fun c => by simp [inorderList]⟩

/-- Children and keys split at the same position split the in-order sequence. -/
theorem inorderList_append (pre : List BPlusTreeNode) :
    ∀ (kpre : List Int) (cs : List BPlusTreeNode) (ks : List Int),
      pre.length = kpre.length →
      inorderList (pre ++ cs) (kpre ++ ks) = inorderList pre kpre ++ inorderList cs ks := by
  induction pre with
  | nil =>
    intro kpre cs ks h
    cases kpre with
    | nil => simp [inorderList]
    | cons k kpre => simp at h
  | cons p pre ih =>
    intro kpre cs ks h
    cases kpre with
    | nil => simp at h
    | cons k kpre =>
      simp only [List.length_cons, add_left_inj] at h
      simp [inorderList, ih kpre cs ks h]

/-- A key between two runs of children, each run one longer than its keys. -/
theorem inorderList_join (cs : List BPlusTreeNode) :
    ∀ (ks : List Int) (k : Int) (cs' : List BPlusTreeNode) (ks' : List Int),
      cs.length = ks.length + 1 →
      inorderList (cs ++ cs') (ks ++ k :: ks') =
        inorderList cs ks ++ k :: inorderList cs' ks' := by
  induction cs with
  | nil => intro ks k cs' ks' h; simp at h
  | cons c cs ih =>
    intro ks k cs' ks' h
    cases ks with
    | nil =>
      simp only [List.length_cons, List.length_nil, zero_add, add_left_eq_self,
        List.length_eq_zero] at h
      subst h
      simp [inorderList]
    | cons k0 ks =>
      simp only [List.length_cons, add_left_inj] at h
      simp [inorderList, ih ks k cs' ks' h]

theorem mem_inorderList {cs : List BPlusTreeNode} {ks : List Int} {x : Int} :
    x ∈ inorderList cs ks ↔ x ∈ ks ∨ ∃ c ∈ cs, x ∈ inorder c := by
  induction cs generalizing ks with
  | nil => simp [inorderList]
  | cons c cs ih =>
    cases ks with
    | nil =>
      simp only [inorderList, List.mem_append, ih, List.not_mem_nil, false_or, List.mem_cons,
        exists_eq_or_imp]
    | cons k ks =>
      simp only [inorderList, List.mem_append, List.mem_cons, ih, exists_eq_or_imp]
      tauto

/-! ## Lists cut at a position -/

theorem list_eq_take_cons_drop {α : Type} {l : List α} {i : Nat} {a : α}
    (h : l[i]? = some a) : l = l.take i ++ a :: l.drop (i + 1) := by
  induction l generalizing i with
  | nil => simp at h
  | cons x xs ih =>
    cases i with
    | zero => simp at h; simp [h]
    | succ i => simp at h; simp; exact ih h

theorem list_eq_take_cons_cons_drop {α : Type} {l : List α} {i : Nat} {a b : α}
    (h : l[i]? = some a) (h' : l[i + 1]? = some b) :
    l = l.take i ++ a :: b :: l.drop (i + 2) := by
  induction l generalizing i with
  | nil => simp at h
  | cons x xs ih =>
    cases i with
    | zero =>
      simp at h h'
      cases xs with
      | nil => simp at h'
      | cons y ys => simp at h'; simp [h, h']
    | succ i => simp at h h'; simp; exact ih h h'

theorem list_set_eq {α : Type} {l : List α} {i : Nat} (a : α) (h : i < l.length) :
    l.set i a = l.take i ++ a :: l.drop (i + 1) := by
  induction l generalizing i with
  | nil => simp at h
  | cons x xs ih =>
    cases i with
    | zero => simp
    | succ i => simp at h; simp; exact ih h

theorem list_set_set_eq {α : Type} {l : List α} {i : Nat} (a b : α) (h : i + 1 < l.length) :
    (l.set i a).set (i + 1) b = l.take i ++ a :: b :: l.drop (i + 2) := by
  induction l generalizing i with
  | nil => simp at h
  | cons x xs ih =>
    cases i with
    | zero =>
      cases xs with
      | nil => simp at h
      | cons y ys => simp
    | succ i => simp at h; simp; exact ih h

theorem length_take_of_getElem? {α : Type} {l : List α} {i : Nat} {a : α}
    (h : l[i]? = some a) : (l.take i).length = i := by
  have : i < l.length := by
    by_contra hn
    rw [List.getElem?_eq_none (by omega)] at h
    cases h
  simp; omega

theorem lt_length_of_getElem? {α : Type} {l : List α} {i : Nat} {a : α}
    (h : l[i]? = some a) : i < l.length := by
  by_contra hn
  rw [List.getElem?_eq_none (by omega)] at h
  cases h

/-! ## Shape -/

theorem shaped_zero {n : BPlusTreeNode} : Shaped 0 n ↔ n.isLeaf = true := by
  simp [Shaped]

theorem shaped_succ {h : Nat} {n : BPlusTreeNode} :
    Shaped (h + 1) n ↔
      n.isLeaf = false ∧ n.children.length = n.keys.length + 1 ∧ ∀ c ∈ n.children, Shaped h c := by
  simp [Shaped]

theorem list_split_one {α : Type} {l : List α} {i : Nat} {a : α} (h : l[i]? = some a) :
    ∃ pre post, l = pre ++ a :: post ∧ pre.length = i ∧ l.take i = pre ∧
      l.drop (i + 1) = post ∧ ∀ x, l.set i x = pre ++ x :: post :=
  ⟨l.take i, l.drop (i + 1), list_eq_take_cons_drop h, length_take_of_getElem? h, rfl, rfl,
    fun x => list_set_eq x (lt_length_of_getElem? h)⟩

theorem list_split_two {α : Type} {l : List α} {i : Nat} {a b : α} (h : l[i]? = some a)
    (h' : l[i + 1]? = some b) :
    ∃ pre post, l = pre ++ a :: b :: post ∧ pre.length = i ∧ l.take i = pre ∧
      l.drop (i + 2) = post ∧ ∀ x y, (l.set i x).set (i + 1) y = pre ++ x :: y :: post :=
  ⟨l.take i, l.drop (i + 2), list_eq_take_cons_cons_drop h h', length_take_of_getElem? h, rfl,
    rfl, fun x y => list_set_set_eq x y (lt_length_of_getElem? h')⟩

theorem shaped_isLeaf_false {h : Nat} {n : BPlusTreeNode} (hs : Shaped (h + 1) n) :
    n.isLeaf = false := (shaped_succ.1 hs).1

theorem shaped_of_isLeaf {h : Nat} {n : BPlusTreeNode} (hs : Shaped h n)
    (hl : n.isLeaf = true) : h = 0 := by
  cases h with
  | zero => rfl
  | succ h => rw [shaped_isLeaf_false hs] at hl; cases hl

theorem shaped_of_not_isLeaf {h : Nat} {n : BPlusTreeNode} (hs : Shaped h n)
    (hl : n.isLeaf = false) : ∃ h', h = h' + 1 := by
  cases h with
  | zero => rw [shaped_zero.1 hs] at hl; cases hl
  | succ h => exact ⟨h, rfl⟩

/-- Two siblings of one level and the key between them merged into one node. -/
theorem merge_node {h : Nat} {l r : BPlusTreeNode} (sep : Int) (nx : Option Nat) (a : Nat)
    (hl : Shaped h l) (hr : Shaped h r) :
    Shaped h (mk (l.keys ++ [sep] ++ r.keys) (l.children ++ r.children) l.isLeaf nx a) ∧
      inorder (mk (l.keys ++ [sep] ++ r.keys) (l.children ++ r.children) l.isLeaf nx a) =
        inorder l ++ sep :: inorder r := by
  cases h with
  | zero =>
    have h1 := shaped_zero.1 hl
    have h2 := shaped_zero.1 hr
    rw [h1, inorder_leaf, inorder_of_leaf h1, inorder_of_leaf h2]
    exact ⟨shaped_zero.2 rfl, by simp⟩
  | succ h =>
    obtain ⟨h1, h1c, h1a⟩ := shaped_succ.1 hl
    obtain ⟨h2, h2c, h2a⟩ := shaped_succ.1 hr
    rw [h1, inorder_internal, inorder_of_internal h1, inorder_of_internal h2]
    refine ⟨shaped_succ.2 ⟨rfl, ?_, ?_⟩, ?_⟩
    · simp only [children_mk, keys_mk, List.length_append, List.length_cons, List.length_nil]
      omega
    · intro c hc
      simp only [children_mk, List.mem_append] at hc
      rcases hc with hc | hc
      · exact h1a c hc
      · exact h2a c hc
    · rw [List.append_assoc, List.singleton_append]
      exact inorderList_join _ _ _ _ _ h1c

/-- The last key and, for internal nodes, the last child of `l` moved over the
separator `sep` to the front of `c`. -/
theorem rotate_right_nodes {h : Nat} {l c : BPlusTreeNode} (sep : Int) {last : Int}
    (hl : Shaped h l) (hc : Shaped h c)
    (hlast : l.keys[l.keys.length - 1]? = some last) :
    (c.isLeaf = true →
      Shaped h (l.setKeys (l.keys.take (l.keys.length - 1))) ∧
      Shaped h (c.setKeys (sep :: c.keys)) ∧
      inorder (l.setKeys (l.keys.take (l.keys.length - 1))) ++
          last :: inorder (c.setKeys (sep :: c.keys)) =
        inorder l ++ sep :: inorder c) ∧
    (c.isLeaf = false → ∀ lc, l.children[l.children.length - 1]? = some lc →
      Shaped h (mk (l.keys.take (l.keys.length - 1))
        (l.children.take (l.children.length - 1)) l.isLeaf l.next l.addr) ∧
      Shaped h (mk (sep :: c.keys) (lc :: c.children) c.isLeaf c.next c.addr) ∧
      inorder (mk (l.keys.take (l.keys.length - 1))
          (l.children.take (l.children.length - 1)) l.isLeaf l.next l.addr) ++
          last :: inorder (mk (sep :: c.keys) (lc :: c.children) c.isLeaf c.next c.addr) =
        inorder l ++ sep :: inorder c) := by
  obtain ⟨kpre, kpost, hk, hklen, hktake, hkdrop, -⟩ := list_split_one hlast
  have hkpost : kpost = [] := by
    rw [← hkdrop]
    apply List.drop_eq_nil_of_le
    have := lt_length_of_getElem? hlast
    omega
  subst hkpost
  constructor
  · intro hleaf
    have h0 := shaped_of_isLeaf hc hleaf
    subst h0
    have hll := shaped_zero.1 hl
    refine ⟨shaped_zero.2 ?_, shaped_zero.2 ?_, ?_⟩
    · cases l; simpa [setKeys] using hll
    · cases c; simpa [setKeys] using hleaf
    · rw [inorder_of_leaf hll, inorder_of_leaf hleaf,
        inorder_of_leaf (n := l.setKeys _) (by cases l; simpa [setKeys] using hll),
        inorder_of_leaf (n := c.setKeys _) (by cases c; simpa [setKeys] using hleaf)]
      cases l with
      | mk lk lch lleaf lnx la =>
        cases c with
        | mk ck cch cleaf cnx ca =>
          simp only [keys_mk, setKeys] at *
          rw [hktake]
          conv_rhs => rw [hk]
          simp
  · intro hleaf lc hlc
    obtain ⟨h', rfl⟩ := shaped_of_not_isLeaf hc hleaf
    obtain ⟨h1, h1c, h1a⟩ := shaped_succ.1 hl
    obtain ⟨h2, h2c, h2a⟩ := shaped_succ.1 hc
    obtain ⟨cpre, cpost, hch, hclen, hctake, hcdrop, -⟩ := list_split_one hlc
    have hcpost : cpost = [] := by
      rw [← hcdrop]
      apply List.drop_eq_nil_of_le
      have := lt_length_of_getElem? hlc
      omega
    subst hcpost
    cases l with
    | mk lk lch lleaf lnx la =>
      cases c with
      | mk ck cch cleaf cnx ca =>
        simp only [keys_mk, children_mk, isLeaf_mk, next_mk, addr_mk] at *
        subst h1 h2
        rw [hktake, hctake]
        have hlen : cpre.length = kpre.length + 1 := by
          rw [hk, hch] at h1c
          simp at h1c
          omega
        refine ⟨shaped_succ.2 ⟨rfl, ?_, ?_⟩, shaped_succ.2 ⟨rfl, ?_, ?_⟩, ?_⟩
        · simpa using hlen
        · intro x hx
          simp only [children_mk] at hx
          exact h1a x (by rw [hch]; exact List.mem_append_left _ hx)
        · simpa using h2c
        · intro x hx
          simp only [children_mk, List.mem_cons] at hx
          rcases hx with rfl | hx
          · exact h1a x (by rw [hch]; simp)
          · exact h2a x hx
        · simp only [inorder_internal]
          conv_rhs => rw [hk, hch]
          rw [inorderList_join cpre kpre last [lc] [] hlen]
          simp [inorderList]


/-- The first key and, for internal nodes, the first child of `r` moved over
the separator `sep` to the end of `c`. -/
theorem rotate_left_nodes {h : Nat} {c r : BPlusTreeNode} (sep : Int) {first : Int}
    (hc : Shaped h c) (hr : Shaped h r) (hfirst : r.keys[0]? = some first) :
    (c.isLeaf = true →
      Shaped h (c.setKeys (c.keys ++ [sep])) ∧
      Shaped h (r.setKeys (r.keys.drop 1)) ∧
      inorder (c.setKeys (c.keys ++ [sep])) ++ first :: inorder (r.setKeys (r.keys.drop 1)) =
        inorder c ++ sep :: inorder r) ∧
    (c.isLeaf = false → ∀ rc, r.children[0]? = some rc →
      Shaped h (mk (c.keys ++ [sep]) (c.children ++ [rc]) c.isLeaf c.next c.addr) ∧
      Shaped h (mk (r.keys.drop 1) (r.children.drop 1) r.isLeaf r.next r.addr) ∧
      inorder (mk (c.keys ++ [sep]) (c.children ++ [rc]) c.isLeaf c.next c.addr) ++
          first :: inorder (mk (r.keys.drop 1) (r.children.drop 1) r.isLeaf r.next r.addr) =
        inorder c ++ sep :: inorder r) := by
  cases c with
  | mk ck cch cleaf cnx ca =>
    cases r with
    | mk rk rch rleaf rnx ra =>
      simp only [keys_mk, children_mk, isLeaf_mk, next_mk, addr_mk, setKeys] at *
      cases rk with
      | nil => simp at hfirst
      | cons k0 rk =>
        simp only [List.getElem?_cons_zero, Option.some.injEq] at hfirst
        subst hfirst
        constructor
        · intro hleaf
          subst hleaf
          have h0 := shaped_of_isLeaf hc rfl
          subst h0
          have hrl := shaped_zero.1 hr
          simp only [isLeaf_mk] at hrl
          subst hrl
          refine ⟨shaped_zero.2 rfl, shaped_zero.2 rfl, ?_⟩
          simp [inorder_leaf]
        · intro hleaf rc hrc
          subst hleaf
          obtain ⟨h', rfl⟩ := shaped_of_not_isLeaf hc rfl
          obtain ⟨h1, h1c, h1a⟩ := shaped_succ.1 hc
          obtain ⟨h2, h2c, h2a⟩ := shaped_succ.1 hr
          simp only [keys_mk, children_mk, isLeaf_mk] at h1 h1c h1a h2 h2c h2a
          subst h2
          cases rch with
          | nil => simp at hrc
          | cons c0 rch =>
            simp only [List.getElem?_cons_zero, Option.some.injEq] at hrc
            subst hrc
            refine ⟨shaped_succ.2 ⟨rfl, ?_, ?_⟩, shaped_succ.2 ⟨rfl, ?_, ?_⟩, ?_⟩
            · simp only [children_mk, keys_mk, List.length_append, List.length_cons,
                List.length_nil]
              omega
            · intro x hx
              simp only [children_mk, List.mem_append, List.mem_singleton] at hx
              rcases hx with hx | rfl
              · exact h1a x hx
              · exact h2a x (by simp)
            · simp only [children_mk, keys_mk, List.drop_succ_cons, List.drop_zero]
              simp only [List.length_cons] at h2c
              omega
            · intro x hx
              simp only [children_mk, List.drop_succ_cons, List.drop_zero] at hx
              exact h2a x (List.mem_cons_of_mem _ hx)
            · simp only [inorder_internal, List.drop_succ_cons, List.drop_zero]
              rw [inorderList_join cch ck sep [c0] [] h1c]
              simp [inorderList]

/-- Replacing two neighbouring children and the key between them by nodes with
the same in-order sequence changes neither shape nor in-order sequence. -/
theorem parent_replace_two {h : Nat} {keys : List Int} {children : List BPlusTreeNode}
    {j : Nat} {a b a' b' : BPlusTreeNode} {s s' : Int} (nx : Option Nat) (ad : Nat)
    (hcount : children.length = keys.length + 1) (hall : ∀ c ∈ children, Shaped h c)
    (ha : children[j]? = some a) (hb : children[j + 1]? = some b) (hs : keys[j]? = some s)
    (ha' : Shaped h a') (hb' : Shaped h b')
    (hin : inorder a' ++ s' :: inorder b' = inorder a ++ s :: inorder b) :
    Shaped (h + 1) (mk (keys.set j s') ((children.set j a').set (j + 1) b') false nx ad) ∧
      inorderList ((children.set j a').set (j + 1) b') (keys.set j s') =
        inorderList children keys := by
  obtain ⟨pre, post, hc, hpre, -, -, hset⟩ := list_split_two ha hb
  obtain ⟨kpre, kpost, hk, hkpre, -, -, hkset⟩ := list_split_one hs
  rw [hset, hkset]
  refine ⟨shaped_succ.2 ⟨rfl, ?_, ?_⟩, ?_⟩
  · rw [hc, hk] at hcount
    simp only [children_mk, keys_mk, List.length_append, List.length_cons] at hcount ⊢
    omega
  · intro x hx
    simp only [children_mk, List.mem_append, List.mem_cons] at hx
    rcases hx with hx | rfl | rfl | hx
    · exact hall x (by rw [hc]; simp [hx])
    · exact ha'
    · exact hb'
    · exact hall x (by rw [hc]; simp [hx])
  · conv_rhs => rw [hc, hk]
    rw [inorderList_append pre kpre _ _ (by omega), inorderList_append pre kpre _ _ (by omega)]
    obtain ⟨R, hR⟩ := inorderList_cons_exists post kpost
    have key : inorder a' ++ s' :: (inorder b' ++ R) = inorder a ++ s :: (inorder b ++ R) := by
      have := congrArg (fun l => l ++ R) hin
      simpa using this
    simp only [inorderList, hR, List.append_assoc, key]

/-- Replacing two neighbouring children and the key between them by one node
with the same in-order sequence keeps the shape and the in-order sequence. -/
theorem parent_merge_two {h : Nat} {keys : List Int} {children : List BPlusTreeNode}
    {j : Nat} {a b m : BPlusTreeNode} {s : Int} (nx : Option Nat) (ad : Nat)
    (hcount : children.length = keys.length + 1) (hall : ∀ c ∈ children, Shaped h c)
    (ha : children[j]? = some a) (hb : children[j + 1]? = some b) (hs : keys[j]? = some s)
    (hm : Shaped h m) (hin : inorder m = inorder a ++ s :: inorder b) :
    Shaped (h + 1) (mk (keys.take j ++ keys.drop (j + 1))
        (children.take j ++ m :: children.drop (j + 2)) false nx ad) ∧
      inorderList (children.take j ++ m :: children.drop (j + 2))
          (keys.take j ++ keys.drop (j + 1)) =
        inorderList children keys := by
  obtain ⟨pre, post, hc, hpre, htake, hdrop, -⟩ := list_split_two ha hb
  obtain ⟨kpre, kpost, hk, hkpre, hktake, hkdrop, -⟩ := list_split_one hs
  rw [htake, hdrop, hktake, hkdrop]
  refine ⟨shaped_succ.2 ⟨rfl, ?_, ?_⟩, ?_⟩
  · rw [hc, hk] at hcount
    simp only [children_mk, keys_mk, List.length_append, List.length_cons] at hcount ⊢
    omega
  · intro x hx
    simp only [children_mk, List.mem_append, List.mem_cons] at hx
    rcases hx with hx | rfl | hx
    · exact hall x (by rw [hc]; simp [hx])
    · exact hm
    · exact hall x (by rw [hc]; simp [hx])
  · conv_rhs => rw [hc, hk]
    rw [inorderList_append pre kpre _ _ (by omega), inorderList_append pre kpre _ _ (by omega)]
    obtain ⟨R, hR⟩ := inorderList_cons_exists post kpost
    simp only [inorderList, hR, hin]
    simp


/-! ## Rebalancing -/

theorem mergeChildren_spec {h : Nat} {parent p : BPlusTreeNode} {j : Nat} {isRoot moved : Bool}
    (hs : Shaped (h + 1) parent) (hm : mergeChildren parent j isRoot = .ok (p, moved)) :
    Shaped (h + 1) p ∧ inorder p = inorder parent ∧
      (moved = true → p.keys = [] ∧ isRoot = true) := by
  cases parent with
  | mk keys children isLeaf next addr =>
    obtain ⟨hl, hcount, hall⟩ := shaped_succ.1 hs
    simp only [keys_mk, children_mk, isLeaf_mk] at hl hcount hall
    subst hl
    unfold mergeChildren at hm
    simp only [keys_mk, children_mk, isLeaf_mk, next_mk, addr_mk] at hm
    cases h1 : elemAt children j 196 with
    | error e => rw [h1] at hm; cases hm
    | ok l =>
      rw [h1] at hm
      cases h2 : elemAt children (j + 1) 197 with
      | error e => rw [h2] at hm; cases hm
      | ok r =>
        rw [h2] at hm
        cases h3 : elemAt keys j 199 with
        | error e => rw [h3] at hm; cases hm
        | ok sep =>
          rw [h3] at hm
          simp only [Except.ok.injEq, Prod.mk.injEq] at hm
          obtain ⟨hp, hmoved⟩ := hm
          have ha := elemAt_ok h1
          have hb := elemAt_ok h2
          have hk := elemAt_ok h3
          have hmerge := merge_node sep (if l.isLeaf then r.next else l.next) l.addr
            (hall l (List.getElem?_mem ha)) (hall r (List.getElem?_mem hb))
          have := parent_merge_two next addr hcount hall ha hb hk hmerge.1 hmerge.2
          subst hp
          refine ⟨this.1, ?_, ?_⟩
          · rw [inorder_internal, inorder_internal]; exact this.2
          · intro hmv
            subst hmoved
            simp only [Bool.and_eq_true, beq_iff_eq, List.length_eq_zero] at hmv
            exact ⟨by simpa using hmv.2, hmv.1⟩

theorem leftSpare_some {parent l : BPlusTreeNode} {index : Nat}
    (h : leftSpare parent index = some l) :
    0 < index ∧ parent.children[index - 1]? = some l ∧ maxKeys / 2 < l.keys.length := by
  unfold leftSpare at h
  split at h
  · rename_i hpos
    cases hc : parent.children[index - 1]? with
    | none => rw [hc] at h; cases h
    | some s =>
      rw [hc] at h
      simp only at h
      split at h
      · rename_i hlen
        cases h
        exact ⟨hpos, rfl, hlen⟩
      · cases h
  · cases h

theorem rightSpare_some {parent r : BPlusTreeNode} {index : Nat}
    (h : rightSpare parent index = some r) :
    parent.children[index + 1]? = some r ∧ maxKeys / 2 < r.keys.length := by
  unfold rightSpare at h
  split at h
  · cases hc : parent.children[index + 1]? with
    | none => rw [hc] at h; cases h
    | some s =>
      rw [hc] at h
      simp only at h
      split at h
      · rename_i hlen
        cases h
        exact ⟨rfl, hlen⟩
      · cases h
  · cases h

theorem borrowLeft_spec {h : Nat} {parent child l p : BPlusTreeNode} {j : Nat}
    (hs : Shaped (h + 1) parent) (hl : parent.children[j]? = some l)
    (hc : parent.children[j + 1]? = some child)
    (hb : borrowLeft parent (j + 1) child l = .ok p) :
    Shaped (h + 1) p ∧ inorder p = inorder parent := by
  cases parent with
  | mk keys children isLeaf next addr =>
    obtain ⟨hleaf, hcount, hall⟩ := shaped_succ.1 hs
    simp only [keys_mk, children_mk, isLeaf_mk] at hleaf hcount hall hl hc
    subst hleaf
    unfold borrowLeft at hb
    simp only [keys_mk, children_mk, isLeaf_mk, next_mk, addr_mk, Nat.add_sub_cancel] at hb
    cases h1 : elemAt keys j 164 with
    | error e => rw [h1] at hb; cases hb
    | ok sep =>
      rw [h1] at hb
      cases h2 : elemAt l.keys (l.keys.length - 1) 165 with
      | error e => rw [h2] at hb; cases hb
      | ok last =>
        rw [h2] at hb
        simp only at hb
        have hk := elemAt_ok h1
        have hlast := elemAt_ok h2
        have hsl := hall l (List.getElem?_mem hl)
        have hsc := hall child (List.getElem?_mem hc)
        have hrot := rotate_right_nodes sep hsl hsc hlast
        cases hcl : child.isLeaf with
        | true =>
          rw [hcl] at hb
          simp only [if_true, Except.ok.injEq] at hb
          subst hb
          obtain ⟨r1, r2, r3⟩ := hrot.1 hcl
          have := parent_replace_two next addr hcount hall hl hc hk r1 r2 r3
          exact ⟨this.1, by rw [inorder_internal, inorder_internal]; exact this.2⟩
        | false =>
          rw [hcl] at hb
          simp only [Bool.false_eq_true, if_false] at hb
          cases h3 : elemAt l.children (l.children.length - 1) 169 with
          | error e => rw [h3] at hb; cases hb
          | ok lc =>
            rw [h3] at hb
            simp only [Except.ok.injEq] at hb
            subst hb
            obtain ⟨r1, r2, r3⟩ := hrot.2 hcl lc (elemAt_ok h3)
            have := parent_replace_two next addr hcount hall hl hc hk r1 r2 r3
            rw [hcl] at this
            exact ⟨this.1, by rw [inorder_internal, inorder_internal]; exact this.2⟩

theorem borrowRight_spec {h : Nat} {parent child r p : BPlusTreeNode} {j : Nat}
    (hs : Shaped (h + 1) parent) (hc : parent.children[j]? = some child)
    (hr : parent.children[j + 1]? = some r)
    (hb : borrowRight parent j child r = .ok p) :
    Shaped (h + 1) p ∧ inorder p = inorder parent := by
  cases parent with
  | mk keys children isLeaf next addr =>
    obtain ⟨hleaf, hcount, hall⟩ := shaped_succ.1 hs
    simp only [keys_mk, children_mk, isLeaf_mk] at hleaf hcount hall hr hc
    subst hleaf
    unfold borrowRight at hb
    simp only [keys_mk, children_mk, isLeaf_mk, next_mk, addr_mk] at hb
    cases h1 : elemAt keys j 178 with
    | error e => rw [h1] at hb; cases hb
    | ok sep =>
      rw [h1] at hb
      cases h2 : elemAt r.keys 0 179 with
      | error e => rw [h2] at hb; cases hb
      | ok first =>
        rw [h2] at hb
        simp only at hb
        have hk := elemAt_ok h1
        have hfirst := elemAt_ok h2
        have hsr := hall r (List.getElem?_mem hr)
        have hsc := hall child (List.getElem?_mem hc)
        have hrot := rotate_left_nodes sep hsc hsr hfirst
        cases hcl : child.isLeaf with
        | true =>
          rw [hcl] at hb
          simp only [if_true, Except.ok.injEq] at hb
          subst hb
          obtain ⟨r1, r2, r3⟩ := hrot.1 hcl
          have := parent_replace_two next addr hcount hall hc hr hk r1 r2 r3
          exact ⟨this.1, by rw [inorder_internal, inorder_internal]; exact this.2⟩
        | false =>
          rw [hcl] at hb
          simp only [Bool.false_eq_true, if_false] at hb
          cases h3 : elemAt r.children 0 183 with
          | error e => rw [h3] at hb; cases hb
          | ok rc =>
            rw [h3] at hb
            simp only [Except.ok.injEq] at hb
            subst hb
            obtain ⟨r1, r2, r3⟩ := hrot.2 hcl rc (elemAt_ok h3)
            have := parent_replace_two next addr hcount hall hc hr hk r1 r2 r3
            rw [hcl] at this
            exact ⟨this.1, by rw [inorder_internal, inorder_internal]; exact this.2⟩

theorem fixChild_spec {h : Nat} {parent p : BPlusTreeNode} {index : Nat} {isRoot : Bool}
    {moved : Option Nat} (hs : Shaped (h + 1) parent)
    (hf : fixChild parent index isRoot = .ok (p, moved)) :
    Shaped (h + 1) p ∧ inorder p = inorder parent ∧
      (∀ j, moved = some j → p.keys = [] ∧ isRoot = true) := by
  unfold fixChild at hf
  cases h1 : elemAt parent.children index 157 with
  | error e => rw [h1] at hf; cases hf
  | ok child =>
    rw [h1] at hf
    simp only at hf
    have hc := elemAt_ok h1
    cases h2 : leftSpare parent index with
    | some l =>
      rw [h2] at hf
      simp only at hf
      obtain ⟨hpos, hl, -⟩ := leftSpare_some h2
      obtain ⟨j, rfl⟩ : ∃ j, index = j + 1 := ⟨index - 1, by omega⟩
      simp only [Nat.add_sub_cancel] at hl
      cases h3 : borrowLeft parent (j + 1) child l with
      | error e => rw [h3] at hf; cases hf
      | ok q =>
        rw [h3] at hf
        simp only [Except.ok.injEq, Prod.mk.injEq] at hf
        obtain ⟨rfl, rfl⟩ := hf
        have := borrowLeft_spec hs hl hc h3
        exact ⟨this.1, this.2, fun j hj => by cases hj⟩
    | none =>
      rw [h2] at hf
      simp only at hf
      cases h4 : rightSpare parent index with
      | some r =>
        rw [h4] at hf
        simp only at hf
        obtain ⟨hr, -⟩ := rightSpare_some h4
        cases h3 : borrowRight parent index child r with
        | error e => rw [h3] at hf; cases hf
        | ok q =>
          rw [h3] at hf
          simp only [Except.ok.injEq, Prod.mk.injEq] at hf
          obtain ⟨rfl, rfl⟩ := hf
          have := borrowRight_spec hs hc hr h3
          exact ⟨this.1, this.2, fun j hj => by cases hj⟩
      | none =>
        rw [h4] at hf
        simp only at hf
        cases h3 : mergeChildren parent (if index > 0 then index - 1 else index) isRoot with
        | error e => rw [h3] at hf; cases hf
        | ok res =>
          obtain ⟨q, mv⟩ := res
          rw [h3] at hf
          simp only [Except.ok.injEq, Prod.mk.injEq] at hf
          obtain ⟨rfl, rfl⟩ := hf
          have := mergeChildren_spec hs h3
          refine ⟨this.1, this.2.1, ?_⟩
          intro j hj
          cases mv with
          | true => exact this.2.2 rfl
          | false => simp at hj


/-! ## Deletion -/

theorem removed_append {key : Int} {l l' : List Int} (X R : List Int)
    (h : Removed key l l') : Removed key (X ++ l ++ R) (X ++ l' ++ R) := by
  rcases h with rfl | ⟨a, b, rfl, rfl⟩
  · exact Or.inl rfl
  · exact Or.inr ⟨X ++ a, b ++ R, by simp, by simp⟩

theorem removed_sorted {key : Int} {l l' : List Int} (h : Removed key l l')
    (hs : l.Sorted (· ≤ ·)) : l'.Sorted (· ≤ ·) := by
  rcases h with rfl | ⟨a, b, rfl, rfl⟩
  · exact hs
  · exact List.Pairwise.sublist (List.Sublist.append_left (List.sublist_cons_self key b) a) hs

theorem removed_of_not_mem {key : Int} {l l' : List Int} (h : Removed key l l')
    (hk : key ∉ l) : l' = l := by
  rcases h with rfl | ⟨a, b, rfl, rfl⟩
  · rfl
  · exact absurd (by simp) hk

/-- The in-order sequence of a node around the sequence of its child `i`. -/
theorem inorderList_around {children : List BPlusTreeNode} (keys : List Int) {i : Nat}
    {c : BPlusTreeNode} (hc : children[i]? = some c) (hi : i ≤ keys.length) :
    ∃ X R, ∀ c', inorderList (children.set i c') keys = X ++ inorder c' ++ R := by
  obtain ⟨pre, post, -, hpre, -, -, hset⟩ := list_split_one hc
  obtain ⟨R, hR⟩ := inorderList_cons_exists post (keys.drop i)
  refine ⟨inorderList pre (keys.take i), R, fun c' => ?_⟩
  rw [hset]
  conv_lhs => rw [← List.take_append_drop i keys]
  rw [inorderList_append pre _ _ _ (by simp; omega), hR, List.append_assoc]

theorem set_getElem?_self {α : Type} {l : List α} {i : Nat} {a : α} (h : l[i]? = some a) :
    l.set i a = l := by
  induction l generalizing i with
  | nil => simp
  | cons x xs ih =>
    cases i with
    | zero => simp at h; simp [h]
    | succ i => simp at h; simp; exact ih h

theorem delete_spec (fuel : Nat) : ∀ (n : BPlusTreeNode) (key : Int) (isRoot : Bool) (h : Nat)
    (n' : BPlusTreeNode) (r : Option BPlusTreeNode), Shaped h n →
    delete fuel n key isRoot = .ok (n', r) →
    Shaped h n' ∧ Removed key (inorder n) (inorder n') ∧ (isRoot = false → r = none) ∧
      (∀ x, r = some x → (∃ h', Shaped h' x) ∧ inorder x = inorder n') := by
  induction fuel with
  | zero => intro n key isRoot h n' r _ hd; simp [delete] at hd
  | succ fuel ih =>
    intro n key isRoot h n' r hs hd
    cases n with
    | mk keys children isLeaf next addr =>
      unfold delete at hd
      simp only [keys_mk, children_mk, isLeaf_mk] at hd
      cases isLeaf with
      | true =>
        have h0 := shaped_of_isLeaf hs rfl
        subst h0
        simp only [if_true] at hd
        split at hd
        · rename_i hfound
          simp only [Except.ok.injEq, Prod.mk.injEq] at hd
          obtain ⟨rfl, rfl⟩ := hd
          refine ⟨shaped_zero.2 rfl, ?_, fun _ => rfl, fun x hx => by cases hx⟩
          simp only [setKeys, keys_mk, inorder_leaf]
          exact Or.inr ⟨_, _, list_eq_take_cons_drop hfound, rfl⟩
        · simp only [Except.ok.injEq, Prod.mk.injEq] at hd
          obtain ⟨rfl, rfl⟩ := hd
          exact ⟨hs, Or.inl rfl, fun _ => rfl, fun x hx => by cases hx⟩
      | false =>
        obtain ⟨h0, rfl⟩ := shaped_of_not_isLeaf hs rfl
        simp only [Bool.false_eq_true, if_false] at hd
        cases h1 : elemAt children (scan keys key) 144 with
        | error e => rw [h1] at hd; cases hd
        | ok child =>
          rw [h1] at hd
          simp only at hd
          cases hfx : (if child.keys.length = maxKeys / 2
              then fixChild (mk keys children false next addr) (scan keys key) isRoot
              else .ok (mk keys children false next addr, none)) with
          | error e => rw [hfx] at hd; cases hd
          | ok res =>
            obtain ⟨node1, moved⟩ := res
            rw [hfx] at hd
            simp only at hd
            have hfix : Shaped (h0 + 1) node1 ∧
                inorder node1 = inorder (mk keys children false next addr) ∧
                (∀ j, moved = some j → node1.keys = [] ∧ isRoot = true) := by
              split at hfx
              · exact fixChild_spec hs hfx
              · simp only [Except.ok.injEq, Prod.mk.injEq] at hfx
                obtain ⟨rfl, rfl⟩ := hfx
                exact ⟨hs, rfl, fun j hj => by cases hj⟩
            obtain ⟨hs1, hin1, hmv⟩ := hfix
            cases node1 with
            | mk k1 ch1 l1 nx1 a1 =>
              obtain ⟨hl1, hcount1, hall1⟩ := shaped_succ.1 hs1
              simp only [keys_mk, children_mk, isLeaf_mk] at hl1 hcount1 hall1 hmv hd
              subst hl1
              cases h2 : elemAt ch1 (scan keys key) 152 with
              | error e => rw [h2] at hd; cases hd
              | ok c =>
                rw [h2] at hd
                simp only at hd
                have hc := elemAt_ok h2
                cases hrec : delete fuel c key (moved == some (scan keys key)) with
                | error e => rw [hrec] at hd; cases hd
                | ok res =>
                  obtain ⟨c1, r0⟩ := res
                  rw [hrec] at hd
                  simp only [Except.ok.injEq, Prod.mk.injEq, setChildren, keys_mk, children_mk,
                    isLeaf_mk, next_mk, addr_mk] at hd
                  obtain ⟨rfl, hr⟩ := hd
                  obtain ⟨hsc1, hrem, hnr, hroot⟩ :=
                    ih c key _ h0 c1 r0 (hall1 c (List.getElem?_mem hc)) hrec
                  have hilt := lt_length_of_getElem? hc
                  have hall2 : ∀ x ∈ ch1.set (scan keys key) c1, Shaped h0 x := by
                    intro x hx
                    rcases List.mem_or_eq_of_mem_set hx with hx | rfl
                    · exact hall1 x hx
                    · exact hsc1
                  have hsingle : k1 = [] → ∀ (j : Nat) (x : BPlusTreeNode),
                      (ch1.set (scan keys key) c1)[j]? = some x →
                      inorder x =
                        inorder (mk k1 (ch1.set (scan keys key) c1) false nx1 a1) := by
                    intro hk j x hx
                    subst hk
                    have hlen : (ch1.set (scan keys key) c1).length = 1 := by
                      simpa using hcount1
                    have hj := lt_length_of_getElem? hx
                    have hj0 : j = 0 := by omega
                    subst hj0
                    rw [inorder_internal]
                    cases hch : ch1.set (scan keys key) c1 with
                    | nil => rw [hch] at hlen; simp at hlen
                    | cons y ys =>
                      rw [hch] at hlen hx
                      simp only [List.length_cons, add_left_eq_self, List.length_eq_zero] at hlen
                      subst hlen
                      simp only [List.getElem?_cons_zero, Option.some.injEq] at hx
                      subst hx
                      simp [inorderList]
                  refine ⟨shaped_succ.2 ⟨rfl, ?_, hall2⟩, ?_, ?_, ?_⟩
                  · simpa using hcount1
                  · rw [← hin1, inorder_internal, inorder_internal]
                    obtain ⟨X, R, hXR⟩ := inorderList_around k1 hc (by omega)
                    have e1 := hXR c
                    rw [set_getElem?_self hc] at e1
                    rw [e1, hXR c1]
                    exact removed_append X R hrem
                  · intro hroot0
                    have hmoved : moved = none := by
                      cases moved with
                      | none => rfl
                      | some j => have := (hmv j rfl).2; rw [hroot0] at this; cases this
                    subst hmoved
                    have := hnr (by simp)
                    subst this
                    exact hr.symm
                  · intro x hx
                    cases r0 with
                    | some y =>
                      simp only at hr
                      rw [← hr] at hx
                      cases hx
                      obtain ⟨hsh, hiny⟩ := hroot x rfl
                      refine ⟨hsh, ?_⟩
                      have hmi : moved = some (scan keys key) := by
                        by_contra hne
                        have := hnr (by simpa using hne)
                        cases this
                      have hk1 := (hmv _ hmi).1
                      rw [hiny]
                      exact hsingle hk1 (scan keys key) c1
                        (by rw [List.getElem?_set_self hilt])
                    | none =>
                      simp only at hr
                      cases moved with
                      | none => simp only at hr; rw [← hr] at hx; cases hx
                      | some j =>
                        simp only at hr
                        rw [← hr] at hx
                        have hk1 := (hmv j rfl).1
                        exact ⟨⟨h0, hall2 x (List.getElem?_mem hx)⟩, hsingle hk1 j x hx⟩


theorem Delete_spec {tree tree' : BPlusTree} {key : Int} {h : Nat} (hs : Shaped h tree.root)
    (hd : Delete tree key = .ok tree') :
    (∃ h', Shaped h' tree'.root) ∧ Removed key (inorder tree.root) (inorder tree'.root) := by
  unfold Delete at hd
  cases hrec : delete (size tree.root) tree.root key true with
  | error e => rw [hrec] at hd; cases hd
  | ok res =>
    obtain ⟨n', r⟩ := res
    rw [hrec] at hd
    obtain ⟨h1, h2, -, h4⟩ := delete_spec _ _ _ _ _ _ _ hs hrec
    cases r with
    | none =>
      simp only [Except.ok.injEq] at hd
      subst hd
      exact ⟨⟨h, h1⟩, h2⟩
    | some x =>
      simp only [Except.ok.injEq] at hd
      subst hd
      obtain ⟨h5, h6⟩ := h4 x rfl
      exact ⟨h5, by simpa [h6] using h2⟩

/-! ## Insertion -/

theorem allKeysList_append (xs ys : List BPlusTreeNode) :
    allKeysList (xs ++ ys) = allKeysList xs ++ allKeysList ys := by
  induction xs with
  | nil => simp [allKeysList]
  | cons x xs ih => simp [allKeysList, ih]

theorem sorted_insert_middle {a b : List Int} {key : Int} (hs : (a ++ b).Sorted (· ≤ ·))
    (ha : ∀ x ∈ a, x < key) (hb : ∀ y ∈ b, key ≤ y) : (a ++ key :: b).Sorted (· ≤ ·) := by
  unfold List.Sorted at hs ⊢
  rw [List.pairwise_append] at hs ⊢
  obtain ⟨h1, h2, h3⟩ := hs
  refine ⟨h1, List.pairwise_cons.2 ⟨hb, h2⟩, ?_⟩
  intro x hx y hy
  rcases List.mem_cons.1 hy with rfl | hy
  · exact le_of_lt (ha x hx)
  · exact h3 x hx y hy

/-- In a sorted interleaving of as many children as keys, every element is at
most one of the keys. -/
theorem inorderList_le_key (pre : List BPlusTreeNode) :
    ∀ (kpre : List Int), pre.length = kpre.length → (inorderList pre kpre).Sorted (· ≤ ·) →
      ∀ x ∈ inorderList pre kpre, ∃ k ∈ kpre, x ≤ k := by
  induction pre with
  | nil =>
    intro kpre h _ x hx
    cases kpre with
    | nil => simp [inorderList] at hx
    | cons k kpre => simp at h
  | cons p pre ih =>
    intro kpre h hs x hx
    cases kpre with
    | nil => simp at h
    | cons k kpre =>
      simp only [List.length_cons, add_left_inj] at h
      simp only [inorderList] at hs hx
      unfold List.Sorted at hs
      rw [List.pairwise_append] at hs
      obtain ⟨-, h2, h3⟩ := hs
      rcases List.mem_append.1 hx with hx | hx
      · exact ⟨k, by simp, h3 x hx k (by simp)⟩
      · rcases List.mem_cons.1 hx with rfl | hx
        · exact ⟨x, by simp, le_refl _⟩
        · obtain ⟨k', hk', hle⟩ := ih kpre h (List.pairwise_cons.1 h2).2 x hx
          exact ⟨k', List.mem_cons_of_mem _ hk', hle⟩

theorem inorderList_cons_tail (post : List BPlusTreeNode) (ks : List Int)
    (h : post.length = ks.length) :
    ∃ R, (∀ c, inorderList (c :: post) ks = inorder c ++ R) ∧ R.head? = ks.head? := by
  cases ks with
  | nil =>
    have : post = [] := by simpa using h
    subst this
    exact ⟨[], fun c => by simp [inorderList], rfl⟩
  | cons k ks => exact ⟨k :: inorderList post ks, fun c => by simp [inorderList], rfl⟩

theorem mem_take_scan {ks : List Int} {key x : Int} (hx : x ∈ ks.take (scan ks key)) :
    x < key := by
  obtain ⟨j, hj⟩ := List.getElem?_of_mem hx
  have hlt : j < (ks.take (scan ks key)).length := lt_length_of_getElem? hj
  have hj' : j < scan ks key := by
    simp only [List.length_take] at hlt
    omega
  rw [List.getElem?_take_of_lt hj'] at hj
  exact scan_lt ks key j hj' x hj

theorem insertNonFull_spec (fuel : Nat) : ∀ (n : BPlusTreeNode) (key : Int) (alloc : Nat)
    (n' : BPlusTreeNode) (alloc' : Nat), insertNonFull fuel n key alloc = .ok (n', alloc') →
    (allKeys n').Perm (key :: allKeys n) ∧
      ∀ h, Shaped h n → Shaped h n' ∧ ((inorder n).Sorted (· ≤ ·) →
        ∃ a b, inorder n = a ++ b ∧ inorder n' = a ++ key :: b ∧
          (∀ x ∈ a, x < key) ∧ (∀ y ∈ b, key ≤ y)) := by
  induction fuel with
  | zero => intro n key alloc n' alloc' hi; simp [insertNonFull] at hi
  | succ fuel ih =>
    intro n key alloc n' alloc' hi
    cases n with
    | mk keys children isLeaf next addr =>
      unfold insertNonFull at hi
      simp only [keys_mk, children_mk, isLeaf_mk] at hi
      cases isLeaf with
      | true =>
        simp only [if_true, Except.ok.injEq, Prod.mk.injEq, setKeys, keys_mk, children_mk,
          isLeaf_mk, next_mk, addr_mk] at hi
        obtain ⟨rfl, -⟩ := hi
        refine ⟨?_, fun h hs => ⟨?_, fun hsorted => ?_⟩⟩
        · simp only [allKeys, if_true]
          have := @List.perm_middle Int key (keys.take (scan keys key))
            (keys.drop (scan keys key))
          simpa using this
        · have := shaped_of_isLeaf hs rfl
          subst this
          exact shaped_zero.2 rfl
        · refine ⟨keys.take (scan keys key), keys.drop (scan keys key), ?_, ?_, ?_, ?_⟩
          · simp [inorder_leaf]
          · simp [inorder_leaf]
          · intro x hx; exact mem_take_scan hx
          · intro y hy
            rw [inorder_leaf] at hsorted
            obtain ⟨j, hj⟩ := List.getElem?_of_mem hy
            rw [List.getElem?_drop] at hj
            have hlen := lt_length_of_getElem? hj
            have h0 : keys[scan keys key]? = some keys[scan keys key] :=
              List.getElem?_eq_getElem (by omega)
            have h1 := scan_stop keys key _ h0
            have h2 : keys[scan keys key] ≤ y := by
              rcases Nat.eq_zero_or_pos j with hz | hz
              · subst hz
                simp only [add_zero] at hj
                rw [h0] at hj
                cases hj
                exact le_refl _
              · have := List.pairwise_iff_getElem.1 hsorted (scan keys key) (scan keys key + j)
                  (by omega) hlen (by omega)
                rw [List.getElem?_eq_getElem hlen] at hj
                cases hj
                exact this
            omega
      | false =>
        simp only [Bool.false_eq_true, if_false] at hi
        cases h1 : elemAt children (scan keys key) 64 with
        | error e => rw [h1] at hi; cases hi
        | ok child =>
          rw [h1] at hi
          simp only at hi
          split at hi
          · obtain ⟨l, hl⟩ := splitChild_panics (mk keys children false next addr)
              (scan keys key) alloc
            rw [hl] at hi
            cases hi
          · cases hrec : insertNonFull fuel child key alloc with
            | error e => rw [hrec] at hi; cases hi
            | ok res =>
              obtain ⟨c1, a1⟩ := res
              rw [hrec] at hi
              simp only [Except.ok.injEq, Prod.mk.injEq, setChildren, keys_mk, children_mk,
                isLeaf_mk, next_mk, addr_mk] at hi
              obtain ⟨rfl, -⟩ := hi
              have hc := elemAt_ok h1
              obtain ⟨hperm, hrest⟩ := ih child key alloc c1 a1 hrec
              obtain ⟨pre, post, hch, hpre, htake, hdrop, hset⟩ := list_split_one hc
              refine ⟨?_, fun h hs => ?_⟩
              · simp only [allKeys, Bool.false_eq_true, if_false]
                rw [hset c1]
                conv_rhs => rw [hch]
                simp only [allKeysList_append, allKeysList]
                have e1 : (keys ++ (allKeysList pre ++ (allKeys c1 ++ allKeysList post))).Perm
                    (keys ++ (allKeysList pre ++ ((key :: allKeys child) ++ allKeysList post))) :=
                  List.Perm.append_left _ (List.Perm.append_left _
                    (List.Perm.append_right _ hperm))
                refine e1.trans ?_
                have e2 : (keys ++ (allKeysList pre ++
                    ((key :: allKeys child) ++ allKeysList post))) =
                    (keys ++ allKeysList pre) ++ key :: (allKeys child ++ allKeysList post) := by
                  simp
                rw [e2]
                refine List.perm_middle.trans ?_
                simp
              · obtain ⟨h0, rfl⟩ := shaped_of_not_isLeaf hs rfl
                obtain ⟨-, hcount, hall⟩ := shaped_succ.1 hs
                simp only [keys_mk, children_mk] at hcount hall
                have hsc := hall child (List.getElem?_mem hc)
                obtain ⟨hsc1, hord⟩ := hrest h0 hsc
                refine ⟨shaped_succ.2 ⟨rfl, by simpa using hcount, ?_⟩, fun hsorted => ?_⟩
                · intro x hx
                  simp only [children_mk] at hx
                  rcases List.mem_or_eq_of_mem_set hx with hx | rfl
                  · exact hall x hx
                  · exact hsc1
                · rw [inorder_internal] at hsorted ⊢
                  rw [inorder_internal]
                  have hile := scan_le keys key
                  have hpostlen : post.length = (keys.drop (scan keys key)).length := by
                    rw [hch] at hcount
                    simp only [List.length_append, List.length_cons, List.length_drop] at hcount ⊢
                    omega
                  obtain ⟨R, hR, hRhead⟩ := inorderList_cons_tail post _ hpostlen
                  have hkeys : keys = keys.take (scan keys key) ++ keys.drop (scan keys key) :=
                    (List.take_append_drop _ _).symm
                  have hprelen : pre.length = (keys.take (scan keys key)).length := by
                    simp only [List.length_take]; omega
                  have e0 : inorderList children keys =
                      inorderList pre (keys.take (scan keys key)) ++ (inorder child ++ R) := by
                    conv_lhs => rw [hch, hkeys]
                    rw [inorderList_append pre _ _ _ hprelen, hR]
                  have e1 : inorderList (children.set (scan keys key) c1) keys =
                      inorderList pre (keys.take (scan keys key)) ++ (inorder c1 ++ R) := by
                    rw [hset c1]
                    conv_lhs => rw [hkeys]
                    rw [inorderList_append pre _ _ _ hprelen, hR]
                  rw [e0] at hsorted
                  have hsorted' := hsorted
                  unfold List.Sorted at hsorted
                  rw [List.pairwise_append, List.pairwise_append] at hsorted
                  obtain ⟨hX, ⟨hC, hRs, hCR⟩, hXCR⟩ := hsorted
                  obtain ⟨a, b, hab, hab1, ha, hb⟩ := hord hC
                  refine ⟨inorderList pre (keys.take (scan keys key)) ++ a, b ++ R, ?_, ?_, ?_, ?_⟩
                  · rw [e0, hab]; simp
                  · rw [e1, hab1]; simp
                  · intro x hx
                    rcases List.mem_append.1 hx with hx | hx
                    · obtain ⟨k, hk, hle⟩ := inorderList_le_key pre _ hprelen hX x hx
                      have := mem_take_scan hk
                      omega
                    · exact ha x hx
                  · intro y hy
                    rcases List.mem_append.1 hy with hy | hy
                    · exact hb y hy
                    · cases R with
                      | nil => cases hy
                      | cons k0 R0 =>
                        have hk0 : key ≤ k0 := by
                          simp only [List.head?_cons] at hRhead
                          have : keys[scan keys key]? = some k0 := by
                            rw [List.head?_drop] at hRhead
                            exact hRhead.symm
                          exact scan_stop keys key k0 this
                        rcases List.mem_cons.1 hy with rfl | hy
                        · exact hk0
                        · have := (List.pairwise_cons.1 hRs).1 y hy
                          omega


/-! ## The recursion bound is never used up -/

theorem elemAt_not_fuel {α : Type} (s : List α) (i line : Nat) :
    elemAt s i line ≠ .error .outOfFuel := by
  unfold elemAt
  split <;> simp

theorem error_of_elemAt {α β : Type} {s : List α} {i line : Nat} {e : Fault}
    (h : elemAt s i line = .error e) : (Except.error e : Except Fault β) ≠ .error .outOfFuel := by
  rw [(elemAt_error h).2]
  simp

theorem mergeChildren_not_fuel (parent : BPlusTreeNode) (index : Nat) (isRoot : Bool) :
    mergeChildren parent index isRoot ≠ .error .outOfFuel := by
  unfold mergeChildren
  split
  · rename_i h; exact error_of_elemAt h
  · split
    · rename_i h; exact error_of_elemAt h
    · split
      · rename_i h; exact error_of_elemAt h
      · simp

theorem borrowLeft_not_fuel (parent : BPlusTreeNode) (index : Nat) (child l : BPlusTreeNode) :
    borrowLeft parent index child l ≠ .error .outOfFuel := by
  unfold borrowLeft
  split
  · rename_i h; exact error_of_elemAt h
  · split
    · rename_i h; exact error_of_elemAt h
    · simp only
      split
      · simp
      · split
        · rename_i h; exact error_of_elemAt h
        · simp

theorem borrowRight_not_fuel (parent : BPlusTreeNode) (index : Nat) (child r : BPlusTreeNode) :
    borrowRight parent index child r ≠ .error .outOfFuel := by
  unfold borrowRight
  split
  · rename_i h; exact error_of_elemAt h
  · split
    · rename_i h; exact error_of_elemAt h
    · simp only
      split
      · simp
      · split
        · rename_i h; exact error_of_elemAt h
        · simp

theorem fixChild_not_fuel (parent : BPlusTreeNode) (index : Nat) (isRoot : Bool) :
    fixChild parent index isRoot ≠ .error .outOfFuel := by
  intro hf
  unfold fixChild at hf
  cases h1 : elemAt parent.children index 157 with
  | error e => rw [h1] at hf; exact error_of_elemAt h1 hf
  | ok child =>
    rw [h1] at hf
    simp only at hf
    cases h2 : leftSpare parent index with
    | some l =>
      rw [h2] at hf
      simp only at hf
      cases h3 : borrowLeft parent index child l with
      | error e =>
        rw [h3] at hf
        cases hf
        exact borrowLeft_not_fuel _ _ _ _ h3
      | ok q => rw [h3] at hf; cases hf
    | none =>
      rw [h2] at hf
      simp only at hf
      cases h4 : rightSpare parent index with
      | some r =>
        rw [h4] at hf
        simp only at hf
        cases h3 : borrowRight parent index child r with
        | error e =>
          rw [h3] at hf
          cases hf
          exact borrowRight_not_fuel _ _ _ _ h3
        | ok q => rw [h3] at hf; cases hf
      | none =>
        rw [h4] at hf
        simp only at hf
        cases h3 : mergeChildren parent (if index > 0 then index - 1 else index) isRoot with
        | error e =>
          rw [h3] at hf
          cases hf
          exact mergeChildren_not_fuel _ _ _ h3
        | ok res => rw [h3] at hf; cases hf

theorem sizeList_split_one {l : List BPlusTreeNode} {i : Nat} {a : BPlusTreeNode}
    (h : l[i]? = some a) (x : BPlusTreeNode) :
    sizeList (l.set i x) + size a = sizeList l + size x := by
  obtain ⟨pre, post, hl, -, -, -, hset⟩ := list_split_one h
  rw [hset x]
  conv_rhs => rw [hl]
  simp only [sizeList_append, sizeList]
  omega

theorem sizeList_split_two {l : List BPlusTreeNode} {i : Nat} {a b : BPlusTreeNode}
    (h : l[i]? = some a) (h' : l[i + 1]? = some b) (x y : BPlusTreeNode) :
    sizeList ((l.set i x).set (i + 1) y) + size a + size b = sizeList l + size x + size y := by
  obtain ⟨pre, post, hl, -, -, -, hset⟩ := list_split_two h h'
  rw [hset x y]
  conv_rhs => rw [hl]
  simp only [sizeList_append, sizeList]
  omega

theorem sizeList_merge_two {l : List BPlusTreeNode} {i : Nat} {a b : BPlusTreeNode}
    (h : l[i]? = some a) (h' : l[i + 1]? = some b) (m : BPlusTreeNode) :
    sizeList (l.take i ++ m :: l.drop (i + 2)) + size a + size b = sizeList l + size m := by
  obtain ⟨pre, post, hl, -, htake, hdrop, -⟩ := list_split_two h h'
  rw [htake, hdrop]
  conv_rhs => rw [hl]
  simp only [sizeList_append, sizeList]
  omega

theorem sizeList_last {l : List BPlusTreeNode} {a : BPlusTreeNode}
    (h : l[l.length - 1]? = some a) : sizeList (l.take (l.length - 1)) + size a = sizeList l := by
  obtain ⟨pre, post, hl, -, htake, hdrop, -⟩ := list_split_one h
  have hpost : post = [] := by
    rw [← hdrop]
    apply List.drop_eq_nil_of_le
    have := lt_length_of_getElem? h
    omega
  subst hpost
  rw [htake]
  conv_rhs => rw [hl]
  simp [sizeList_append, sizeList]

theorem sizeList_first {l : List BPlusTreeNode} {a : BPlusTreeNode} (h : l[0]? = some a) :
    sizeList (l.drop 1) + size a = sizeList l := by
  cases l with
  | nil => simp at h
  | cons x xs =>
    simp at h
    subst h
    simp [sizeList]
    omega

theorem size_setKeys (n : BPlusTreeNode) (ks : List Int) : size (n.setKeys ks) = size n := by
  cases n; simp [setKeys, size]

theorem mergeChildren_size {parent p : BPlusTreeNode} {index : Nat} {isRoot moved : Bool}
    (hm : mergeChildren parent index isRoot = .ok (p, moved)) :
    sizeList p.children ≤ sizeList parent.children := by
  unfold mergeChildren at hm
  cases h1 : elemAt parent.children index 196 with
  | error e => rw [h1] at hm; cases hm
  | ok l =>
    rw [h1] at hm
    cases h2 : elemAt parent.children (index + 1) 197 with
    | error e => rw [h2] at hm; cases hm
    | ok r =>
      rw [h2] at hm
      cases h3 : elemAt parent.keys index 199 with
      | error e => rw [h3] at hm; cases hm
      | ok sep =>
        rw [h3] at hm
        simp only [Except.ok.injEq, Prod.mk.injEq] at hm
        obtain ⟨rfl, -⟩ := hm
        simp only [children_mk]
        have := sizeList_merge_two (elemAt_ok h1) (elemAt_ok h2)
          (mk (l.keys ++ [sep] ++ r.keys) (l.children ++ r.children) l.isLeaf
            (if l.isLeaf then r.next else l.next) l.addr)
        have hm : size (mk (l.keys ++ [sep] ++ r.keys) (l.children ++ r.children) l.isLeaf
            (if l.isLeaf then r.next else l.next) l.addr) =
            sizeList l.children + sizeList r.children + 1 := by
          simp [size, sizeList_append]
        have e1 := size_eq l
        have e2 := size_eq r
        omega

theorem borrowLeft_size {parent child l p : BPlusTreeNode} {j : Nat}
    (hl : parent.children[j]? = some l) (hc : parent.children[j + 1]? = some child)
    (hb : borrowLeft parent (j + 1) child l = .ok p) :
    sizeList p.children ≤ sizeList parent.children := by
  unfold borrowLeft at hb
  simp only [Nat.add_sub_cancel] at hb
  cases h1 : elemAt parent.keys j 164 with
  | error e => rw [h1] at hb; cases hb
  | ok sep =>
    rw [h1] at hb
    cases h2 : elemAt l.keys (l.keys.length - 1) 165 with
    | error e => rw [h2] at hb; cases hb
    | ok last =>
      rw [h2] at hb
      simp only at hb
      split at hb
      · simp only [Except.ok.injEq] at hb
        subst hb
        simp only [children_mk]
        have := sizeList_split_two hl hc (l.setKeys (l.keys.take (l.keys.length - 1)))
          (child.setKeys (sep :: child.keys))
        have e1 := size_setKeys l (l.keys.take (l.keys.length - 1))
        have e2 := size_setKeys child (sep :: child.keys)
        omega
      · cases h3 : elemAt l.children (l.children.length - 1) 169 with
        | error e => rw [h3] at hb; cases hb
        | ok lc =>
          rw [h3] at hb
          simp only [Except.ok.injEq] at hb
          subst hb
          simp only [children_mk]
          have := sizeList_split_two hl hc
            (mk (l.keys.take (l.keys.length - 1)) (l.children.take (l.children.length - 1))
              l.isLeaf l.next l.addr)
            (mk (sep :: child.keys) (lc :: child.children) child.isLeaf child.next child.addr)
          have hx : size (mk (l.keys.take (l.keys.length - 1))
              (l.children.take (l.children.length - 1)) l.isLeaf l.next l.addr) =
              sizeList (l.children.take (l.children.length - 1)) + 1 := by
            simp [size]
          have hy : size (mk (sep :: child.keys) (lc :: child.children) child.isLeaf
              child.next child.addr) = size lc + sizeList child.children + 1 := by
            simp [size, sizeList]
          have e1 := size_eq l
          have e2 := size_eq child
          have e3 := sizeList_last (elemAt_ok h3)
          omega

theorem borrowRight_size {parent child r p : BPlusTreeNode} {j : Nat}
    (hc : parent.children[j]? = some child) (hr : parent.children[j + 1]? = some r)
    (hb : borrowRight parent j child r = .ok p) :
    sizeList p.children ≤ sizeList parent.children := by
  unfold borrowRight at hb
  cases h1 : elemAt parent.keys j 178 with
  | error e => rw [h1] at hb; cases hb
  | ok sep =>
    rw [h1] at hb
    cases h2 : elemAt r.keys 0 179 with
    | error e => rw [h2] at hb; cases hb
    | ok first =>
      rw [h2] at hb
      simp only at hb
      split at hb
      · simp only [Except.ok.injEq] at hb
        subst hb
        simp only [children_mk]
        have := sizeList_split_two hc hr (child.setKeys (child.keys ++ [sep]))
          (r.setKeys (r.keys.drop 1))
        have e1 := size_setKeys r (r.keys.drop 1)
        have e2 := size_setKeys child (child.keys ++ [sep])
        omega
      · cases h3 : elemAt r.children 0 183 with
        | error e => rw [h3] at hb; cases hb
        | ok rc =>
          rw [h3] at hb
          simp only [Except.ok.injEq] at hb
          subst hb
          simp only [children_mk]
          have := sizeList_split_two hc hr
            (mk (child.keys ++ [sep]) (child.children ++ [rc]) child.isLeaf child.next
              child.addr)
            (mk (r.keys.drop 1) (r.children.drop 1) r.isLeaf r.next r.addr)
          have hx : size (mk (child.keys ++ [sep]) (child.children ++ [rc]) child.isLeaf
              child.next child.addr) = sizeList child.children + size rc + 1 := by
            simp [size, sizeList, sizeList_append]
          have hy : size (mk (r.keys.drop 1) (r.children.drop 1) r.isLeaf r.next r.addr) =
              sizeList (r.children.drop 1) + 1 := by
            simp [size]
          have e1 := size_eq r
          have e2 := size_eq child
          have e3 := sizeList_first (elemAt_ok h3)
          omega

theorem fixChild_size {parent p : BPlusTreeNode} {index : Nat} {isRoot : Bool}
    {moved : Option Nat} (hf : fixChild parent index isRoot = .ok (p, moved)) :
    sizeList p.children ≤ sizeList parent.children := by
  unfold fixChild at hf
  cases h1 : elemAt parent.children index 157 with
  | error e => rw [h1] at hf; cases hf
  | ok child =>
    rw [h1] at hf
    simp only at hf
    have hc := elemAt_ok h1
    cases h2 : leftSpare parent index with
    | some l =>
      rw [h2] at hf
      simp only at hf
      obtain ⟨hpos, hl, -⟩ := leftSpare_some h2
      obtain ⟨j, rfl⟩ : ∃ j, index = j + 1 := ⟨index - 1, by omega⟩
      simp only [Nat.add_sub_cancel] at hl
      cases h3 : borrowLeft parent (j + 1) child l with
      | error e => rw [h3] at hf; cases hf
      | ok q =>
        rw [h3] at hf
        simp only [Except.ok.injEq, Prod.mk.injEq] at hf
        obtain ⟨rfl, -⟩ := hf
        exact borrowLeft_size hl hc h3
    | none =>
      rw [h2] at hf
      simp only at hf
      cases h4 : rightSpare parent index with
      | some r =>
        rw [h4] at hf
        simp only at hf
        obtain ⟨hr, -⟩ := rightSpare_some h4
        cases h3 : borrowRight parent index child r with
        | error e => rw [h3] at hf; cases hf
        | ok q =>
          rw [h3] at hf
          simp only [Except.ok.injEq, Prod.mk.injEq] at hf
          obtain ⟨rfl, -⟩ := hf
          exact borrowRight_size hc hr h3
      | none =>
        rw [h4] at hf
        simp only at hf
        cases h3 : mergeChildren parent (if index > 0 then index - 1 else index) isRoot with
        | error e => rw [h3] at hf; cases hf
        | ok res =>
          obtain ⟨q, mv⟩ := res
          rw [h3] at hf
          simp only [Except.ok.injEq, Prod.mk.injEq] at hf
          obtain ⟨rfl, -⟩ := hf
          exact mergeChildren_size h3

theorem search_fuel (fuel : Nat) : ∀ (n : BPlusTreeNode) (key : Int), size n ≤ fuel →
    search fuel n key ≠ .error .outOfFuel := by
  induction fuel with
  | zero => intro n key h; have := size_pos n; omega
  | succ fuel ih =>
    intro n key h
    unfold search
    simp only
    split
    · simp
    · split
      · simp
      · split
        · rename_i he; exact error_of_elemAt he
        · rename_i child hc
          have := size_child_lt (List.getElem?_mem (elemAt_ok hc))
          exact ih child key (by omega)

theorem insertNonFull_fuel (fuel : Nat) : ∀ (n : BPlusTreeNode) (key : Int) (alloc : Nat),
    size n ≤ fuel → insertNonFull fuel n key alloc ≠ .error .outOfFuel := by
  induction fuel with
  | zero => intro n key alloc h; have := size_pos n; omega
  | succ fuel ih =>
    intro n key alloc h
    unfold insertNonFull
    split
    · simp
    · simp only
      split
      · rename_i he; exact error_of_elemAt he
      · rename_i child hc
        split
        · obtain ⟨l, hl⟩ := splitChild_panics n (scan n.keys key) alloc
          rw [hl]
          simp
        · have hlt := size_child_lt (List.getElem?_mem (elemAt_ok hc))
          have := ih child key alloc (by omega)
          split
          · rename_i e he; rw [he] at this; exact this
          · simp

theorem delete_fuel (fuel : Nat) : ∀ (n : BPlusTreeNode) (key : Int) (isRoot : Bool),
    size n ≤ fuel → delete fuel n key isRoot ≠ .error .outOfFuel := by
  induction fuel with
  | zero => intro n key isRoot h; have := size_pos n; omega
  | succ fuel ih =>
    intro n key isRoot h
    unfold delete
    simp only
    split
    · split <;> simp
    · split
      · rename_i he; exact error_of_elemAt he
      · rename_i child hc
        split
        · rename_i e he
          split at he
          · intro h'; cases h'; exact fixChild_not_fuel _ _ _ he
          · cases he
        · rename_i node1 moved hfx
          have hsz : sizeList node1.children ≤ sizeList n.children := by
            split at hfx
            · exact fixChild_size hfx
            · simp only [Except.ok.injEq, Prod.mk.injEq] at hfx
              rw [hfx.1]
          split
          · rename_i he; exact error_of_elemAt he
          · rename_i c hc1
            have h1 := size_le_sizeList (List.getElem?_mem (elemAt_ok hc1))
            have h2 := size_eq n
            have := ih c key (moved == some (scan n.keys key)) (by omega)
            split
            · rename_i e he; rw [he] at this; exact this
            · simp

/-- `Search` never runs out of fuel. -/
theorem Search_fuel (tree : BPlusTree) (key : Int) : Search tree key ≠ .error .outOfFuel :=
  search_fuel _ _ _ (le_refl _)

/-- `Insert` never runs out of fuel. -/
theorem Insert_fuel (tree : BPlusTree) (key : Int) : Insert tree key ≠ .error .outOfFuel := by
  unfold Insert
  split
  · obtain ⟨l, hl⟩ := splitChild_panics (mk [] [tree.root] false none tree.alloc) 0
      (tree.alloc + 1)
    simp only
    rw [hl]
    simp
  · have := insertNonFull_fuel _ tree.root key tree.alloc (le_refl _)
    split
    · rename_i e he; intro h'; cases h'; exact this he
    · simp

/-- `Delete` never runs out of fuel. -/
theorem Delete_fuel (tree : BPlusTree) (key : Int) : Delete tree key ≠ .error .outOfFuel := by
  unfold Delete
  have := delete_fuel _ tree.root key true (le_refl _)
  split
  · rename_i e he; intro h'; cases h'; exact this he
  · simp
  · simp

/-! ## Well-formed trees and sorted in-order sequences -/

theorem allNodes_mk {p : BPlusTreeNode → Prop} (k : List Int) (c : List BPlusTreeNode)
    (l : Bool) (nx : Option Nat) (a : Nat) :
    AllNodes p (mk k c l nx a) ↔ p (mk k c l nx a) ∧ (l = false → ∀ x ∈ c, AllNodes p x) := by
  simp only [AllNodes, allNodesList_iff]

theorem allNodes_imp {p q : BPlusTreeNode → Prop} (hpq : ∀ n, p n → q n) (m : Nat) :
    ∀ n, size n ≤ m → AllNodes p n → AllNodes q n := by
  induction m with
  | zero => intro n h; have := size_pos n; omega
  | succ m ih =>
    intro n hsz hp
    cases n with
    | mk k c l nx a =>
      rw [allNodes_mk] at hp ⊢
      refine ⟨hpq _ hp.1, fun hl x hx => ?_⟩
      have := size_child_lt (n := mk k c l nx a) hx
      exact ih x (by omega) (hp.2 hl x hx)

theorem routing_def {keys : List Int} {children : List BPlusTreeNode} :
    Routing keys children ↔ ∀ i c, children[i]? = some c → ∀ k ∈ allKeys c,
      (∀ lo, 0 < i → keys[i - 1]? = some lo → lo ≤ k) ∧ (∀ hi, keys[i]? = some hi → k ≤ hi) := by
  unfold Routing
  constructor
  · intro h i c hc k hk
    have := h i (lt_length_of_getElem? hc) c hc k hk
    exact ⟨fun lo hi hlo => this.1 hi lo hlo, fun hi hhi => this.2 hi hhi⟩
  · intro h i _ c hc k hk
    have := h i c hc k hk
    exact ⟨fun hi lo hlo => this.1 lo hi hlo, fun hi hhi => this.2 hi hhi⟩

theorem routingStrict_routing {keys : List Int} {children : List BPlusTreeNode}
    (h : RoutingStrict keys children) : Routing keys children := by
  unfold RoutingStrict at h
  unfold Routing
  intro i hi c hc k hk
  have := h i hi c hc k hk
  exact ⟨this.1, fun b hb => le_of_lt (this.2 b hb)⟩

theorem nodeStrict_nodeOK (n : BPlusTreeNode) (h : NodeStrict n) : NodeOK n := by
  unfold NodeStrict at h
  unfold NodeOK
  refine ⟨List.Pairwise.imp (fun hab => le_of_lt hab) h.1, fun hl => ?_⟩
  exact ⟨(h.2 hl).1, routingStrict_routing (h.2 hl).2⟩

theorem routing_single (c : BPlusTreeNode) : Routing [] [c] := by
  rw [routing_def]
  intro i c' _ k _
  exact ⟨fun lo _ hlo => by simp at hlo, fun hi hhi => by simp at hhi⟩

theorem routing_cons {k : Int} {ks : List Int} {c c2 : BPlusTreeNode}
    {cs : List BPlusTreeNode} :
    Routing (k :: ks) (c :: c2 :: cs) ↔
      (∀ x ∈ allKeys c, x ≤ k) ∧ (∀ x ∈ allKeys c2, k ≤ x) ∧ Routing ks (c2 :: cs) := by
  rw [routing_def, routing_def]
  constructor
  · intro h
    refine ⟨fun x hx => (h 0 c (by simp) x hx).2 k (by simp),
      fun x hx => (h 1 c2 (by simp) x hx).1 k (by omega) (by simp), ?_⟩
    intro i d hd x hx
    have := h (i + 1) d (by simpa using hd) x hx
    refine ⟨fun lo hi hlo => this.1 lo (by omega) ?_, fun hi hhi => this.2 hi (by simpa using hhi)⟩
    obtain ⟨i', rfl⟩ : ∃ i', i = i' + 1 := ⟨i - 1, by omega⟩
    simpa using hlo
  · rintro ⟨h1, h2, h3⟩ i d hd x hx
    cases i with
    | zero =>
      simp only [List.getElem?_cons_zero, Option.some.injEq] at hd
      subst hd
      refine ⟨fun lo hi _ => by omega, fun hi hhi => ?_⟩
      simp only [List.getElem?_cons_zero, Option.some.injEq] at hhi
      subst hhi
      exact h1 x hx
    | succ i =>
      simp only [List.getElem?_cons_succ] at hd
      have := h3 i d hd x hx
      refine ⟨fun lo _ hlo => ?_, fun hi hhi => this.2 hi (by simpa using hhi)⟩
      simp only [Nat.add_sub_cancel] at hlo
      cases i with
      | zero =>
        simp only [List.getElem?_cons_zero, Option.some.injEq] at hd hlo
        subst hd hlo
        exact h2 x hx
      | succ i =>
        simp only [List.getElem?_cons_succ] at hlo
        exact this.1 lo (by omega) (by simpa using hlo)

/-- With one child more than keys, and every child's key set being that of its
in-order sequence, the interleaving is sorted exactly when the keys are
sorted, the routing bounds hold and every child's sequence is sorted. -/
theorem sorted_inorderList_iff (cs : List BPlusTreeNode) :
    ∀ (ks : List Int), cs.length = ks.length + 1 →
      (∀ c ∈ cs, ∀ x, x ∈ allKeys c ↔ x ∈ inorder c) →
      ((inorderList cs ks).Sorted (· ≤ ·) ↔
        ks.Sorted (· ≤ ·) ∧ Routing ks cs ∧ ∀ c ∈ cs, (inorder c).Sorted (· ≤ ·)) := by
  induction cs with
  | nil => intro ks h; simp at h
  | cons c cs ih =>
    intro ks hlen hmem
    cases cs with
    | nil =>
      have hks : ks = [] := by
        cases ks with
        | nil => rfl
        | cons k ks => simp at hlen
      subst hks
      simp only [inorderList, List.append_nil, List.sorted_nil, true_and, List.mem_singleton,
        forall_eq]
      exact ⟨fun h => ⟨routing_single c, h⟩, fun h => h.2⟩
    | cons c2 cs =>
      cases ks with
      | nil => simp at hlen
      | cons k ks =>
        simp only [List.length_cons, add_left_inj] at hlen
        have hih := ih ks (by simpa using hlen) (fun d hd => hmem d (List.mem_cons_of_mem _ hd))
        have hmc := hmem c (List.mem_cons_self _ _)
        have hmc2 := hmem c2 (List.mem_cons_of_mem _ (List.mem_cons_self _ _))
        simp only [inorderList] at hih ⊢
        rw [routing_cons]
        unfold List.Sorted at hih ⊢
        rw [List.pairwise_append, List.pairwise_cons, List.pairwise_cons]
        constructor
        · rintro ⟨hA, ⟨hkB, hB⟩, hAB⟩
          obtain ⟨hks, hroute, hcs⟩ := hih.1 hB
          refine ⟨⟨fun y hy => hkB y ?_, hks⟩, ⟨fun x hx => ?_, fun x hx => hkB x ?_, hroute⟩, ?_⟩
          · cases ks with
            | nil => cases hy
            | cons k1 ks1 => simp only [inorderList, List.mem_append, List.mem_cons,
                mem_inorderList] at hy ⊢; tauto
          · exact hAB x ((hmc x).1 hx) k (List.mem_cons_self _ _)
          · have hx' := (hmc2 x).1 hx
            cases ks with
            | nil => simp only [inorderList, List.mem_append]; exact Or.inl hx'
            | cons k1 ks1 => simp only [inorderList, List.mem_append]; exact Or.inl hx'
          · intro d hd
            rcases List.mem_cons.1 hd with rfl | hd
            · exact hA
            · exact hcs d hd
        · rintro ⟨⟨hkks, hks⟩, ⟨h1, h2, hroute⟩, hcs⟩
          have hB := hih.2 ⟨hks, hroute, fun d hd => hcs d (List.mem_cons_of_mem _ hd)⟩
          have hkB : ∀ y ∈ inorderList (c2 :: cs) ks, k ≤ y := by
            intro y hy
            rw [mem_inorderList] at hy
            rcases hy with hy | ⟨d, hd, hyd⟩
            · exact hkks y hy
            · obtain ⟨i, hi⟩ := List.getElem?_of_mem hd
              have hyd' := (hmem d (List.mem_cons_of_mem _ hd) y).2 hyd
              cases i with
              | zero =>
                simp only [List.getElem?_cons_zero, Option.some.injEq] at hi
                subst hi
                exact h2 y hyd'
              | succ i =>
                have hilt := lt_length_of_getElem? hi
                simp only [List.length_cons] at hilt
                have hik : i < ks.length := by omega
                have := ((routing_def.1 hroute) (i + 1) d hi y hyd').1 ks[i] (by omega)
                  (by simp [List.getElem?_eq_getElem hik])
                have := hkks ks[i] (List.getElem_mem hik)
                omega
          refine ⟨hcs c (List.mem_cons_self _ _), ⟨hkB, hB⟩, ?_⟩
          intro x hx y hy
          have hxk := h1 x ((hmc x).2 hx)
          rcases List.mem_cons.1 hy with rfl | hy
          · exact hxk
          · have := hkB y hy
            omega

theorem shaped_wellFormed_iff (h : Nat) : ∀ n, Shaped h n →
    (WellFormed n ↔ (inorder n).Sorted (· ≤ ·)) ∧ ∀ x, x ∈ allKeys n ↔ x ∈ inorder n := by
  induction h with
  | zero =>
    intro n hs
    cases n with
    | mk k c l nx a =>
      have hl := shaped_zero.1 hs
      simp only [isLeaf_mk] at hl
      subst hl
      unfold WellFormed
      rw [allNodes_mk]
      simp [NodeOK, inorder_leaf, allKeys]
  | succ h ih =>
    intro n hs
    cases n with
    | mk k c l nx a =>
      obtain ⟨hl, hcount, hall⟩ := shaped_succ.1 hs
      simp only [isLeaf_mk, children_mk, keys_mk] at hl hcount hall
      subst hl
      have hmem : ∀ d ∈ c, ∀ x, x ∈ allKeys d ↔ x ∈ inorder d :=
        fun d hd => (ih d (hall d hd)).2
      refine ⟨?_, fun x => ?_⟩
      · unfold WellFormed
        rw [allNodes_mk, inorder_internal, sorted_inorderList_iff c k hcount hmem]
        simp only [NodeOK, keys_mk, isLeaf_mk, children_mk, true_implies]
        constructor
        · rintro ⟨⟨hk, -, hr⟩, hc⟩
          exact ⟨hk, hr, fun d hd => (ih d (hall d hd)).1.1 (hc d hd)⟩
        · rintro ⟨hk, hr, hc⟩
          exact ⟨⟨hk, hcount, hr⟩, fun d hd => (ih d (hall d hd)).1.2 (hc d hd)⟩
      · rw [inorder_internal, mem_inorderList]
        simp only [allKeys, Bool.false_eq_true, if_false, List.mem_append, mem_allKeysList]
        constructor
        · rintro (hx | ⟨d, hd, hx⟩)
          · exact Or.inl hx
          · exact Or.inr ⟨d, hd, (hmem d hd x).1 hx⟩
        · rintro (hx | ⟨d, hd, hx⟩)
          · exact Or.inl hx
          · exact Or.inr ⟨d, hd, (hmem d hd x).2 hx⟩

theorem invariants_wellFormed {h : Nat} {tree : BPlusTree} (hinv : Invariants h tree) :
    WellFormed tree.root ∧ Shaped h tree.root :=
  ⟨allNodes_imp nodeStrict_nodeOK _ _ (le_refl _) hinv.1, hinv.2.1⟩

/-! ## Consequences for the public operations -/

theorem Insert_full_root_panics (tree : BPlusTree) (key : Int)
    (h : tree.root.keys.length = maxKeys) : ∃ l, Insert tree key = .error (.panic l) := by
  unfold Insert
  rw [if_pos h]
  obtain ⟨l, hl⟩ := splitChild_panics (mk [] [tree.root] false none tree.alloc) 0
    (tree.alloc + 1)
  simp only
  rw [hl]
  exact ⟨l, rfl⟩

theorem Insert_spec {tree tree' : BPlusTree} {key : Int} (hi : Insert tree key = .ok tree') :
    (allKeys tree'.root).Perm (key :: allKeys tree.root) ∧
      ∀ h, Shaped h tree.root → Shaped h tree'.root ∧
        ((inorder tree.root).Sorted (· ≤ ·) → (inorder tree'.root).Sorted (· ≤ ·)) := by
  unfold Insert at hi
  split at hi
  · rename_i hfull
    obtain ⟨l, hl⟩ := Insert_full_root_panics tree key hfull
    unfold Insert at hl
    rw [if_pos hfull] at hl
    rw [hl] at hi
    cases hi
  · cases hrec : insertNonFull (size tree.root) tree.root key tree.alloc with
    | error e => rw [hrec] at hi; cases hi
    | ok res =>
      obtain ⟨r, a⟩ := res
      rw [hrec] at hi
      simp only [Except.ok.injEq] at hi
      subst hi
      obtain ⟨hperm, hrest⟩ := insertNonFull_spec _ _ _ _ _ _ hrec
      refine ⟨hperm, fun h hs => ⟨(hrest h hs).1, fun hsorted => ?_⟩⟩
      obtain ⟨x, y, hxy, hxy1, hx, hy⟩ := (hrest h hs).2 hsorted
      simp only
      rw [hxy1]
      rw [hxy] at hsorted
      exact sorted_insert_middle hsorted hx hy

theorem leafKeys_sublist (h : Nat) : ∀ n, Shaped h n → (leafKeys n).Sublist (inorder n) := by
  induction h with
  | zero =>
    intro n hs
    cases n with
    | mk k c l nx a =>
      have hl := shaped_zero.1 hs
      simp only [isLeaf_mk] at hl
      subst hl
      simp [leafKeys, leaves, inorder_leaf]
  | succ h ih =>
    intro n hs
    cases n with
    | mk k c l nx a =>
      obtain ⟨hl, -, hall⟩ := shaped_succ.1 hs
      simp only [isLeaf_mk, children_mk] at hl hall
      subst hl
      simp only [leafKeys, leaves, Bool.false_eq_true, if_false, inorder_internal]
      have key : ∀ (cs : List BPlusTreeNode) (ks : List Int), (∀ d ∈ cs, Shaped h d) →
          ((leavesList cs).flatMap keys).Sublist (inorderList cs ks) := by
        intro cs
        induction cs with
        | nil => intro ks _; simp [leavesList, inorderList]
        | cons d ds ihd =>
          intro ks hds
          have h1 := ih d (hds d (List.mem_cons_self _ _))
          have h2 := fun ks' => ihd ks' (fun x hx => hds x (List.mem_cons_of_mem _ hx))
          simp only [leafKeys] at h1
          cases ks with
          | nil =>
            simp only [leavesList, inorderList, List.flatMap_append]
            exact List.Sublist.append h1 (h2 [])
          | cons k0 ks0 =>
            simp only [leavesList, inorderList, List.flatMap_append]
            exact List.Sublist.append h1 (List.Sublist.cons _ (h2 ks0))
      exact key c k hall

theorem runOps_sorted (ops : List Op) : ∀ (tree tree' : BPlusTree) (h : Nat),
    Shaped h tree.root → (inorder tree.root).Sorted (· ≤ ·) → runOps tree ops = .ok tree' →
    ∃ h', Shaped h' tree'.root ∧ (inorder tree'.root).Sorted (· ≤ ·) := by
  induction ops with
  | nil =>
    intro tree tree' h hs hsorted hr
    simp only [runOps, Except.ok.injEq] at hr
    subst hr
    exact ⟨h, hs, hsorted⟩
  | cons op ops ih =>
    intro tree tree' h hs hsorted hr
    simp only [runOps] at hr
    cases hop : op.run tree with
    | error e => rw [hop] at hr; cases hr
    | ok t1 =>
      rw [hop] at hr
      simp only at hr
      cases op with
      | insert key =>
        simp only [Op.run] at hop
        obtain ⟨h1, h2⟩ := (Insert_spec hop).2 h hs
        exact ih t1 tree' h h1 (h2 hsorted) hr
      | delete key =>
        simp only [Op.run] at hop
        obtain ⟨⟨h', h1⟩, h2⟩ := Delete_spec hs hop
        exact ih t1 tree' h' h1 (removed_sorted h2 hsorted) hr

theorem insertNonFull_bounded (fuel : Nat) : ∀ (n : BPlusTreeNode) (key : Int) (alloc : Nat)
    (n' : BPlusTreeNode) (alloc' : Nat), insertNonFull fuel n key alloc = .ok (n', alloc') →
    n'.isLeaf = n.isLeaf ∧ (n.isLeaf = true → n'.keys.length = n.keys.length + 1) ∧
      (n.isLeaf = false → n'.keys = n.keys ∧
        ((∀ c ∈ n.children, AllNodes Bounded c) → ∀ c ∈ n'.children, AllNodes Bounded c)) := by
  induction fuel with
  | zero => intro n key alloc n' alloc' hi; simp [insertNonFull] at hi
  | succ fuel ih =>
    intro n key alloc n' alloc' hi
    cases n with
    | mk keys children isLeaf next addr =>
      unfold insertNonFull at hi
      simp only [keys_mk, children_mk, isLeaf_mk] at hi
      cases isLeaf with
      | true =>
        simp only [if_true, Except.ok.injEq, Prod.mk.injEq, setKeys, keys_mk, children_mk,
          isLeaf_mk, next_mk, addr_mk] at hi
        obtain ⟨rfl, -⟩ := hi
        refine ⟨rfl, fun _ => ?_, fun hl => by simp at hl⟩
        have := scan_le keys key
        simp only [keys_mk, List.length_append, List.length_take, List.length_cons,
          List.length_drop]
        omega
      | false =>
        simp only [Bool.false_eq_true, if_false] at hi
        cases h1 : elemAt children (scan keys key) 64 with
        | error e => rw [h1] at hi; cases hi
        | ok child =>
          rw [h1] at hi
          simp only at hi
          split at hi
          · obtain ⟨l, hl⟩ := splitChild_panics (mk keys children false next addr)
              (scan keys key) alloc
            rw [hl] at hi
            cases hi
          · rename_i hnotfull
            cases hrec : insertNonFull fuel child key alloc with
            | error e => rw [hrec] at hi; cases hi
            | ok res =>
              obtain ⟨c1, a1⟩ := res
              rw [hrec] at hi
              simp only [Except.ok.injEq, Prod.mk.injEq, setChildren, keys_mk, children_mk,
                isLeaf_mk, next_mk, addr_mk] at hi
              obtain ⟨rfl, -⟩ := hi
              refine ⟨rfl, fun hl => by simp at hl, fun _ => ⟨rfl, fun hall c hc => ?_⟩⟩
              simp only [children_mk] at hc hall
              rcases List.mem_or_eq_of_mem_set hc with hc | rfl
              · exact hall c hc
              · have hchild := hall child (List.getElem?_mem (elemAt_ok h1))
                obtain ⟨e1, e2, e3⟩ := ih child key alloc c a1 hrec
                cases child with
                | mk ck cch cl cnx ca =>
                  cases c with
                  | mk k' ch' l' nx' a' =>
                    simp only [isLeaf_mk, keys_mk, children_mk] at e1 e2 e3 hnotfull
                    subst e1
                    rw [allNodes_mk] at hchild ⊢
                    obtain ⟨hb, hrest⟩ := hchild
                    have hmax : maxKeys = 4 := rfl
                    cases l' with
                    | true =>
                      have := e2 rfl
                      refine ⟨?_, fun hl => by simp at hl⟩
                      unfold Bounded at hb ⊢
                      simp only [keys_mk] at hb ⊢
                      omega
                    | false =>
                      obtain ⟨e4, e5⟩ := e3 rfl
                      subst e4
                      exact ⟨hb, fun _ => e5 (hrest rfl)⟩

/-- A completed `Insert` keeps the fan-out bound. -/
theorem Insert_fanOut {tree tree' : BPlusTree} {key : Int} (hf : FanOut tree.root)
    (hi : Insert tree key = .ok tree') : FanOut tree'.root := by
  unfold Insert at hi
  split at hi
  · rename_i hfull
    obtain ⟨l, hl⟩ := Insert_full_root_panics tree key hfull
    unfold Insert at hl
    rw [if_pos hfull] at hl
    rw [hl] at hi
    cases hi
  · rename_i hnotfull
    cases hrec : insertNonFull (size tree.root) tree.root key tree.alloc with
    | error e => rw [hrec] at hi; cases hi
    | ok res =>
      obtain ⟨r, a⟩ := res
      rw [hrec] at hi
      simp only [Except.ok.injEq] at hi
      subst hi
      obtain ⟨e1, e2, e3⟩ := insertNonFull_bounded _ _ _ _ _ _ hrec
      unfold FanOut at hf ⊢
      simp only
      cases hl : tree.root.isLeaf with
      | true =>
        have := e2 hl
        rw [hl] at e1
        exact ⟨by omega, fun h => by rw [e1] at h; cases h⟩
      | false =>
        obtain ⟨e4, e5⟩ := e3 hl
        rw [e4]
        exact ⟨hf.1, fun _ => e5 (hf.2 hl)⟩

/-- `delete` removes keys at leaves only: a key that is stored in an internal
node stays. -/
theorem Delete_keeps_internal_key :
    Invariants 1 treeTwoFat ∧ Search treeTwoFat 10 = .ok true ∧
      Delete treeTwoFat 10 = .ok treeTwoFat :=
  ⟨by decide, rfl, rfl⟩

/-! ## The claims -/

/-- C1 (membership after inserts) fails on the code: the specification's own
scenario `[10,20,5,6,12,30,7,17]` does not get past its fifth key.  The first
four insertions fill the root leaf; the fifth calls `splitChild`, which panics
on line 83 (`child.children[maxKeys/2+1:]` on a leaf without children). -/
theorem C1_scenario_panics_at_fifth_insert :
    runOps NewBPlusTree ([10, 20, 5, 6].map Op.insert) = .ok treeFull ∧
      Insert treeFull 12 = .error (.panic 83) ∧
      runOps NewBPlusTree ([10, 20, 5, 6, 12, 30, 7, 17].map Op.insert) = .error (.panic 83) :=
  ⟨rfl, rfl, rfl⟩

/-- C2 (Insert cannot fail) fails on the code: the tree reached from
`NewBPlusTree` by inserting 1, 2, 3, 4 has a full root, and `Insert` of any key
into it panics on line 83 inside `splitChild`. -/
theorem C2_insert_into_full_root_panics :
    ∃ tree, runOps NewBPlusTree ([1, 2, 3, 4].map Op.insert) = .ok tree ∧
      ∀ key, Insert tree key = .error (.panic 83) :=
  ⟨{ root := mk [1, 2, 3, 4] [] true none 0, alloc := 1 }, rfl, fun _ => rfl⟩

/-- C3: on a well-formed tree (keys of every node non-decreasing, internal nodes
with `len(children) == len(keys)+1`, closed routing bounds) `Search(key)`
returns, and returns true exactly when `key` is a key of some node. -/
theorem C3_search_correct (tree : BPlusTree) (key : Int) (h : WellFormed tree.root) :
    Search tree key = .ok (decide (key ∈ allKeys tree.root)) :=
  Search_correct tree key h

/-- C3 at the tree `[10]` over `[1,2,3]` and `[20,30,40]`, key 30. -/
theorem C3_search_correct_witness :
    WellFormed treeTwoFat.root ∧
      Search treeTwoFat 30 = .ok (decide ((30 : Int) ∈ allKeys treeTwoFat.root)) :=
  ⟨by decide, C3_search_correct treeTwoFat 30 (by decide)⟩

/-- C4 (Delete removes exactly one occurrence) fails on the code: in the tree
`[10,50,80]` over `[1,2] [20,30] [60,70] [90,95]`, which satisfies the
invariants of section 3, `Delete(20)` merges the leaf of 20 into its left sibling
and then descends into `children[1]`, now the leaf `[60,70]`; 20 stays in the
tree and is still found. -/
theorem C4_delete_left_merge_keeps_key :
    Invariants 1 treeFourMin ∧ Search treeFourMin 20 = .ok true ∧
      ∃ tree', Delete treeFourMin 20 = .ok tree' ∧ Search tree' 20 = .ok true ∧
        (allKeys tree'.root).count 20 = (allKeys treeFourMin.root).count 20 :=
  ⟨by decide, rfl,
    { root := nodeAt0 [50, 80]
        [leafAt 1 [1, 2, 10, 20, 30] (some 3), leafAt 3 [60, 70] (some 4),
          leafAt 4 [90, 95] none],
      alloc := 5 }, rfl, rfl, by decide⟩

/-- C5 (Delete cannot fail) fails on the code: in the tree `[10]` over `[1,2]`
and `[20,30]`, which satisfies the invariants of section 3, `Delete(20)` merges
child 1 into its left sibling, leaving the root one child, and line 152 then
indexes `children[1]`: index out of range. -/
theorem C5_delete_left_merge_panics :
    Invariants 1 treeTwoMin ∧ Delete treeTwoMin 20 = .error (.panic 152) :=
  ⟨by decide, rfl⟩

/-- C6 as stated fails: deleting the absent key 0 from `[10]` over `[1,2]` and
`[20,30,40]` rebalances on the way down (child 0 borrows from its right sibling)
and leaves `[20]` over `[1,2,10]` and `[30,40]`. -/
theorem C6_absent_delete_restructures :
    Invariants 1 treeBorrow ∧ (0 : Int) ∉ allKeys treeBorrow.root ∧
      ∃ tree', Delete treeBorrow 0 = .ok tree' ∧ tree'.root.keys = [20] ∧
        tree'.root.keys ≠ treeBorrow.root.keys :=
  ⟨by decide, by decide,
    { root := nodeAt0 [20] [leafAt 1 [1, 2, 10] (some 2), leafAt 2 [30, 40] none],
      alloc := 3 }, rfl, rfl, by decide⟩

/-- C6 amended: on a tree satisfying the invariants of section 3, whenever
`Delete(key)` of a key that occurs in no node completes, the in-order key
sequence of the tree is unchanged and `Search` gives the same answer for every
key. -/
theorem C6_absent_delete_keeps_content (h : Nat) (tree tree' : BPlusTree) (key : Int)
    (hinv : Invariants h tree) (habs : key ∉ allKeys tree.root)
    (hd : Delete tree key = .ok tree') :
    inorder tree'.root = inorder tree.root ∧ ∀ k, Search tree' k = Search tree k := by
  obtain ⟨hwf, hs⟩ := invariants_wellFormed hinv
  obtain ⟨⟨h', hs'⟩, hrem⟩ := Delete_spec hs hd
  have e1 := shaped_wellFormed_iff h tree.root hs
  have e2 := shaped_wellFormed_iff h' tree'.root hs'
  have hin : inorder tree'.root = inorder tree.root :=
    removed_of_not_mem hrem (fun hk => habs ((e1.2 key).2 hk))
  have hwf' : WellFormed tree'.root := e2.1.2 (by rw [hin]; exact e1.1.1 hwf)
  refine ⟨hin, fun k => ?_⟩
  rw [Search_correct tree' k hwf', Search_correct tree k hwf]
  congr 1
  rw [decide_eq_decide, e2.2 k, e1.2 k, hin]

/-- C6 amended at the tree `[10]` over `[1,2]` and `[20,30,40]`, absent key 0. -/
theorem C6_absent_delete_keeps_content_witness :
    Invariants 1 treeBorrow ∧ (0 : Int) ∉ allKeys treeBorrow.root ∧
      ∃ tree', Delete treeBorrow 0 = .ok tree' ∧
        inorder tree'.root = inorder treeBorrow.root ∧
        ∀ k, Search tree' k = Search treeBorrow k :=
  ⟨by decide, by decide, _, rfl,
    C6_absent_delete_keeps_content 1 treeBorrow _ 0 (by decide) (by decide) rfl⟩

/-- C7: whenever `Insert(key)` completes, the multiset of the keys stored in the
tree is the one stored before plus one occurrence of `key`; this holds of every
tree, so in particular of those with sorted node keys and
`len(children) == len(keys)+1`, and also when `key` was already present. -/
theorem C7_insert_adds_one_entry (tree tree' : BPlusTree) (key : Int)
    (hi : Insert tree key = .ok tree') :
    (↑(allKeys tree'.root) : Multiset Int) = key ::ₘ ↑(allKeys tree.root) := by
  rw [Multiset.cons_coe, Multiset.coe_eq_coe]
  exact (Insert_spec hi).1

/-- C7 at the tree `[10]` over `[1,2,3]` and `[20,30,40]`, inserting 10 a second
time. -/
theorem C7_insert_adds_one_entry_witness :
    ∃ tree', Insert treeTwoFat 10 = .ok tree' ∧
      (↑(allKeys tree'.root) : Multiset Int) = 10 ::ₘ ↑(allKeys treeTwoFat.root) :=
  ⟨_, rfl, C7_insert_adds_one_entry treeTwoFat _ 10 rfl⟩

/-- C8 (fan-out bound after Insert and Delete) fails on the code: in the tree
`[10,50]` over `[1,2] [20,30] [60,70]`, which satisfies the invariants of
section 3, `Delete(0)` merges the first two leaves and the key between them into
one leaf of five keys, more than `maxKeys`. -/
theorem C8_delete_merge_overflows :
    Invariants 1 treeThreeMin ∧
      Delete treeThreeMin 0 = .ok
        { root := nodeAt0 [50]
            [leafAt 1 [1, 2, 10, 20, 30] (some 3), leafAt 3 [60, 70] none],
          alloc := 4 } ∧
      ¬ FanOut (nodeAt0 [50]
        [leafAt 1 [1, 2, 10, 20, 30] (some 3), leafAt 3 [60, 70] none]) :=
  ⟨by decide, rfl, by decide⟩

/-- C9: on a tree whose leaves are all at depth `h` and whose internal nodes have
`len(children) == len(keys)+1`, a completed `Insert(key)` leaves all leaves at
depth `h`, and a completed `Delete(key)` leaves all leaves at one depth (with
`len(children) == len(keys)+1` at internal nodes in both cases). -/
theorem C9_balance_preserved (tree : BPlusTree) (key : Int) (h : Nat)
    (hs : Shaped h tree.root) :
    (∀ tree', Insert tree key = .ok tree' → Shaped h tree'.root) ∧
      (∀ tree', Delete tree key = .ok tree' → ∃ h', Shaped h' tree'.root) :=
  ⟨fun _ hi => ((Insert_spec hi).2 h hs).1, fun _ hd => (Delete_spec hs hd).1⟩

/-- C9 at the tree `[10]` over `[1,2]` and `[20,30]`: `Insert(1)` and `Delete(1)`,
the latter collapsing the root. -/
theorem C9_balance_preserved_witness :
    Shaped 1 treeTwoMin.root ∧
      (∃ tree', Insert treeTwoMin 1 = .ok tree' ∧ Shaped 1 tree'.root) ∧
      (∃ tree', Delete treeTwoMin 1 = .ok tree' ∧ ∃ h', Shaped h' tree'.root) :=
  ⟨by decide,
    ⟨_, rfl, (C9_balance_preserved treeTwoMin 1 1 (by decide)).1 _ rfl⟩,
    ⟨_, rfl, (C9_balance_preserved treeTwoMin 1 1 (by decide)).2 _ rfl⟩⟩

/-- C10 as stated fails, a non-decreasing in-order traversal being all it asks
of the tree.  The tree `[50]` over the internal node `[10,20,30]` and the leaf
`[60,70]` has one, but its leaves are not at one depth: `Delete(60)` lets the
leaf borrow from the internal node, which loses its key 30 but not the child
that held 40, and 40 comes to stand before 30.  The root without keys over the
leaves `[1]` and `[2]` has one, but a child too many: `Insert(5)` puts 5 into
the first leaf, before 2. -/
theorem C10_ill_shaped_tree_unsorts :
    ((inorder treeLopsided.root).Sorted (· ≤ ·) ∧
      ∃ tree', Delete treeLopsided 60 = .ok tree' ∧
        inorder tree'.root = [5, 10, 15, 20, 25, 40, 30, 50, 70] ∧
        ¬ (inorder tree'.root).Sorted (· ≤ ·)) ∧
    ((inorder treeKeyless.root).Sorted (· ≤ ·) ∧
      ∃ tree', Insert treeKeyless 5 = .ok tree' ∧ inorder tree'.root = [1, 5, 2] ∧
        ¬ (inorder tree'.root).Sorted (· ≤ ·)) :=
  ⟨⟨by decide,
    { root := nodeAt0 [30]
        [mk [10, 20]
          [leafAt 1 [5] (some 2), leafAt 2 [15] (some 3), leafAt 3 [25] (some 4),
            leafAt 4 [40] (some 6)] false none 5,
          leafAt 6 [50, 70] none],
      alloc := 7 }, rfl, by decide, by decide⟩,
   ⟨by decide,
    { root := nodeAt0 [] [leafAt 1 [1, 5] (some 2), leafAt 2 [2] none], alloc := 3 },
    rfl, by decide, by decide⟩⟩

/-- C10 amended: on a tree whose leaves are all at one depth, whose internal
nodes have `len(children) == len(keys)+1` and whose in-order traversal is
non-decreasing, the in-order traversal after a completed `Insert(key)` or
`Delete(key)` is non-decreasing; hence after any sequence of completed
operations on a new tree the in-order traversal, and with it the sequence of
the keys of its leaves read left to right, is non-decreasing. -/
theorem C10_sortedness_preserved :
    (∀ (tree : BPlusTree) (key : Int) (h : Nat), Shaped h tree.root →
      (inorder tree.root).Sorted (· ≤ ·) →
      (∀ tree', Insert tree key = .ok tree' → (inorder tree'.root).Sorted (· ≤ ·)) ∧
        (∀ tree', Delete tree key = .ok tree' → (inorder tree'.root).Sorted (· ≤ ·))) ∧
      (∀ (ops : List Op) (tree : BPlusTree), runOps NewBPlusTree ops = .ok tree →
        (inorder tree.root).Sorted (· ≤ ·) ∧ (leafKeys tree.root).Sorted (· ≤ ·)) := by
  refine ⟨fun tree key h hs hsorted => ⟨fun _ hi => ((Insert_spec hi).2 h hs).2 hsorted,
    fun _ hd => removed_sorted (Delete_spec hs hd).2 hsorted⟩, fun ops tree hr => ?_⟩
  obtain ⟨h', hs', hsorted'⟩ := runOps_sorted ops NewBPlusTree tree 0 (by decide) (by decide) hr
  exact ⟨hsorted', List.Pairwise.sublist (leafKeys_sublist h' _ hs') hsorted'⟩

/-- C10 amended at the tree `[10]` over `[1,2]` and `[20,30]` and at a run of
three operations from the new tree. -/
theorem C10_sortedness_preserved_witness :
    Shaped 1 treeTwoMin.root ∧ (inorder treeTwoMin.root).Sorted (· ≤ ·) ∧
      (∃ tree', Insert treeTwoMin 25 = .ok tree' ∧ (inorder tree'.root).Sorted (· ≤ ·)) ∧
      (∃ tree', Delete treeTwoMin 2 = .ok tree' ∧ (inorder tree'.root).Sorted (· ≤ ·)) ∧
      (∃ tree', runOps NewBPlusTree [Op.insert 3, Op.insert 1, Op.delete 3] = .ok tree' ∧
        (leafKeys tree'.root).Sorted (· ≤ ·)) :=
  ⟨by decide, by decide,
    ⟨_, rfl, (C10_sortedness_preserved.1 treeTwoMin 25 1 (by decide) (by decide)).1 _ rfl⟩,
    ⟨_, rfl, (C10_sortedness_preserved.1 treeTwoMin 2 1 (by decide) (by decide)).2 _ rfl⟩,
    ⟨_, rfl,
      (C10_sortedness_preserved.2 [Op.insert 3, Op.insert 1, Op.delete 3] _ rfl).2⟩⟩

/-! ## Leaf roots -/

theorem isLeaf_setKeys (n : BPlusTreeNode) (ks : List Int) : (n.setKeys ks).isLeaf = n.isLeaf := by
  cases n; rfl

theorem keys_setKeys (n : BPlusTreeNode) (ks : List Int) : (n.setKeys ks).keys = ks := by
  cases n; rfl

theorem setKeys_keys (n : BPlusTreeNode) : n.setKeys n.keys = n := by
  cases n; rfl

theorem take_scan_drop_eq_erase (ks : List Int) (key : Int)
    (h : ks[scan ks key]? = some key) :
    ks.take (scan ks key) ++ ks.drop (scan ks key + 1) = ks.erase key := by
  induction ks with
  | nil => simp at h
  | cons k ks ih =>
    simp only [scan] at h ⊢
    split at h
    · rename_i hlt
      rw [if_pos hlt]
      simp only [List.getElem?_cons_succ] at h
      have hne : k ≠ key := by omega
      simp only [List.take_succ_cons, List.drop_succ_cons, List.cons_append]
      rw [List.erase_cons_tail (by simpa using hne), ih h]
    · rename_i hlt
      rw [if_neg hlt]
      simp only [List.getElem?_cons_zero, Option.some.injEq] at h
      subst h
      simp

/-- `Delete` on a tree whose root is a leaf with non-decreasing keys erases the
first occurrence of the key from the root, if there is one. -/
theorem Delete_leaf_root (tree : BPlusTree) (key : Int) (hl : tree.root.isLeaf = true)
    (hs : tree.root.keys.Sorted (· ≤ ·)) :
    Delete tree key =
      .ok { root := tree.root.setKeys (tree.root.keys.erase key), alloc := tree.alloc } := by
  obtain ⟨root, alloc⟩ := tree
  cases root with
  | mk keys children isLeaf next addr =>
    simp only [isLeaf_mk, keys_mk] at hl hs
    subst hl
    unfold Delete
    have hsz : size (mk keys children true next addr) = sizeList children + 1 := size_eq _
    simp only [hsz, delete, isLeaf_mk, keys_mk, if_true]
    by_cases hfound : keys[scan keys key]? = some key
    · rw [if_pos hfound]
      simp only [setKeys, keys_mk, children_mk, isLeaf_mk, next_mk, addr_mk]
      rw [take_scan_drop_eq_erase keys key hfound]
    · rw [if_neg hfound]
      have hnot := not_mem_of_scan keys key hs hfound
      simp only [setKeys, keys_mk, children_mk, isLeaf_mk, next_mk, addr_mk]
      rw [List.erase_of_not_mem hnot]

theorem wellFormed_leaf {n : BPlusTreeNode} (hl : n.isLeaf = true)
    (hs : n.keys.Sorted (· ≤ ·)) : WellFormed n := by
  cases n with
  | mk k c l nx a =>
    simp only [isLeaf_mk, keys_mk] at hl hs
    subst hl
    unfold WellFormed
    rw [allNodes_mk]
    exact ⟨⟨hs, fun h => by simp at h⟩, fun h => by simp at h⟩

theorem allKeys_of_leaf {n : BPlusTreeNode} (hl : n.isLeaf = true) : allKeys n = n.keys := by
  cases n with
  | mk k c l nx a =>
    simp only [isLeaf_mk] at hl
    subst hl
    simp [allKeys]

/-! ## Routing bounds under insertion -/

theorem insertNonFull_routed (fuel : Nat) : ∀ (n : BPlusTreeNode) (key : Int) (alloc : Nat)
    (n' : BPlusTreeNode) (alloc' : Nat), insertNonFull fuel n key alloc = .ok (n', alloc') →
    AllNodes RoutedAt n → AllNodes RoutedAt n' := by
  induction fuel with
  | zero => intro n key alloc n' alloc' hi; simp [insertNonFull] at hi
  | succ fuel ih =>
    intro n key alloc n' alloc' hi hr
    cases n with
    | mk keys children isLeaf next addr =>
      unfold insertNonFull at hi
      simp only [keys_mk, children_mk, isLeaf_mk] at hi
      cases isLeaf with
      | true =>
        simp only [if_true, Except.ok.injEq, Prod.mk.injEq, setKeys, keys_mk, children_mk,
          isLeaf_mk, next_mk, addr_mk] at hi
        obtain ⟨rfl, -⟩ := hi
        rw [allNodes_mk]
        exact ⟨fun h => by simp at h, fun h => by simp at h⟩
      | false =>
        simp only [Bool.false_eq_true, if_false] at hi
        cases h1 : elemAt children (scan keys key) 64 with
        | error e => rw [h1] at hi; cases hi
        | ok child =>
          rw [h1] at hi
          simp only at hi
          split at hi
          · obtain ⟨l, hl⟩ := splitChild_panics (mk keys children false next addr)
              (scan keys key) alloc
            rw [hl] at hi
            cases hi
          · cases hrec : insertNonFull fuel child key alloc with
            | error e => rw [hrec] at hi; cases hi
            | ok res =>
              obtain ⟨c1, a1⟩ := res
              rw [hrec] at hi
              simp only [Except.ok.injEq, Prod.mk.injEq, setChildren, keys_mk, children_mk,
                isLeaf_mk, next_mk, addr_mk] at hi
              obtain ⟨rfl, -⟩ := hi
              have hc := elemAt_ok h1
              have hilt := lt_length_of_getElem? hc
              rw [allNodes_mk] at hr ⊢
              obtain ⟨hroute, hrest⟩ := hr
              have hroute' := routing_def.1 (hroute rfl)
              have hperm := (insertNonFull_spec _ _ _ _ _ _ hrec).1
              refine ⟨fun _ => ?_, fun _ x hx => ?_⟩
              · simp only [keys_mk, children_mk]
                rw [routing_def]
                intro j d hd x hx
                by_cases hji : j = scan keys key
                · subst hji
                  rw [List.getElem?_set_self hilt] at hd
                  cases hd
                  have hx' := hperm.subset hx
                  rcases List.mem_cons.1 hx' with rfl | hx'
                  · refine ⟨fun lo hpos hlo => ?_, fun hi hhi => scan_stop keys x hi hhi⟩
                    exact le_of_lt (scan_lt keys x _ (by omega) lo hlo)
                  · exact hroute' _ child hc x hx'
                · rw [List.getElem?_set_ne (fun h => hji h.symm)] at hd
                  exact hroute' j d hd x hx
              · rcases List.mem_or_eq_of_mem_set hx with hx | rfl
                · exact hrest rfl x hx
                · exact ih child key alloc x a1 hrec (hrest rfl child (List.getElem?_mem hc))

theorem Insert_routed {tree tree' : BPlusTree} {key : Int} (hr : AllNodes RoutedAt tree.root)
    (hi : Insert tree key = .ok tree') : AllNodes RoutedAt tree'.root := by
  unfold Insert at hi
  split at hi
  · rename_i hfull
    obtain ⟨l, hl⟩ := Insert_full_root_panics tree key hfull
    unfold Insert at hl
    rw [if_pos hfull] at hl
    rw [hl] at hi
    cases hi
  · cases hrec : insertNonFull (size tree.root) tree.root key tree.alloc with
    | error e => rw [hrec] at hi; cases hi
    | ok res =>
      obtain ⟨r, a⟩ := res
      rw [hrec] at hi
      simp only [Except.ok.injEq] at hi
      subst hi
      exact insertNonFull_routed _ _ _ _ _ _ hrec hr


/-! ## Rebalancing regroups keys: two levels suffice -/

theorem inorderList_replace_two {keys : List Int} {children : List BPlusTreeNode}
    {j : Nat} {a b a' b' : BPlusTreeNode} {s s' : Int}
    (ha : children[j]? = some a) (hb : children[j + 1]? = some b) (hs : keys[j]? = some s)
    (hin : inorder a' ++ s' :: inorder b' = inorder a ++ s :: inorder b) :
    inorderList ((children.set j a').set (j + 1) b') (keys.set j s') =
      inorderList children keys := by
  obtain ⟨pre, post, hc, hpre, -, -, hset⟩ := list_split_two ha hb
  obtain ⟨kpre, kpost, hk, hkpre, -, -, hkset⟩ := list_split_one hs
  rw [hset, hkset]
  conv_rhs => rw [hc, hk]
  rw [inorderList_append pre kpre _ _ (by omega), inorderList_append pre kpre _ _ (by omega)]
  obtain ⟨R, hR⟩ := inorderList_cons_exists post kpost
  have key : inorder a' ++ s' :: (inorder b' ++ R) = inorder a ++ s :: (inorder b ++ R) := by
    have := congrArg (fun l => l ++ R) hin
    simpa using this
  simp only [inorderList, hR, List.append_assoc, key]

theorem inorderList_merge_two {keys : List Int} {children : List BPlusTreeNode}
    {j : Nat} {a b m : BPlusTreeNode} {s : Int}
    (ha : children[j]? = some a) (hb : children[j + 1]? = some b) (hs : keys[j]? = some s)
    (hin : inorder m = inorder a ++ s :: inorder b) :
    inorderList (children.take j ++ m :: children.drop (j + 2))
        (keys.take j ++ keys.drop (j + 1)) =
      inorderList children keys := by
  obtain ⟨pre, post, hc, hpre, htake, hdrop, -⟩ := list_split_two ha hb
  obtain ⟨kpre, kpost, hk, hkpre, hktake, hkdrop, -⟩ := list_split_one hs
  rw [htake, hdrop, hktake, hkdrop]
  conv_rhs => rw [hc, hk]
  rw [inorderList_append pre kpre _ _ (by omega), inorderList_append pre kpre _ _ (by omega)]
  obtain ⟨R, hR⟩ := inorderList_cons_exists post kpost
  simp only [inorderList, hR, hin]
  simp

/-- The in-order sequence of the merge of two nodes that are both leaves, or
both internal, the left one with `len(children) == len(keys)+1`. -/
theorem merge_inorder {l r : BPlusTreeNode} (sep : Int) (nx : Option Nat) (a : Nat)
    (hk : (l.isLeaf = true ∧ r.isLeaf = true) ∨
      (l.isLeaf = false ∧ l.children.length = l.keys.length + 1 ∧ r.isLeaf = false)) :
    inorder (mk (l.keys ++ [sep] ++ r.keys) (l.children ++ r.children) l.isLeaf nx a) =
      inorder l ++ sep :: inorder r := by
  rcases hk with ⟨h1, h2⟩ | ⟨h1, h1c, h2⟩
  · rw [h1, inorder_leaf, inorder_of_leaf h1, inorder_of_leaf h2]
    simp
  · rw [h1, inorder_internal, inorder_of_internal h1, inorder_of_internal h2,
      List.append_assoc, List.singleton_append]
    exact inorderList_join _ _ _ _ _ h1c

theorem rotate_right_inorder {l c : BPlusTreeNode} (sep : Int) {last : Int}
    (hlast : l.keys[l.keys.length - 1]? = some last) :
    (l.isLeaf = true → c.isLeaf = true →
      inorder (l.setKeys (l.keys.take (l.keys.length - 1))) ++
          last :: inorder (c.setKeys (sep :: c.keys)) =
        inorder l ++ sep :: inorder c) ∧
    (l.isLeaf = false → l.children.length = l.keys.length + 1 → c.isLeaf = false →
      ∀ lc, l.children[l.children.length - 1]? = some lc →
      inorder (mk (l.keys.take (l.keys.length - 1))
          (l.children.take (l.children.length - 1)) l.isLeaf l.next l.addr) ++
          last :: inorder (mk (sep :: c.keys) (lc :: c.children) c.isLeaf c.next c.addr) =
        inorder l ++ sep :: inorder c) := by
  obtain ⟨kpre, kpost, hk, hklen, hktake, hkdrop, -⟩ := list_split_one hlast
  have hkpost : kpost = [] := by
    rw [← hkdrop]
    apply List.drop_eq_nil_of_le
    have := lt_length_of_getElem? hlast
    omega
  subst hkpost
  constructor
  · intro hll hleaf
    rw [inorder_of_leaf hll, inorder_of_leaf hleaf,
      inorder_of_leaf (n := l.setKeys _) (by rw [isLeaf_setKeys]; exact hll),
      inorder_of_leaf (n := c.setKeys _) (by rw [isLeaf_setKeys]; exact hleaf),
      keys_setKeys, keys_setKeys, hktake]
    conv_rhs => rw [hk]
    simp
  · intro h1 h1c h2 lc hlc
    obtain ⟨cpre, cpost, hch, hclen, hctake, hcdrop, -⟩ := list_split_one hlc
    have hcpost : cpost = [] := by
      rw [← hcdrop]
      apply List.drop_eq_nil_of_le
      have := lt_length_of_getElem? hlc
      omega
    subst hcpost
    cases l with
    | mk lk lch lleaf lnx la =>
      cases c with
      | mk ck cch cleaf cnx ca =>
        simp only [keys_mk, children_mk, isLeaf_mk, next_mk, addr_mk] at *
        subst h1 h2
        rw [hktake, hctake]
        have hlen : cpre.length = kpre.length + 1 := by
          rw [hk, hch] at h1c
          simp at h1c
          omega
        simp only [inorder_internal]
        conv_rhs => rw [hk, hch]
        rw [inorderList_join cpre kpre last [lc] [] hlen]
        simp [inorderList]

theorem rotate_left_inorder {c r : BPlusTreeNode} (sep : Int) {first : Int}
    (hfirst : r.keys[0]? = some first) :
    (c.isLeaf = true → r.isLeaf = true →
      inorder (c.setKeys (c.keys ++ [sep])) ++ first :: inorder (r.setKeys (r.keys.drop 1)) =
        inorder c ++ sep :: inorder r) ∧
    (c.isLeaf = false → c.children.length = c.keys.length + 1 → r.isLeaf = false →
      ∀ rc, r.children[0]? = some rc →
      inorder (mk (c.keys ++ [sep]) (c.children ++ [rc]) c.isLeaf c.next c.addr) ++
          first :: inorder (mk (r.keys.drop 1) (r.children.drop 1) r.isLeaf r.next r.addr) =
        inorder c ++ sep :: inorder r) := by
  cases c with
  | mk ck cch cleaf cnx ca =>
    cases r with
    | mk rk rch rleaf rnx ra =>
      simp only [keys_mk, children_mk, isLeaf_mk, next_mk, addr_mk, setKeys] at *
      cases rk with
      | nil => simp at hfirst
      | cons k0 rk =>
        simp only [List.getElem?_cons_zero, Option.some.injEq] at hfirst
        subst hfirst
        constructor
        · intro h1 h2
          subst h1 h2
          simp [inorder_leaf]
        · intro h1 h1c h2 rc hrc
          subst h1 h2
          cases rch with
          | nil => simp at hrc
          | cons c0 rch =>
            simp only [List.getElem?_cons_zero, Option.some.injEq] at hrc
            subst hrc
            simp only [inorder_internal, List.drop_succ_cons, List.drop_zero]
            rw [inorderList_join cch ck sep [c0] [] h1c]
            simp [inorderList]

/-- If the children of a node are all leaves, or all internal nodes with
`len(children) == len(keys)+1`, any two of them are of one kind. -/
theorem kind_pair {children : List BPlusTreeNode}
    (hkind : (∀ c ∈ children, c.isLeaf = true) ∨
      (∀ c ∈ children, c.isLeaf = false ∧ c.children.length = c.keys.length + 1))
    {a b : BPlusTreeNode} (ha : a ∈ children) (hb : b ∈ children) :
    (a.isLeaf = true ∧ b.isLeaf = true) ∨
      (a.isLeaf = false ∧ a.children.length = a.keys.length + 1 ∧
        b.isLeaf = false ∧ b.children.length = b.keys.length + 1) := by
  rcases hkind with h | h
  · exact Or.inl ⟨h a ha, h b hb⟩
  · exact Or.inr ⟨(h a ha).1, (h a ha).2, (h b hb).1, (h b hb).2⟩

theorem borrowLeft_regroups {parent child l : BPlusTreeNode} {j : Nat}
    (hp : parent.isLeaf = false) (hcount : parent.children.length = parent.keys.length + 1)
    (hl : parent.children[j]? = some l) (hc : parent.children[j + 1]? = some child)
    (hlk : 0 < l.keys.length)
    (hk : (l.isLeaf = true ∧ child.isLeaf = true) ∨
      (l.isLeaf = false ∧ l.children.length = l.keys.length + 1 ∧
        child.isLeaf = false ∧ child.children.length = child.keys.length + 1)) :
    ∃ p, borrowLeft parent (j + 1) child l = .ok p ∧ inorder p = inorder parent := by
  cases parent with
  | mk keys children isLeaf next addr =>
    simp only [keys_mk, children_mk, isLeaf_mk] at hp hcount hl hc
    subst hp
    have hj := lt_length_of_getElem? hc
    have hks : keys[j]? = some keys[j] := List.getElem?_eq_getElem (by omega)
    have hlast : l.keys[l.keys.length - 1]? = some l.keys[l.keys.length - 1] :=
      List.getElem?_eq_getElem (by omega)
    have hrot := rotate_right_inorder (c := child) keys[j] hlast
    unfold borrowLeft
    simp only [keys_mk, children_mk, isLeaf_mk, next_mk, addr_mk, Nat.add_sub_cancel]
    rw [elemAt_of_getElem? hks, elemAt_of_getElem? hlast]
    simp only
    rcases hk with ⟨h1, h2⟩ | ⟨h1, h1c, h2, -⟩
    · rw [h2]
      simp only [if_true]
      refine ⟨_, rfl, ?_⟩
      rw [inorder_internal, inorder_internal]
      exact inorderList_replace_two hl hc hks (hrot.1 h1 h2)
    · rw [h2]
      simp only [Bool.false_eq_true, if_false]
      have hlc : l.children[l.children.length - 1]? = some l.children[l.children.length - 1] :=
        List.getElem?_eq_getElem (by omega)
      rw [elemAt_of_getElem? hlc]
      refine ⟨_, rfl, ?_⟩
      rw [inorder_internal, inorder_internal]
      have := hrot.2 h1 h1c h2 _ hlc
      rw [h2] at this
      exact inorderList_replace_two hl hc hks this

theorem borrowRight_regroups {parent child r : BPlusTreeNode} {j : Nat}
    (hp : parent.isLeaf = false) (hcount : parent.children.length = parent.keys.length + 1)
    (hc : parent.children[j]? = some child) (hr : parent.children[j + 1]? = some r)
    (hrk : 0 < r.keys.length)
    (hk : (child.isLeaf = true ∧ r.isLeaf = true) ∨
      (child.isLeaf = false ∧ child.children.length = child.keys.length + 1 ∧
        r.isLeaf = false ∧ r.children.length = r.keys.length + 1)) :
    ∃ p, borrowRight parent j child r = .ok p ∧ inorder p = inorder parent := by
  cases parent with
  | mk keys children isLeaf next addr =>
    simp only [keys_mk, children_mk, isLeaf_mk] at hp hcount hr hc
    subst hp
    have hj := lt_length_of_getElem? hr
    have hks : keys[j]? = some keys[j] := List.getElem?_eq_getElem (by omega)
    have hfirst : r.keys[0]? = some r.keys[0] := List.getElem?_eq_getElem hrk
    have hrot := rotate_left_inorder (c := child) keys[j] hfirst
    unfold borrowRight
    simp only [keys_mk, children_mk, isLeaf_mk, next_mk, addr_mk]
    rw [elemAt_of_getElem? hks, elemAt_of_getElem? hfirst]
    simp only
    rcases hk with ⟨h1, h2⟩ | ⟨h1, h1c, h2, h2c⟩
    · rw [h1]
      simp only [if_true]
      refine ⟨_, rfl, ?_⟩
      rw [inorder_internal, inorder_internal]
      exact inorderList_replace_two hc hr hks (hrot.1 h1 h2)
    · rw [h1]
      simp only [Bool.false_eq_true, if_false]
      have hrc : r.children[0]? = some r.children[0] :=
        List.getElem?_eq_getElem (by omega)
      rw [elemAt_of_getElem? hrc]
      refine ⟨_, rfl, ?_⟩
      rw [inorder_internal, inorder_internal]
      have := hrot.2 h1 h1c h2 _ hrc
      rw [h1] at this
      exact inorderList_replace_two hc hr hks this

theorem mergeChildren_regroups {parent l r : BPlusTreeNode} {j : Nat} (isRoot : Bool)
    (hp : parent.isLeaf = false) (hcount : parent.children.length = parent.keys.length + 1)
    (hl : parent.children[j]? = some l) (hr : parent.children[j + 1]? = some r)
    (hk : (l.isLeaf = true ∧ r.isLeaf = true) ∨
      (l.isLeaf = false ∧ l.children.length = l.keys.length + 1 ∧
        r.isLeaf = false ∧ r.children.length = r.keys.length + 1)) :
    ∃ p moved, mergeChildren parent j isRoot = .ok (p, moved) ∧ inorder p = inorder parent ∧
      (moved = true → ∃ top, p.children[j]? = some top ∧ inorder top = inorder parent) := by
  cases parent with
  | mk keys children isLeaf next addr =>
    simp only [keys_mk, children_mk, isLeaf_mk] at hp hcount hl hr
    subst hp
    have hj := lt_length_of_getElem? hr
    have hks : keys[j]? = some keys[j] := List.getElem?_eq_getElem (by omega)
    have hm := merge_inorder keys[j] (if l.isLeaf then r.next else l.next) l.addr
      (hk.imp (fun h => h) (fun h => ⟨h.1, h.2.1, h.2.2.1⟩))
    have hin := inorderList_merge_two hl hr hks hm
    unfold mergeChildren
    simp only [keys_mk, children_mk, isLeaf_mk, next_mk, addr_mk]
    rw [elemAt_of_getElem? hl, elemAt_of_getElem? hr, elemAt_of_getElem? hks]
    simp only
    refine ⟨_, _, rfl, ?_, ?_⟩
    · rw [inorder_internal, inorder_internal]
      exact hin
    · intro hmv
      simp only [Bool.and_eq_true, beq_iff_eq, List.length_eq_zero] at hmv
      obtain ⟨pre, post, hch, hpre, htake, hdrop, -⟩ := list_split_two hl hr
      obtain ⟨kpre, kpost, hkk, hkpre, hktake, hkdrop, -⟩ := list_split_one hks
      have hnil := hmv.2
      rw [hktake, hkdrop] at hnil
      have hkpre0 : kpre = [] := (List.append_eq_nil.1 hnil).1
      have hkpost0 : kpost = [] := (List.append_eq_nil.1 hnil).2
      subst hkpre0 hkpost0
      have hj0 : j = 0 := by simpa using hkpre.symm
      subst hj0
      have hpre0 : pre = [] := List.length_eq_zero.1 hpre
      subst hpre0
      have hpost0 : post = [] := by
        rw [hch, hkk] at hcount
        simp at hcount
        exact hcount
      subst hpost0
      simp only [children_mk]
      rw [htake, hdrop]
      simp only [List.nil_append, List.getElem?_cons_zero, Option.some.injEq, exists_eq_left']
      rw [hm, inorder_internal]
      conv_rhs => rw [hch, hkk]
      simp [inorderList]

theorem fixChild_regroups (parent : BPlusTreeNode) (index : Nat) (isRoot : Bool)
    (hp : parent.isLeaf = false) (hcount : parent.children.length = parent.keys.length + 1)
    (htwo : 2 ≤ parent.children.length)
    (hkind : (∀ c ∈ parent.children, c.isLeaf = true) ∨
      (∀ c ∈ parent.children, c.isLeaf = false ∧ c.children.length = c.keys.length + 1))
    (hindex : index < parent.children.length) :
    ∃ p moved, fixChild parent index isRoot = .ok (p, moved) ∧ inorder p = inorder parent ∧
      ∀ j, moved = some j → ∃ top, p.children[j]? = some top ∧ inorder top = inorder parent := by
  have hc : parent.children[index]? = some parent.children[index] :=
    List.getElem?_eq_getElem hindex
  unfold fixChild
  rw [elemAt_of_getElem? hc]
  simp only
  cases h2 : leftSpare parent index with
  | some l =>
    simp only
    obtain ⟨hpos, hl, hlen⟩ := leftSpare_some h2
    obtain ⟨j, rfl⟩ : ∃ j, index = j + 1 := ⟨index - 1, by omega⟩
    simp only [Nat.add_sub_cancel] at hl
    obtain ⟨p, hb, hin⟩ := borrowLeft_regroups hp hcount hl hc (by omega)
      (kind_pair hkind (List.getElem?_mem hl) (List.getElem?_mem hc))
    rw [hb]
    exact ⟨p, none, rfl, hin, fun j hj => by cases hj⟩
  | none =>
    simp only
    cases h4 : rightSpare parent index with
    | some r =>
      simp only
      obtain ⟨hr, hlen⟩ := rightSpare_some h4
      obtain ⟨p, hb, hin⟩ := borrowRight_regroups hp hcount hc hr (by omega)
        (kind_pair hkind (List.getElem?_mem hc) (List.getElem?_mem hr))
      rw [hb]
      exact ⟨p, none, rfl, hin, fun j hj => by cases hj⟩
    | none =>
      simp only
      have hpair : ∃ j l r, (if index > 0 then index - 1 else index) = j ∧
          parent.children[j]? = some l ∧ parent.children[j + 1]? = some r := by
        by_cases hpos : index > 0
        · refine ⟨index - 1, parent.children[index - 1], parent.children[index], ?_, ?_, ?_⟩
          · rw [if_pos hpos]
          · exact List.getElem?_eq_getElem (by omega)
          · have : index - 1 + 1 = index := by omega
            rw [this]
            exact hc
        · have h0 : index = 0 := by omega
          subst h0
          exact ⟨0, parent.children[0], parent.children[1], by simp,
            List.getElem?_eq_getElem (by omega), List.getElem?_eq_getElem (by omega)⟩
      obtain ⟨j, l, r, hj, hl, hr⟩ := hpair
      rw [hj]
      obtain ⟨p, moved, hm, hin, htop⟩ := mergeChildren_regroups isRoot hp hcount hl hr
        (kind_pair hkind (List.getElem?_mem hl) (List.getElem?_mem hr))
      rw [hm]
      simp only
      refine ⟨p, _, rfl, hin, fun j' hj' => ?_⟩
      cases moved with
      | true =>
        simp only [if_true, Option.some.injEq] at hj'
        subst hj'
        exact htop rfl
      | false => simp at hj'


/-! ## The leaf chain -/

theorem findLeaf_of_split (Q S : List BPlusTreeNode) (l : BPlusTreeNode)
    (hnd : ((Q ++ l :: S).map addr).Nodup) : findLeaf (Q ++ l :: S) l.addr = some l := by
  unfold findLeaf
  induction Q with
  | nil => simp
  | cons q Q ih =>
    simp only [List.cons_append, List.map_cons, List.nodup_cons] at hnd
    have hne : q.addr ≠ l.addr := by
      intro h
      apply hnd.1
      rw [h]
      simp
    simp only [List.cons_append]
    rw [List.find?_cons_of_neg _ (by simpa using hne)]
    exact ih hnd.2

theorem followNext_iff_chained (pool : List BPlusTreeNode)
    (hnd : (pool.map addr).Nodup) (S : List BPlusTreeNode) :
    ∀ (Q : List BPlusTreeNode) (fuel : Nat), pool = Q ++ S → S.length + 1 ≤ fuel →
      (followNext fuel pool (S.head?.map addr) = S.map addr ↔ Chained S) := by
  induction S with
  | nil =>
    intro Q fuel _ hf
    obtain ⟨f, rfl⟩ : ∃ f, fuel = f + 1 := ⟨fuel - 1, by omega⟩
    simp [followNext, Chained]
  | cons l S ih =>
    intro Q fuel hp hf
    obtain ⟨f, rfl⟩ : ∃ f, fuel = f + 1 := ⟨fuel - 1, by omega⟩
    simp only [List.length_cons] at hf
    have hfind : findLeaf pool l.addr = some l := by
      rw [hp]
      exact findLeaf_of_split Q S l (by rw [← hp]; exact hnd)
    simp only [List.head?_cons, Option.map_some', followNext, hfind, List.map_cons,
      List.cons.injEq, true_and]
    cases S with
    | nil =>
      obtain ⟨f', rfl⟩ : ∃ f', f = f' + 1 := ⟨f - 1, by omega⟩
      simp only [List.map_nil, Chained]
      cases hn : l.next with
      | none => simp [followNext]
      | some a => simp [followNext]
    | cons m S =>
      have hih := ih (Q ++ [l]) f (by rw [hp]; simp) (by simpa using hf)
      simp only [List.head?_cons, Option.map_some'] at hih
      simp only [Chained]
      obtain ⟨f', rfl⟩ : ∃ f', f = f' + 1 := ⟨f - 1, by simp at hf; omega⟩
      cases hn : l.next with
      | none => simp [followNext]
      | some a =>
        constructor
        · intro h
          have ha : a = m.addr := by
            simp only [followNext, List.map_cons, List.cons.injEq] at h
            exact h.1
          subst ha
          exact ⟨rfl, hih.1 h⟩
        · rintro ⟨ha, hc⟩
          simp only [Option.some.injEq] at ha
          subst ha
          exact hih.2 hc

/-- Following `next` visits exactly the leaves, in order, if and only if each
leaf points to the leaf after it and the last one to nil. -/
theorem visitsAll_iff_leafChain (root : BPlusTreeNode) : VisitsAll root ↔ LeafChain root := by
  unfold VisitsAll LeafChain nextWalk
  constructor
  · rintro ⟨hnd, hw⟩
    exact ⟨hnd, (followNext_iff_chained _ hnd (leaves root) [] _ rfl (le_refl _)).1 hw⟩
  · rintro ⟨hnd, hc⟩
    exact ⟨hnd, (followNext_iff_chained _ hnd (leaves root) [] _ rfl (le_refl _)).2 hc⟩

theorem chained_congr : ∀ (L L' : List BPlusTreeNode), L.map link = L'.map link →
    Chained L → Chained L' := by
  intro L
  induction L with
  | nil =>
    intro L' h _
    cases L' with
    | nil => trivial
    | cons x xs => simp at h
  | cons l L ih =>
    intro L' h hc
    cases L' with
    | nil => simp at h
    | cons l' L' =>
      simp only [List.map_cons, List.cons.injEq, link, Prod.mk.injEq] at h
      obtain ⟨⟨ha, hn⟩, hrest⟩ := h
      cases L with
      | nil =>
        cases L' with
        | nil => simp only [Chained] at hc ⊢; rw [← hn]; exact hc
        | cons m' L' => simp at hrest
      | cons m L =>
        cases L' with
        | nil => simp at hrest
        | cons m' L' =>
          simp only [Chained] at hc ⊢
          have hm : m.addr = m'.addr := by
            simp only [List.map_cons, List.cons.injEq, link, Prod.mk.injEq] at hrest
            exact hrest.1.1
          exact ⟨by rw [← hn, ← hm]; exact hc.1, ih (m' :: L') hrest hc.2⟩

theorem map_addr_of_link {L L' : List BPlusTreeNode} (h : L.map link = L'.map link) :
    L.map addr = L'.map addr := by
  have := congrArg (List.map Prod.fst) h
  simpa [List.map_map, Function.comp_def, link] using this

theorem chainKept_refl (L : List BPlusTreeNode) : ChainKept L L :=
  ⟨List.Sublist.refl _, fun _ _ h => h⟩

theorem chainKept_of_eq {L L' : List BPlusTreeNode} (h : L' = L) : ChainKept L L' := by
  subst h; exact chainKept_refl _

theorem chainKept_trans {L L' L'' : List BPlusTreeNode} (h1 : ChainKept L L')
    (h2 : ChainKept L' L'') : ChainKept L L'' :=
  ⟨h2.1.trans h1.1, fun X Y h => h2.2 X Y (h1.2 X Y h)⟩

theorem chainKept_context {L L' : List BPlusTreeNode} (X Y : List BPlusTreeNode)
    (h : ChainKept L L') : ChainKept (X ++ L ++ Y) (X ++ L' ++ Y) := by
  refine ⟨?_, fun X0 Y0 hc => ?_⟩
  · simp only [List.map_append]
    exact List.Sublist.append (List.Sublist.append (List.Sublist.refl _) h.1)
      (List.Sublist.refl _)
  · have e : ∀ M : List BPlusTreeNode, X0 ++ (X ++ M ++ Y) ++ Y0 = (X0 ++ X) ++ M ++ (Y ++ Y0) := by
      intro M; simp
    rw [e] at hc ⊢
    exact h.2 _ _ hc

theorem chainKept_of_links {L L' : List BPlusTreeNode} (h : L.map link = L'.map link) :
    ChainKept L L' := by
  refine ⟨by rw [map_addr_of_link h], fun X Y hc => ?_⟩
  apply chained_congr _ _ _ hc
  simp only [List.map_append, h]

theorem chainKept_merge {l r m : BPlusTreeNode} (ha : m.addr = l.addr) (hn : m.next = r.next) :
    ChainKept [l, r] [m] := by
  refine ⟨by simp [ha], fun X Y hc => ?_⟩
  have base : Chained (l :: r :: Y) → Chained (m :: Y) := by
    intro h
    simp only [Chained] at h
    cases Y with
    | nil => simp only [Chained] at h ⊢; rw [hn]; exact h.2
    | cons y Y => simp only [Chained] at h ⊢; exact ⟨by rw [hn]; exact h.2.1, h.2.2⟩
  induction X with
  | nil => simpa using base (by simpa using hc)
  | cons x X ih =>
    cases X with
    | nil =>
      simp only [List.cons_append, List.nil_append, Chained] at hc ⊢
      exact ⟨by rw [ha]; exact hc.1, base hc.2⟩
    | cons x2 X =>
      simp only [List.cons_append, Chained] at hc ⊢
      exact ⟨hc.1, by simpa using ih (by simpa using hc.2)⟩

theorem leaves_of_leaf {n : BPlusTreeNode} (h : n.isLeaf = true) : leaves n = [n] := by
  cases n with
  | mk k c l nx a =>
    simp only [isLeaf_mk] at h
    subst h
    simp [leaves]

theorem leaves_of_internal {n : BPlusTreeNode} (h : n.isLeaf = false) :
    leaves n = leavesList n.children := by
  cases n with
  | mk k c l nx a =>
    simp only [isLeaf_mk] at h
    subst h
    simp [leaves]

theorem leaves_internal (k : List Int) (c : List BPlusTreeNode) (n : Option Nat) (a : Nat) :
    leaves (mk k c false n a) = leavesList c := by
  simp [leaves]

theorem leavesList_append (xs ys : List BPlusTreeNode) :
    leavesList (xs ++ ys) = leavesList xs ++ leavesList ys := by
  induction xs with
  | nil => simp [leavesList]
  | cons x xs ih => simp [leavesList, ih]

theorem leavesList_cons (x : BPlusTreeNode) (xs : List BPlusTreeNode) :
    leavesList (x :: xs) = leaves x ++ leavesList xs := by
  simp [leavesList]

theorem link_setKeys (n : BPlusTreeNode) (ks : List Int) : link (n.setKeys ks) = link n := by
  cases n; rfl


theorem merge_chain {h : Nat} {l r : BPlusTreeNode} (sep : Int)
    (hl : Shaped h l) (hr : Shaped h r) :
    ChainKept (leaves l ++ leaves r)
      (leaves (mk (l.keys ++ [sep] ++ r.keys) (l.children ++ r.children) l.isLeaf
        (if l.isLeaf then r.next else l.next) l.addr)) := by
  cases h with
  | zero =>
    have h1 := shaped_zero.1 hl
    have h2 := shaped_zero.1 hr
    rw [leaves_of_leaf h1, leaves_of_leaf h2, h1, leaves_of_leaf (by simp)]
    exact chainKept_merge (by simp) (by simp)
  | succ h =>
    have h1 := shaped_isLeaf_false hl
    have h2 := shaped_isLeaf_false hr
    rw [leaves_of_internal h1, leaves_of_internal h2, h1, leaves_internal, leavesList_append]
    exact chainKept_refl _

theorem rotate_right_chain {h : Nat} {l c : BPlusTreeNode} (sep : Int)
    (hl : Shaped h l) (hc : Shaped h c) :
    (c.isLeaf = true →
      ChainKept (leaves l ++ leaves c)
        (leaves (l.setKeys (l.keys.take (l.keys.length - 1))) ++
          leaves (c.setKeys (sep :: c.keys)))) ∧
    (c.isLeaf = false → ∀ lc, l.children[l.children.length - 1]? = some lc →
      ChainKept (leaves l ++ leaves c)
        (leaves (mk (l.keys.take (l.keys.length - 1))
            (l.children.take (l.children.length - 1)) l.isLeaf l.next l.addr) ++
          leaves (mk (sep :: c.keys) (lc :: c.children) c.isLeaf c.next c.addr))) := by
  constructor
  · intro hleaf
    have h0 := shaped_of_isLeaf hc hleaf
    subst h0
    have hll := shaped_zero.1 hl
    rw [leaves_of_leaf hll, leaves_of_leaf hleaf,
      leaves_of_leaf (n := l.setKeys _) (by rw [isLeaf_setKeys]; exact hll),
      leaves_of_leaf (n := c.setKeys _) (by rw [isLeaf_setKeys]; exact hleaf)]
    apply chainKept_of_links
    simp [link_setKeys]
  · intro hleaf lc hlc
    obtain ⟨h', rfl⟩ := shaped_of_not_isLeaf hc hleaf
    have h1 := shaped_isLeaf_false hl
    obtain ⟨cpre, cpost, hch, -, hctake, hcdrop, -⟩ := list_split_one hlc
    have hcpost : cpost = [] := by
      rw [← hcdrop]
      apply List.drop_eq_nil_of_le
      have := lt_length_of_getElem? hlc
      omega
    subst hcpost
    apply chainKept_of_eq
    rw [leaves_of_internal h1, leaves_of_internal hleaf, h1, hleaf, leaves_internal,
      leaves_internal, hctake, leavesList_cons]
    conv_rhs => rw [hch]
    simp [leavesList_append, leavesList_cons, leavesList]

theorem rotate_left_chain {h : Nat} {c r : BPlusTreeNode} (sep : Int)
    (hc : Shaped h c) (hr : Shaped h r) :
    (c.isLeaf = true →
      ChainKept (leaves c ++ leaves r)
        (leaves (c.setKeys (c.keys ++ [sep])) ++ leaves (r.setKeys (r.keys.drop 1)))) ∧
    (c.isLeaf = false → ∀ rc, r.children[0]? = some rc →
      ChainKept (leaves c ++ leaves r)
        (leaves (mk (c.keys ++ [sep]) (c.children ++ [rc]) c.isLeaf c.next c.addr) ++
          leaves (mk (r.keys.drop 1) (r.children.drop 1) r.isLeaf r.next r.addr))) := by
  constructor
  · intro hleaf
    have h0 := shaped_of_isLeaf hc hleaf
    subst h0
    have hrl := shaped_zero.1 hr
    rw [leaves_of_leaf hrl, leaves_of_leaf hleaf,
      leaves_of_leaf (n := r.setKeys _) (by rw [isLeaf_setKeys]; exact hrl),
      leaves_of_leaf (n := c.setKeys _) (by rw [isLeaf_setKeys]; exact hleaf)]
    apply chainKept_of_links
    simp [link_setKeys]
  · intro hleaf rc hrc
    obtain ⟨h', rfl⟩ := shaped_of_not_isLeaf hc hleaf
    have h2 := shaped_isLeaf_false hr
    apply chainKept_of_eq
    rw [leaves_of_internal h2, leaves_of_internal hleaf, h2, hleaf, leaves_internal,
      leaves_internal]
    cases hrch : r.children with
    | nil => rw [hrch] at hrc; simp at hrc
    | cons c0 rch =>
      rw [hrch] at hrc
      simp only [List.getElem?_cons_zero, Option.some.injEq] at hrc
      subst hrc
      simp [leavesList_append, leavesList_cons, leavesList]

theorem leavesList_replace_two {children : List BPlusTreeNode} {j : Nat}
    {a b a' b' : BPlusTreeNode} (ha : children[j]? = some a) (hb : children[j + 1]? = some b)
    (hk : ChainKept (leaves a ++ leaves b) (leaves a' ++ leaves b')) :
    ChainKept (leavesList children) (leavesList ((children.set j a').set (j + 1) b')) := by
  obtain ⟨pre, post, hc, -, -, -, hset⟩ := list_split_two ha hb
  rw [hset]
  have e : ∀ x y, leavesList (pre ++ x :: y :: post) =
      leavesList pre ++ (leaves x ++ leaves y) ++ leavesList post := by
    intro x y
    simp [leavesList_append, leavesList_cons]
  have := chainKept_context (leavesList pre) (leavesList post) hk
  rw [← e, ← e, ← hc] at this
  exact this

theorem leavesList_merge_two {children : List BPlusTreeNode} {j : Nat}
    {a b m : BPlusTreeNode} (ha : children[j]? = some a) (hb : children[j + 1]? = some b)
    (hk : ChainKept (leaves a ++ leaves b) (leaves m)) :
    ChainKept (leavesList children)
      (leavesList (children.take j ++ m :: children.drop (j + 2))) := by
  obtain ⟨pre, post, hc, -, htake, hdrop, -⟩ := list_split_two ha hb
  rw [htake, hdrop]
  have e : leavesList (pre ++ a :: b :: post) =
      leavesList pre ++ (leaves a ++ leaves b) ++ leavesList post := by
    simp [leavesList_append, leavesList_cons]
  have e' : leavesList (pre ++ m :: post) = leavesList pre ++ leaves m ++ leavesList post := by
    simp [leavesList_append, leavesList_cons]
  have := chainKept_context (leavesList pre) (leavesList post) hk
  rw [← e, ← e', ← hc] at this
  exact this

theorem mergeChildren_chain {h : Nat} {parent p : BPlusTreeNode} {j : Nat}
    {isRoot moved : Bool} (hs : Shaped (h + 1) parent)
    (hm : mergeChildren parent j isRoot = .ok (p, moved)) :
    ChainKept (leaves parent) (leaves p) := by
  cases parent with
  | mk keys children isLeaf next addr =>
    obtain ⟨hl, hcount, hall⟩ := shaped_succ.1 hs
    simp only [keys_mk, children_mk, isLeaf_mk] at hl hcount hall
    subst hl
    unfold mergeChildren at hm
    simp only [keys_mk, children_mk, isLeaf_mk, next_mk, addr_mk] at hm
    cases h1 : elemAt children j 196 with
    | error e => rw [h1] at hm; cases hm
    | ok l =>
      rw [h1] at hm
      cases h2 : elemAt children (j + 1) 197 with
      | error e => rw [h2] at hm; cases hm
      | ok r =>
        rw [h2] at hm
        cases h3 : elemAt keys j 199 with
        | error e => rw [h3] at hm; cases hm
        | ok sep =>
          rw [h3] at hm
          simp only [Except.ok.injEq, Prod.mk.injEq] at hm
          obtain ⟨hp, -⟩ := hm
          have ha := elemAt_ok h1
          have hb := elemAt_ok h2
          subst hp
          rw [leaves_internal, leaves_internal]
          exact leavesList_merge_two ha hb
            (merge_chain sep (hall l (List.getElem?_mem ha)) (hall r (List.getElem?_mem hb)))

theorem borrowLeft_chain {h : Nat} {parent child l p : BPlusTreeNode} {j : Nat}
    (hs : Shaped (h + 1) parent) (hl : parent.children[j]? = some l)
    (hc : parent.children[j + 1]? = some child)
    (hb : borrowLeft parent (j + 1) child l = .ok p) :
    ChainKept (leaves parent) (leaves p) := by
  cases parent with
  | mk keys children isLeaf next addr =>
    obtain ⟨hleaf, hcount, hall⟩ := shaped_succ.1 hs
    simp only [keys_mk, children_mk, isLeaf_mk] at hleaf hcount hall hl hc
    subst hleaf
    unfold borrowLeft at hb
    simp only [keys_mk, children_mk, isLeaf_mk, next_mk, addr_mk, Nat.add_sub_cancel] at hb
    cases h1 : elemAt keys j 164 with
    | error e => rw [h1] at hb; cases hb
    | ok sep =>
      rw [h1] at hb
      cases h2 : elemAt l.keys (l.keys.length - 1) 165 with
      | error e => rw [h2] at hb; cases hb
      | ok last =>
        rw [h2] at hb
        simp only at hb
        have hsl := hall l (List.getElem?_mem hl)
        have hsc := hall child (List.getElem?_mem hc)
        have hrot := rotate_right_chain sep hsl hsc
        cases hcl : child.isLeaf with
        | true =>
          rw [hcl] at hb
          simp only [if_true, Except.ok.injEq] at hb
          subst hb
          rw [leaves_internal, leaves_internal]
          exact leavesList_replace_two hl hc (hrot.1 hcl)
        | false =>
          rw [hcl] at hb
          simp only [Bool.false_eq_true, if_false] at hb
          cases h3 : elemAt l.children (l.children.length - 1) 169 with
          | error e => rw [h3] at hb; cases hb
          | ok lc =>
            rw [h3] at hb
            simp only [Except.ok.injEq] at hb
            subst hb
            rw [leaves_internal, leaves_internal]
            have := hrot.2 hcl lc (elemAt_ok h3)
            rw [hcl] at this
            exact leavesList_replace_two hl hc this

theorem borrowRight_chain {h : Nat} {parent child r p : BPlusTreeNode} {j : Nat}
    (hs : Shaped (h + 1) parent) (hc : parent.children[j]? = some child)
    (hr : parent.children[j + 1]? = some r)
    (hb : borrowRight parent j child r = .ok p) :
    ChainKept (leaves parent) (leaves p) := by
  cases parent with
  | mk keys children isLeaf next addr =>
    obtain ⟨hleaf, hcount, hall⟩ := shaped_succ.1 hs
    simp only [keys_mk, children_mk, isLeaf_mk] at hleaf hcount hall hr hc
    subst hleaf
    unfold borrowRight at hb
    simp only [keys_mk, children_mk, isLeaf_mk, next_mk, addr_mk] at hb
    cases h1 : elemAt keys j 178 with
    | error e => rw [h1] at hb; cases hb
    | ok sep =>
      rw [h1] at hb
      cases h2 : elemAt r.keys 0 179 with
      | error e => rw [h2] at hb; cases hb
      | ok first =>
        rw [h2] at hb
        simp only at hb
        have hsr := hall r (List.getElem?_mem hr)
        have hsc := hall child (List.getElem?_mem hc)
        have hrot := rotate_left_chain sep hsc hsr
        cases hcl : child.isLeaf with
        | true =>
          rw [hcl] at hb
          simp only [if_true, Except.ok.injEq] at hb
          subst hb
          rw [leaves_internal, leaves_internal]
          exact leavesList_replace_two hc hr (hrot.1 hcl)
        | false =>
          rw [hcl] at hb
          simp only [Bool.false_eq_true, if_false] at hb
          cases h3 : elemAt r.children 0 183 with
          | error e => rw [h3] at hb; cases hb
          | ok rc =>
            rw [h3] at hb
            simp only [Except.ok.injEq] at hb
            subst hb
            rw [leaves_internal, leaves_internal]
            have := hrot.2 hcl rc (elemAt_ok h3)
            rw [hcl] at this
            exact leavesList_replace_two hc hr this

theorem fixChild_chain {h : Nat} {parent p : BPlusTreeNode} {index : Nat} {isRoot : Bool}
    {moved : Option Nat} (hs : Shaped (h + 1) parent)
    (hf : fixChild parent index isRoot = .ok (p, moved)) :
    ChainKept (leaves parent) (leaves p) := by
  unfold fixChild at hf
  cases h1 : elemAt parent.children index 157 with
  | error e => rw [h1] at hf; cases hf
  | ok child =>
    rw [h1] at hf
    simp only at hf
    have hc := elemAt_ok h1
    cases h2 : leftSpare parent index with
    | some l =>
      rw [h2] at hf
      simp only at hf
      obtain ⟨hpos, hl, -⟩ := leftSpare_some h2
      obtain ⟨j, rfl⟩ : ∃ j, index = j + 1 := ⟨index - 1, by omega⟩
      simp only [Nat.add_sub_cancel] at hl
      cases h3 : borrowLeft parent (j + 1) child l with
      | error e => rw [h3] at hf; cases hf
      | ok q =>
        rw [h3] at hf
        simp only [Except.ok.injEq, Prod.mk.injEq] at hf
        obtain ⟨rfl, -⟩ := hf
        exact borrowLeft_chain hs hl hc h3
    | none =>
      rw [h2] at hf
      simp only at hf
      cases h4 : rightSpare parent index with
      | some r =>
        rw [h4] at hf
        simp only at hf
        obtain ⟨hr, -⟩ := rightSpare_some h4
        cases h3 : borrowRight parent index child r with
        | error e => rw [h3] at hf; cases hf
        | ok q =>
          rw [h3] at hf
          simp only [Except.ok.injEq, Prod.mk.injEq] at hf
          obtain ⟨rfl, -⟩ := hf
          exact borrowRight_chain hs hc hr h3
      | none =>
        rw [h4] at hf
        simp only at hf
        cases h3 : mergeChildren parent (if index > 0 then index - 1 else index) isRoot with
        | error e => rw [h3] at hf; cases hf
        | ok res =>
          obtain ⟨q, mv⟩ := res
          rw [h3] at hf
          simp only [Except.ok.injEq, Prod.mk.injEq] at hf
          obtain ⟨rfl, -⟩ := hf
          exact mergeChildren_chain hs h3


theorem leavesList_around {children : List BPlusTreeNode} {i : Nat} {c : BPlusTreeNode}
    (hc : children[i]? = some c) :
    ∃ X Y, ∀ c', leavesList (children.set i c') = X ++ leaves c' ++ Y := by
  obtain ⟨pre, post, -, -, -, -, hset⟩ := list_split_one hc
  refine ⟨leavesList pre, leavesList post, fun c' => ?_⟩
  rw [hset]
  simp [leavesList_append, leavesList_cons]

theorem leavesList_single (x : BPlusTreeNode) : leavesList [x] = leaves x := by
  simp [leavesList]

theorem delete_chain (fuel : Nat) : ∀ (n : BPlusTreeNode) (key : Int) (isRoot : Bool) (h : Nat)
    (n' : BPlusTreeNode) (r : Option BPlusTreeNode), Shaped h n →
    delete fuel n key isRoot = .ok (n', r) →
    ChainKept (leaves n) (leaves n') ∧ ∀ x, r = some x → leaves x = leaves n' := by
  induction fuel with
  | zero => intro n key isRoot h n' r _ hd; simp [delete] at hd
  | succ fuel ih =>
    intro n key isRoot h n' r hs hd
    have hspec := delete_spec _ _ _ _ _ _ _ hs hd
    cases n with
    | mk keys children isLeaf next addr =>
      unfold delete at hd
      simp only [keys_mk, children_mk, isLeaf_mk] at hd
      cases isLeaf with
      | true =>
        simp only [if_true] at hd
        split at hd
        · simp only [Except.ok.injEq, Prod.mk.injEq] at hd
          obtain ⟨rfl, rfl⟩ := hd
          refine ⟨?_, fun x hx => by cases hx⟩
          rw [leaves_of_leaf (n := mk keys children true next addr) rfl,
            leaves_of_leaf (n := setKeys _ _) (by rw [isLeaf_setKeys]; rfl)]
          apply chainKept_of_links
          simp [link_setKeys]
        · simp only [Except.ok.injEq, Prod.mk.injEq] at hd
          obtain ⟨rfl, rfl⟩ := hd
          exact ⟨chainKept_refl _, fun x hx => by cases hx⟩
      | false =>
        obtain ⟨h0, rfl⟩ := shaped_of_not_isLeaf hs rfl
        simp only [Bool.false_eq_true, if_false] at hd
        cases h1 : elemAt children (scan keys key) 144 with
        | error e => rw [h1] at hd; cases hd
        | ok child =>
          rw [h1] at hd
          simp only at hd
          cases hfx : (if child.keys.length = maxKeys / 2
              then fixChild (mk keys children false next addr) (scan keys key) isRoot
              else .ok (mk keys children false next addr, none)) with
          | error e => rw [hfx] at hd; cases hd
          | ok res =>
            obtain ⟨node1, moved⟩ := res
            rw [hfx] at hd
            simp only at hd
            have hfix : Shaped (h0 + 1) node1 ∧
                ChainKept (leaves (mk keys children false next addr)) (leaves node1) ∧
                (∀ j, moved = some j → node1.keys = [] ∧ isRoot = true) := by
              split at hfx
              · have := fixChild_spec hs hfx
                exact ⟨this.1, fixChild_chain hs hfx, this.2.2⟩
              · simp only [Except.ok.injEq, Prod.mk.injEq] at hfx
                obtain ⟨rfl, rfl⟩ := hfx
                exact ⟨hs, chainKept_refl _, fun j hj => by cases hj⟩
            obtain ⟨hs1, hck1, hmv⟩ := hfix
            cases node1 with
            | mk k1 ch1 l1 nx1 a1 =>
              obtain ⟨hl1, hcount1, hall1⟩ := shaped_succ.1 hs1
              simp only [keys_mk, children_mk, isLeaf_mk] at hl1 hcount1 hall1 hmv hd
              subst hl1
              cases h2 : elemAt ch1 (scan keys key) 152 with
              | error e => rw [h2] at hd; cases hd
              | ok c =>
                rw [h2] at hd
                simp only at hd
                have hc := elemAt_ok h2
                cases hrec : delete fuel c key (moved == some (scan keys key)) with
                | error e => rw [hrec] at hd; cases hd
                | ok res =>
                  obtain ⟨c1, r0⟩ := res
                  rw [hrec] at hd
                  simp only [Except.ok.injEq, Prod.mk.injEq, setChildren, keys_mk, children_mk,
                    isLeaf_mk, next_mk, addr_mk] at hd
                  obtain ⟨rfl, hr⟩ := hd
                  have hsc := hall1 c (List.getElem?_mem hc)
                  obtain ⟨hck, hroot⟩ := ih c key _ h0 c1 r0 hsc hrec
                  obtain ⟨-, -, hnr, -⟩ := delete_spec _ _ _ _ _ _ _ hsc hrec
                  have hilt := lt_length_of_getElem? hc
                  have hsingle : k1 = [] → ∀ (j : Nat) (x : BPlusTreeNode),
                      (ch1.set (scan keys key) c1)[j]? = some x →
                      leaves x = leaves (mk k1 (ch1.set (scan keys key) c1) false nx1 a1) := by
                    intro hk j x hx
                    subst hk
                    have hlen : (ch1.set (scan keys key) c1).length = 1 := by
                      simpa using hcount1
                    have hj := lt_length_of_getElem? hx
                    have hj0 : j = 0 := by omega
                    subst hj0
                    rw [leaves_internal]
                    cases hch : ch1.set (scan keys key) c1 with
                    | nil => rw [hch] at hlen; simp at hlen
                    | cons y ys =>
                      rw [hch] at hlen hx
                      simp only [List.length_cons, add_left_eq_self, List.length_eq_zero] at hlen
                      subst hlen
                      simp only [List.getElem?_cons_zero, Option.some.injEq] at hx
                      subst hx
                      rw [leavesList_single]
                  refine ⟨?_, ?_⟩
                  · refine chainKept_trans hck1 ?_
                    rw [leaves_internal, leaves_internal]
                    obtain ⟨X, Y, hXY⟩ := leavesList_around hc
                    have e1 := hXY c
                    rw [set_getElem?_self hc] at e1
                    rw [e1, hXY c1]
                    exact chainKept_context X Y hck
                  · intro x hx
                    cases r0 with
                    | some y =>
                      simp only at hr
                      rw [← hr] at hx
                      cases hx
                      have hmi : moved = some (scan keys key) := by
                        by_contra hne
                        have := hnr (by simpa using hne)
                        cases this
                      have hk1 := (hmv _ hmi).1
                      rw [hroot x rfl]
                      exact hsingle hk1 (scan keys key) c1
                        (by rw [List.getElem?_set_self hilt])
                    | none =>
                      simp only at hr
                      cases moved with
                      | none => simp only at hr; rw [← hr] at hx; cases hx
                      | some j =>
                        simp only at hr
                        rw [← hr] at hx
                        exact hsingle (hmv j rfl).1 j x hx

theorem Delete_chain {tree tree' : BPlusTree} {key : Int} {h : Nat} (hs : Shaped h tree.root)
    (hd : Delete tree key = .ok tree') : ChainKept (leaves tree.root) (leaves tree'.root) := by
  unfold Delete at hd
  cases hrec : delete (size tree.root) tree.root key true with
  | error e => rw [hrec] at hd; cases hd
  | ok res =>
    obtain ⟨n', r⟩ := res
    rw [hrec] at hd
    obtain ⟨h1, h2⟩ := delete_chain _ _ _ _ _ _ _ hs hrec
    cases r with
    | none =>
      simp only [Except.ok.injEq] at hd
      subst hd
      exact h1
    | some x =>
      simp only [Except.ok.injEq] at hd
      subst hd
      simp only
      rw [h2 x rfl]
      exact h1

theorem insertNonFull_links (fuel : Nat) : ∀ (n : BPlusTreeNode) (key : Int) (alloc : Nat)
    (n' : BPlusTreeNode) (alloc' : Nat), insertNonFull fuel n key alloc = .ok (n', alloc') →
    (leaves n').map link = (leaves n).map link := by
  induction fuel with
  | zero => intro n key alloc n' alloc' hi; simp [insertNonFull] at hi
  | succ fuel ih =>
    intro n key alloc n' alloc' hi
    cases n with
    | mk keys children isLeaf next addr =>
      unfold insertNonFull at hi
      simp only [keys_mk, children_mk, isLeaf_mk] at hi
      cases isLeaf with
      | true =>
        simp only [if_true, Except.ok.injEq, Prod.mk.injEq] at hi
        obtain ⟨rfl, -⟩ := hi
        rw [leaves_of_leaf (n := mk keys children true next addr) rfl,
          leaves_of_leaf (n := setKeys _ _) (by rw [isLeaf_setKeys]; rfl)]
        simp [link_setKeys]
      | false =>
        simp only [Bool.false_eq_true, if_false] at hi
        cases h1 : elemAt children (scan keys key) 64 with
        | error e => rw [h1] at hi; cases hi
        | ok child =>
          rw [h1] at hi
          simp only at hi
          split at hi
          · obtain ⟨l, hl⟩ := splitChild_panics (mk keys children false next addr)
              (scan keys key) alloc
            rw [hl] at hi
            cases hi
          · cases hrec : insertNonFull fuel child key alloc with
            | error e => rw [hrec] at hi; cases hi
            | ok res =>
              obtain ⟨c1, a1⟩ := res
              rw [hrec] at hi
              simp only [Except.ok.injEq, Prod.mk.injEq, setChildren, keys_mk, children_mk,
                isLeaf_mk, next_mk, addr_mk] at hi
              obtain ⟨rfl, -⟩ := hi
              have hc := elemAt_ok h1
              have := ih child key alloc c1 a1 hrec
              rw [leaves_internal, leaves_internal]
              obtain ⟨X, Y, hXY⟩ := leavesList_around hc
              have e1 := hXY child
              rw [set_getElem?_self hc] at e1
              rw [e1, hXY c1]
              simp only [List.map_append, this]

theorem Insert_links {tree tree' : BPlusTree} {key : Int} (hi : Insert tree key = .ok tree') :
    (leaves tree'.root).map link = (leaves tree.root).map link := by
  unfold Insert at hi
  split at hi
  · rename_i hfull
    obtain ⟨l, hl⟩ := Insert_full_root_panics tree key hfull
    unfold Insert at hl
    rw [if_pos hfull] at hl
    rw [hl] at hi
    cases hi
  · cases hrec : insertNonFull (size tree.root) tree.root key tree.alloc with
    | error e => rw [hrec] at hi; cases hi
    | ok res =>
      obtain ⟨r, a⟩ := res
      rw [hrec] at hi
      simp only [Except.ok.injEq] at hi
      subst hi
      exact insertNonFull_links _ _ _ _ _ _ hrec

theorem leafChain_of_chainKept {root root' : BPlusTreeNode}
    (hk : ChainKept (leaves root) (leaves root')) (hc : LeafChain root) : LeafChain root' := by
  unfold LeafChain at hc ⊢
  refine ⟨List.Nodup.sublist hk.1 hc.1, ?_⟩
  have := hk.2 [] [] (by simpa using hc.2)
  simpa using this

/-! ## The claims, continued -/

/-- C11 (full deletion collapses the tree) fails on the code: a list of five
keys cannot even be inserted, the fifth `Insert` panics on line 83 inside
`splitChild`, so there is no final tree.  With four keys the run completes and
ends in the empty leaf. -/
theorem C11_five_keys_never_inserted :
    runOps NewBPlusTree ([1, 2, 3, 4, 5].map Op.insert ++ [3, 1, 5, 2, 4].map Op.delete) =
        .error (.panic 83) ∧
      runOps NewBPlusTree ([1, 2, 3, 4].map Op.insert ++ [3, 1, 2, 4].map Op.delete) =
        .ok NewBPlusTree :=
  ⟨rfl, rfl⟩

/-- C12 as stated fails: inserting 5 twice into a new tree gives the root leaf
`[5,5]`, whose keys are not strictly increasing. -/
theorem C12_duplicate_keys_share_a_node :
    runOps NewBPlusTree [Op.insert 5, Op.insert 5] =
        .ok { root := mk [5, 5] [] true none 0, alloc := 1 } ∧
      ¬ AllNodes KeysStrict (mk [5, 5] [] true none 0) :=
  ⟨rfl, by decide⟩

/-- C12 amended: after every sequence of `Insert` and `Delete` calls on a new
tree that completes, the keys within each node of the resulting tree are
non-decreasing. -/
theorem C12_node_keys_nondecreasing (ops : List Op) (tree : BPlusTree)
    (hr : runOps NewBPlusTree ops = .ok tree) : AllNodes KeysSorted tree.root := by
  obtain ⟨h', hs', hsorted'⟩ := runOps_sorted ops NewBPlusTree tree 0 (by decide) (by decide) hr
  have hwf : WellFormed tree.root := (shaped_wellFormed_iff h' _ hs').1.2 hsorted'
  exact allNodes_imp (fun n hn => hn.1) _ _ (le_refl _) hwf

/-- C12 amended at the run `Insert(5), Insert(5), Insert(2), Delete(5)`. -/
theorem C12_node_keys_nondecreasing_witness :
    ∃ tree, runOps NewBPlusTree [Op.insert 5, Op.insert 5, Op.insert 2, Op.delete 5] =
        .ok tree ∧ AllNodes KeysSorted tree.root :=
  ⟨_, rfl, C12_node_keys_nondecreasing
    [Op.insert 5, Op.insert 5, Op.insert 2, Op.delete 5] _ rfl⟩

/-- C13 as stated fails: the tree `[10]` over `[1,2,3]` and `[20,30,40]`
satisfies `keys[i-1] <= k < keys[i]`; `Insert(10)` of the separator key descends
into child 0 (the loop on line 61 stops at the first key that is not smaller)
and puts 10 there, where `10 < keys[0]` does not hold. -/
theorem C13_separator_key_goes_left :
    AllNodes RoutedStrictAt treeTwoFat.root ∧
      Insert treeTwoFat 10 = .ok
        { root := nodeAt0 [10] [leafAt 1 [1, 2, 3, 10] (some 2), leafAt 2 [20, 30, 40] none],
          alloc := 3 } ∧
      ¬ AllNodes RoutedStrictAt
        (nodeAt0 [10] [leafAt 1 [1, 2, 3, 10] (some 2), leafAt 2 [20, 30, 40] none]) :=
  ⟨by decide, rfl, by decide⟩

/-- C13 amended: if at every internal node each key `k` of child `i`'s subtree
satisfies `keys[i-1] <= k <= keys[i]` (open at the ends), the same holds of the
tree after a completed `Insert(key)`, also when `key` equals a separator on the
descent path. -/
theorem C13_closed_routing_preserved (tree tree' : BPlusTree) (key : Int)
    (hr : AllNodes RoutedAt tree.root) (hi : Insert tree key = .ok tree') :
    AllNodes RoutedAt tree'.root :=
  Insert_routed hr hi

/-- C13 amended at the tree `[10]` over `[1,2,3]` and `[20,30,40]`, inserting the
separator 10. -/
theorem C13_closed_routing_preserved_witness :
    AllNodes RoutedAt treeTwoFat.root ∧
      ∃ tree', Insert treeTwoFat 10 = .ok tree' ∧ AllNodes RoutedAt tree'.root :=
  ⟨by decide, _, rfl, C13_closed_routing_preserved treeTwoFat _ 10 (by decide) rfl⟩

/-- C14: the root of `NewBPlusTree` is a leaf without keys, children or next
leaf, and `Search` on it returns false for every key. -/
theorem C14_new_tree_is_empty :
    NewBPlusTree.root.isLeaf = true ∧ NewBPlusTree.root.keys = [] ∧
      NewBPlusTree.root.children = [] ∧ NewBPlusTree.root.next = none ∧
      ∀ k : Int, Search NewBPlusTree k = .ok false :=
  ⟨rfl, rfl, rfl, rfl, fun _ => rfl⟩

/-- C16 (the split procedure) fails on the code: `splitChild` never completes.
On a full leaf (here `[1,2,3,4]` under a fresh root) line 83 slices
`child.children[3:]` of a slice of length 0; on a full internal child with five
children line 86 cuts `child.keys` down to two keys and line 89 then reads
`child.keys[2]`. -/
theorem C16_splitChild_never_completes :
    (∀ parent index fresh, ∃ l, splitChild parent index fresh = .error (.panic l)) ∧
      splitChild (nodeAt0 [] [leafAt 1 [1, 2, 3, 4] none]) 0 2 = .error (.panic 83) ∧
      splitChild parentOfFullInternal 0 7 = .error (.panic 89) :=
  ⟨splitChild_panics, rfl, rfl⟩

/-- C17 (rebalancing keeps the descent target) fails on the code when
`fixChild` merges with the left sibling.  For key 20 `delete` chooses `i = 1`
in both trees and child 1 holds `maxKeys/2` keys.  Under the root `[10]` with two
leaves the merge leaves one child, so `children[1]` no longer exists; under the
root `[10,50,80]` with four leaves `children[1]` is afterwards the leaf
`[60,70]`, which holds neither 20 nor 30. -/
theorem C17_left_merge_moves_target :
    (Invariants 1 treeTwoMin ∧ scan treeTwoMin.root.keys 20 = 1 ∧
      fixChild treeTwoMin.root 1 true =
        .ok (nodeAt0 [] [leafAt 1 [1, 2, 10, 20, 30] none], some 0) ∧
      (nodeAt0 [] [leafAt 1 [1, 2, 10, 20, 30] none]).children[1]? = none) ∧
    (Invariants 1 treeFourMin ∧ scan treeFourMin.root.keys 20 = 1 ∧
      fixChild treeFourMin.root 1 true =
        .ok (nodeAt0 [50, 80]
          [leafAt 1 [1, 2, 10, 20, 30] (some 3), leafAt 3 [60, 70] (some 4),
            leafAt 4 [90, 95] none], none) ∧
      (20 : Int) ∉ allKeys (leafAt 3 [60, 70] (some 4)) ∧
      (30 : Int) ∉ allKeys (leafAt 3 [60, 70] (some 4))) :=
  ⟨⟨by decide, by decide, rfl, rfl⟩, ⟨by decide, by decide, rfl, by decide, by decide⟩⟩

/-- C18: on a tree whose root is a leaf with non-decreasing keys, `Delete(key)`
returns the tree whose root is that leaf with the first occurrence of `key`
erased from its keys (the same keys if there is none); so after two completed
`Insert(key)` a `Delete(key)` leaves a tree in which `Search(key)` is true. -/
theorem C18_delete_at_leaf_root (tree : BPlusTree) (key : Int)
    (hl : tree.root.isLeaf = true) (hs : tree.root.keys.Sorted (· ≤ ·)) :
    (Delete tree key =
        .ok { root := tree.root.setKeys (tree.root.keys.erase key), alloc := tree.alloc } ∧
      (tree.root.setKeys (tree.root.keys.erase key)).isLeaf = true ∧
      (key ∉ tree.root.keys → tree.root.setKeys (tree.root.keys.erase key) = tree.root)) ∧
    (∀ t1 t2, Insert tree key = .ok t1 → Insert t1 key = .ok t2 →
      ∃ t3, Delete t2 key = .ok t3 ∧ Search t3 key = .ok true) := by
  refine ⟨⟨Delete_leaf_root tree key hl hs, ?_, fun hk => ?_⟩, fun t1 t2 h1 h2 => ?_⟩
  · rw [isLeaf_setKeys]; exact hl
  · rw [List.erase_of_not_mem hk, setKeys_keys]
  · have hs0 : Shaped 0 tree.root := shaped_zero.2 hl
    obtain ⟨p1, q1⟩ := Insert_spec h1
    obtain ⟨s1, o1⟩ := q1 0 hs0
    obtain ⟨p2, q2⟩ := Insert_spec h2
    obtain ⟨s2, o2⟩ := q2 0 s1
    have l1 := shaped_zero.1 s1
    have l2 := shaped_zero.1 s2
    rw [inorder_of_leaf hl, inorder_of_leaf l1] at o1
    rw [inorder_of_leaf l1, inorder_of_leaf l2] at o2
    have hs2 := o2 (o1 hs)
    refine ⟨_, Delete_leaf_root t2 key l2 hs2, ?_⟩
    have hl3 : (t2.root.setKeys (t2.root.keys.erase key)).isLeaf = true := by
      rw [isLeaf_setKeys]; exact l2
    have hk3 : (t2.root.setKeys (t2.root.keys.erase key)).keys = t2.root.keys.erase key :=
      keys_setKeys _ _
    have hwf : WellFormed (t2.root.setKeys (t2.root.keys.erase key)) := by
      apply wellFormed_leaf hl3
      rw [hk3]
      exact List.Pairwise.sublist (List.erase_sublist _ _) hs2
    rw [Search_correct _ key hwf]
    congr 1
    rw [decide_eq_true_eq]
    simp only [allKeys_of_leaf hl3, hk3]
    rw [allKeys_of_leaf l2, allKeys_of_leaf l1] at p2
    rw [allKeys_of_leaf l1, allKeys_of_leaf hl] at p1
    have hperm : (t2.root.keys.erase key).Perm ((key :: t1.root.keys).erase key) :=
      List.Perm.erase key p2
    rw [List.erase_cons_head] at hperm
    exact hperm.symm.subset (p1.symm.subset (List.mem_cons_self _ _))

/-- C18 at the new tree and key 7: the third conjunct is about the absent key,
the last one about `Insert(7), Insert(7), Delete(7)`. -/
theorem C18_delete_at_leaf_root_witness :
    NewBPlusTree.root.isLeaf = true ∧ NewBPlusTree.root.keys.Sorted (· ≤ ·) ∧
      Delete NewBPlusTree 7 = .ok NewBPlusTree ∧
      ∃ t3, runOps NewBPlusTree [Op.insert 7, Op.insert 7, Op.delete 7] = .ok t3 ∧
        t3.root.keys = [7] ∧ Search t3 7 = .ok true :=
  ⟨rfl, by decide, (C18_delete_at_leaf_root NewBPlusTree 7 rfl (by decide)).1.1,
    _, rfl, rfl, rfl⟩

/-- C19: on an internal parent with `len(children) == len(keys)+1 >= 2` whose
children are all leaves, or all internal with `len(children) == len(keys)+1`,
`fixChild(parent, index)` completes for every valid child index, whichever of
its three branches is taken, and the in-order key sequence of the parent is the
same before and after; when the merge has made `tree.root` point to the merged
child (`moved = some j`), that child, the surviving top node, has this same
in-order sequence. -/
theorem C19_fixChild_regroups_keys (parent : BPlusTreeNode) (index : Nat) (isRoot : Bool)
    (hp : parent.isLeaf = false) (hcount : parent.children.length = parent.keys.length + 1)
    (htwo : 2 ≤ parent.children.length)
    (hkind : (∀ c ∈ parent.children, c.isLeaf = true) ∨
      (∀ c ∈ parent.children, c.isLeaf = false ∧ c.children.length = c.keys.length + 1))
    (hindex : index < parent.children.length) :
    ∃ p moved, fixChild parent index isRoot = .ok (p, moved) ∧ inorder p = inorder parent ∧
      ∀ j, moved = some j → ∃ top, p.children[j]? = some top ∧ inorder top = inorder parent :=
  fixChild_regroups parent index isRoot hp hcount htwo hkind hindex

/-- C19 in its three branches: borrowing from the right (`[10]` over `[1,2]`,
`[20,30,40]`, index 0), borrowing from the left (`[10]` over `[1,2,3]`, `[20,30]`,
index 1) and merging under the root (`[10]` over `[1,2]`, `[20,30]`, index 1). -/
theorem C19_fixChild_regroups_keys_witness :
    (∃ p moved, fixChild treeBorrow.root 0 true = .ok (p, moved) ∧
      inorder p = inorder treeBorrow.root ∧
      ∀ j, moved = some j →
        ∃ top, p.children[j]? = some top ∧ inorder top = inorder treeBorrow.root) ∧
    (∃ p moved,
      fixChild (nodeAt0 [10] [leafAt 1 [1, 2, 3] (some 2), leafAt 2 [20, 30] none]) 1 true =
        .ok (p, moved) ∧
      inorder p = inorder (nodeAt0 [10] [leafAt 1 [1, 2, 3] (some 2), leafAt 2 [20, 30] none]) ∧
      ∀ j, moved = some j → ∃ top, p.children[j]? = some top ∧ inorder top =
        inorder (nodeAt0 [10] [leafAt 1 [1, 2, 3] (some 2), leafAt 2 [20, 30] none])) ∧
    (∃ p moved, fixChild treeTwoMin.root 1 true = .ok (p, moved) ∧
      inorder p = inorder treeTwoMin.root ∧
      ∀ j, moved = some j →
        ∃ top, p.children[j]? = some top ∧ inorder top = inorder treeTwoMin.root) :=
  ⟨C19_fixChild_regroups_keys treeBorrow.root 0 true rfl (by decide) (by decide)
      (Or.inl (by decide)) (by decide),
    C19_fixChild_regroups_keys _ 1 true rfl (by decide) (by decide)
      (Or.inl (by decide)) (by decide),
    C19_fixChild_regroups_keys treeTwoMin.root 1 true rfl (by decide) (by decide)
      (Or.inl (by decide)) (by decide)⟩

/-- C20 as stated fails, a proper leaf chain being all it asks of the tree.  In
the tree `[10,50]` over the leaf `[1,2]`, the internal node `[20,30]` with three
leaves, and the leaf `[60,70]`, following `next` visits the five leaves in
order.  `Delete(1)` merges the leaf `[1,2]` with the internal node into a node
that is a leaf and takes its `next` from the internal node: nil.  The tree then
has the leaves at addresses 1 and 6, and following `next` visits only the
first. -/
theorem C20_unbalanced_merge_breaks_chain :
    VisitsAll treeLopsidedChain.root ∧
      Delete treeLopsidedChain 1 = .ok
        { root := nodeAt0 [50]
            [mk [2, 10, 20, 30]
              [leafAt 3 [15] (some 4), leafAt 4 [25] (some 5), leafAt 5 [35] (some 6)]
              true none 1,
              leafAt 6 [60, 70] none],
          alloc := 7 } ∧
      (leaves (nodeAt0 [50]
            [mk [2, 10, 20, 30]
              [leafAt 3 [15] (some 4), leafAt 4 [25] (some 5), leafAt 5 [35] (some 6)]
              true none 1,
              leafAt 6 [60, 70] none])).map addr = [1, 6] ∧
      nextWalk (nodeAt0 [50]
            [mk [2, 10, 20, 30]
              [leafAt 3 [15] (some 4), leafAt 4 [25] (some 5), leafAt 5 [35] (some 6)]
              true none 1,
              leafAt 6 [60, 70] none]) = [1] :=
  ⟨by decide, rfl, by decide, by decide⟩

/-- C20 amended: on a tree whose leaves are all at one depth and whose internal
nodes have `len(children) == len(keys)+1`, if following `next` from the leftmost
leaf visits every leaf exactly once in left-to-right order, it does so again
after a completed `Insert(key)` and after a completed `Delete(key)`, and the
number of leaves reached via `next` is the number of leaves reached by
descent. -/
theorem C20_leaf_chain_preserved (tree : BPlusTree) (key : Int) (h : Nat)
    (hs : Shaped h tree.root) (hv : VisitsAll tree.root) :
    (∀ tree', Insert tree key = .ok tree' →
      VisitsAll tree'.root ∧ (nextWalk tree'.root).length = (leaves tree'.root).length) ∧
    (∀ tree', Delete tree key = .ok tree' →
      VisitsAll tree'.root ∧ (nextWalk tree'.root).length = (leaves tree'.root).length) := by
  have hc := (visitsAll_iff_leafChain _).1 hv
  have fin : ∀ root', ChainKept (leaves tree.root) (leaves root') →
      VisitsAll root' ∧ (nextWalk root').length = (leaves root').length := by
    intro root' hk
    have hv' := (visitsAll_iff_leafChain _).2 (leafChain_of_chainKept hk hc)
    exact ⟨hv', by rw [hv'.2, List.length_map]⟩
  exact ⟨fun t' hi => fin _ (chainKept_of_links (Insert_links hi).symm),
    fun t' hd => fin _ (Delete_chain hs hd)⟩

/-- C20 amended at the tree `[10,50]` over `[1,2]`, `[20,30]`, `[60,70]`:
`Insert(25)`, and `Delete(1)`, which merges the first two leaves. -/
theorem C20_leaf_chain_preserved_witness :
    Shaped 1 treeThreeMin.root ∧ VisitsAll treeThreeMin.root ∧
      (∃ tree', Insert treeThreeMin 25 = .ok tree' ∧ VisitsAll tree'.root ∧
        (nextWalk tree'.root).length = (leaves tree'.root).length) ∧
      (∃ tree', Delete treeThreeMin 1 = .ok tree' ∧ VisitsAll tree'.root ∧
        (nextWalk tree'.root).length = (leaves tree'.root).length) :=
  ⟨by decide, by decide,
    ⟨_, rfl, (C20_leaf_chain_preserved treeThreeMin 25 1 (by decide) (by decide)).1 _ rfl⟩,
    ⟨_, rfl, (C20_leaf_chain_preserved treeThreeMin 1 1 (by decide) (by decide)).2 _ rfl⟩⟩

end Db
